import Mathlib

/-!
# MCTS engine of `src/mcts.cpp`: tree merge, backpropagation, selection, search

The search tree of `MCTSNode<S,A>` is embedded as an inductive rose tree. A node
owns its children (`std::vector<MCTSNode*>`), so the children are sub-terms; the
`std::optional<MCTSNode*> parent` field is kept as an `Option Unit` that records
whether the optional holds a pointer (all that `is_root` reads).

Numbers: `tot` and `expected` are C++ `double`; they are modelled by exact
rationals. `count` is a C++ `int`; it is modelled by an unbounded `Int`
(signed overflow is undefined behaviour in C++ and is outside the model).

`backprop` walks `parent` pointers upwards, so it is embedded separately over an
explicit store of node cells with parent addresses (`MCTSCell`, `Heap`).

`basic_rollout`, `search` and `par_search` create and delete node objects while
other objects still point to them, so they are embedded over a store of objects
with addresses in which a deleted object leaves a hole (`MCTSObject`, `Store`);
an access to a deleted object is the failure `use_after_free`.
-/

namespace MCTS

/-! ## Data model -/

/-- The class `MCTSNode<S,A>` (fields `state`, `children`, `parent`, `expected`,
`tot`, `count`; the `mdp` field is passed to the operations that use it). -/
inductive MCTSNode (S : Type) where
  | mk (state : S) (children : List (MCTSNode S)) (parent : Option Unit)
       (expected : Option ℚ) (tot : ℚ) (count : Int) : MCTSNode S

/-- Result of a C++ member function that mutates `*this` and may throw: `ok a`
is normal return with `*this` equal to `a`; `threw a` is an exception leaving
the function with `*this` equal to `a` at the moment of the throw. -/
inductive Outcome (α : Type) where
  | ok (a : α)
  | threw (a : α)

namespace MCTSNode

variable {S : Type}

/-- Field `state`. -/
def state : MCTSNode S → S
  | mk s _ _ _ _ _ => s

/-- Field `children`. -/
def children : MCTSNode S → List (MCTSNode S)
  | mk _ cs _ _ _ _ => cs

/-- Field `parent` (only whether it holds a value). -/
def parent : MCTSNode S → Option Unit
  | mk _ _ p _ _ _ => p

/-- Field `expected`. -/
def expected : MCTSNode S → Option ℚ
  | mk _ _ _ e _ _ => e

/-- Field `tot`. -/
def tot : MCTSNode S → ℚ
  | mk _ _ _ _ t _ => t

/-- Field `count`. -/
def count : MCTSNode S → Int
  | mk _ _ _ _ _ c => c

/-- `is_root()`: `return !parent.has_value();`. -/
def is_root (n : MCTSNode S) : Bool := !n.parent.isSome

/-- `is_leaf()`: `return children.size() == 0;`. -/
def is_leaf (n : MCTSNode S) : Bool := n.children.length == 0

mutual
/-- The copy constructor `MCTSNode(const MCTSNode& other, optional parent)`:
copies `state`, `expected`, `tot`, `count`, takes the given `parent`, and pushes
a copy of every child of `other` whose parent is the new node. -/
def copy : MCTSNode S → Option Unit → MCTSNode S
  | mk s cs _ e t c, p => mk s (copyChildren cs) p e t c
/-- The loop `for (auto child : other.children) push_back(new MCTSNode(*child, this))`. -/
def copyChildren : List (MCTSNode S) → List (MCTSNode S)
  | [] => []
  | c :: cs => copy c (some ()) :: copyChildren cs
end

/-- The constructor `MCTSNode(MCTSNode* parent, S state)`: no children, the given
parent, `tot = 0`, `count = 0`, `expected` default-constructed (empty). -/
def child (s : S) : MCTSNode S := mk s [] (some ()) none 0 0

/-- The constructor `MCTSNode(mdp, state, children, parent)`:
`expected(std::nullopt), tot(0), count(0)`. -/
def fresh (s : S) (cs : List (MCTSNode S)) (p : Option Unit) : MCTSNode S :=
  mk s cs p none 0 0

end MCTSNode

/-- `std::find_if` over a vector: the position of the first element satisfying
`p`, given as the elements before it, the element, and the elements after it;
`none` is the `end()` iterator. -/
def find_if {α : Type} (p : α → Bool) : List α → Option (List α × α × List α)
  | [] => none
  | c :: cs =>
    if p c then some ([], c, cs)
    else match find_if p cs with
      | some (pre, x, post) => some (c :: pre, x, post)
      | none => none

namespace MCTSNode

variable {S : Type}

section Merge

variable [DecidableEq S]

mutual
/-- The member function `this->merge(other)`. The two guards throw before any
write. Then `tot` and `count` are added (`expected` is not written), and the loop
over `other->children` runs; an exception thrown by a recursive call leaves the
loop and the function with the writes made so far. -/
def merge : MCTSNode S → MCTSNode S → Outcome (MCTSNode S)
  | mk s cs p e t c, mk bs bcs bp be bt bc =>
    if (is_root (mk s cs p e t c) && !is_root (mk bs bcs bp be bt bc))
        || (!is_root (mk s cs p e t c) && is_root (mk bs bcs bp be bt bc)) then
      .threw (mk s cs p e t c)
    else if s ≠ bs then
      .threw (mk s cs p e t c)
    else
      match mergeChildren cs bcs with
      | .ok cs2 => .ok (mk s cs2 p e (t + bt) (c + bc))
      | .threw cs2 => .threw (mk s cs2 p e (t + bt) (c + bc))
/-- The loop `for (auto their_child : other->children)` of `merge`, run on the
current `this->children`: the first child of `this` with equal state is merged in
place, otherwise a copy of `their_child` with parent `this` is pushed back. -/
def mergeChildren : List (MCTSNode S) → List (MCTSNode S) → Outcome (List (MCTSNode S))
  | ours, [] => .ok ours
  | ours, their :: rest =>
    match find_if (fun our_child => decide (our_child.state = their.state)) ours with
    | some (pre, our_child, post) =>
      match merge our_child their with
      | .ok merged => mergeChildren (pre ++ merged :: post) rest
      | .threw partly => .threw (pre ++ partly :: post)
    | none => mergeChildren (ours ++ [copy their (some ())]) rest
end

end Merge

/-! ## Measures and predicates on trees -/

mutual
/-- Sum of `count` over all nodes of a tree. -/
def sumCount : MCTSNode S → Int
  | mk _ cs _ _ _ c => c + sumCountList cs
/-- Sum of `count` over all nodes of a forest. -/
def sumCountList : List (MCTSNode S) → Int
  | [] => 0
  | c :: cs => sumCount c + sumCountList cs
end

mutual
/-- Sum of `tot` over all nodes of a tree. -/
def sumTot : MCTSNode S → ℚ
  | mk _ cs _ _ t _ => t + sumTotList cs
/-- Sum of `tot` over all nodes of a forest. -/
def sumTotList : List (MCTSNode S) → ℚ
  | [] => 0
  | c :: cs => sumTot c + sumTotList cs
end

mutual
/-- Every node stored in a `children` vector, at any depth, has a parent pointer
(the constructors that insert into `children` always pass `this`/`cur`). -/
def linked : MCTSNode S → Bool
  | mk _ cs _ _ _ _ => linkedList cs
/-- Every node of the forest has a parent pointer and is `linked`. -/
def linkedList : List (MCTSNode S) → Bool
  | [] => true
  | c :: cs => c.parent.isSome && linked c && linkedList cs
end

mutual
/-- All nodes of a tree, the node itself first, then its subtrees in child order. -/
def allNodes : MCTSNode S → List (MCTSNode S)
  | mk s cs p e t c => mk s cs p e t c :: allNodesList cs
/-- All nodes of a forest. -/
def allNodesList : List (MCTSNode S) → List (MCTSNode S)
  | [] => []
  | c :: cs => allNodes c ++ allNodesList cs
end

/-- The data-model invariant on one node: `expected` is present iff `count > 0`,
and then it equals `tot / count`. -/
def expectedOK (n : MCTSNode S) : Prop :=
  match n.expected with
  | none => ¬ 0 < n.count
  | some e => 0 < n.count ∧ e = n.tot / n.count

mutual
/-- No node of the tree has two children with equal state. -/
def uniqueSiblings : MCTSNode S → Prop
  | mk _ cs _ _ _ _ => (cs.map state).Nodup ∧ uniqueSiblingsList cs
/-- Every tree of the forest satisfies `uniqueSiblings`. -/
def uniqueSiblingsList : List (MCTSNode S) → Prop
  | [] => True
  | c :: cs => uniqueSiblings c ∧ uniqueSiblingsList cs
end

mutual
/-- The tree with the same shape, states, parents, `expected` and child order,
in which every `tot` and every `count` is multiplied by two. -/
def doubled : MCTSNode S → MCTSNode S
  | mk s cs p e t c => mk s (doubledList cs) p e (2 * t) (2 * c)
/-- The forest of doubled trees, in the same order. -/
def doubledList : List (MCTSNode S) → List (MCTSNode S)
  | [] => []
  | c :: cs => doubled c :: doubledList cs
end

section MergeSpec

variable [DecidableEq S]

mutual
/-- The relation that claim C2 states between `b`, `a` before `merge(a, b)` and
`a` after it: `tot` and `count` of `a` have grown by those of `b`, and the same
holds for every child `bc` of `b` and the first child `ac` of `a` with equal
state (the pair that `merge` matches), `ac` being read before the merge and at
the same position after it. -/
def addsStats : MCTSNode S → MCTSNode S → MCTSNode S → Prop
  | mk _ bcs _ _ bt bc, a, r =>
    r.tot = a.tot + bt ∧ r.count = a.count + bc ∧ addsStatsChildren bcs a.children r.children
/-- The part of `addsStats` on the children of `b`. -/
def addsStatsChildren : List (MCTSNode S) → List (MCTSNode S) → List (MCTSNode S) → Prop
  | [], _, _ => True
  | their :: rest, ours, after =>
    (match find_if (fun our_child => decide (our_child.state = their.state)) ours with
      | some (pre, our_child, _) =>
        ∃ merged, after[pre.length]? = some merged ∧ addsStats their our_child merged
      | none => True) ∧
    addsStatsChildren rest ours after
end

end MergeSpec

/-! ## Example trees (states are natural numbers) -/

/-- A root with state 0 and two visited children with states 1 and 2. -/
def exA : MCTSNode Nat :=
  mk 0 [mk 1 [] (some ()) (some 1) 1 1, mk 2 [] (some ()) (some (-1)) (-1) 1] none (some 0) 0 2

/-- A root with state 0 and two visited children with states 2 and 3. -/
def exB : MCTSNode Nat :=
  mk 0 [mk 2 [] (some ()) (some 1) 1 1, mk 3 [] (some ()) (some 0) 0 1] none (some (1/2)) 1 2

/-- An unvisited node with state 0 that has a parent (it is not a root). -/
def exC : MCTSNode Nat := mk 0 [] (some ()) none 0 0

/-- A root visited once with outcome 1. -/
def exWin : MCTSNode Nat := mk 0 [] none (some 1) 1 1

/-- A root visited once with outcome 0. -/
def exDraw : MCTSNode Nat := mk 0 [] none (some 0) 0 1

/-- A root with one unvisited child of state 1. -/
def exOne : MCTSNode Nat := mk 0 [mk 1 [] (some ()) none 0 0] none none 0 0

/-- A root with two children that both have state 1, each visited once. -/
def exTwins : MCTSNode Nat :=
  mk 0 [mk 1 [] (some ()) (some 1) 1 1, mk 1 [] (some ()) (some 1) 1 1] none (some 1) 2 2

/-- A root with state 0 and no children. -/
def exBare : MCTSNode Nat := mk 0 [] none none 0 0

end MCTSNode

/-! ## Store model for `backprop` -/

/-- The fields of an `MCTSNode` object that `backprop` reads or writes, the
`parent` pointer being an address in the store (`children` is not used by
`backprop`). -/
structure MCTSCell (S : Type) where
  /-- Field `state`. -/
  state : S
  /-- Field `parent`: `none` is an empty optional, `some p` points to cell `p`. -/
  parent : Option Nat
  /-- Field `expected`. -/
  expected : Option ℚ
  /-- Field `tot`. -/
  tot : ℚ
  /-- Field `count`. -/
  count : Int

/-- The store: the node object at every address. -/
abbrev Heap (S : Type) := Nat → MCTSCell S

/-- The three writes of `backprop` on the node at address `cur`:
`cur->tot += parity*reward; cur->count += 1; cur->expected = cur->tot / cur->count;`. -/
def annotate {S : Type} (h : Heap S) (cur : Nat) (parity : Int) (reward : ℚ) : Heap S :=
  fun a =>
    if a = cur then
      { state := (h cur).state
        parent := (h cur).parent
        tot := (h cur).tot + parity * reward
        count := (h cur).count + 1
        expected := some (((h cur).tot + parity * reward) / (((h cur).count + 1 : Int) : ℚ)) }
    else h a

/-- The loop `while (cur->parent.has_value()) { … cur = cur->parent.value(); parity *= -1; }`
of `backprop` followed by the writes on the root. `fuel` bounds the number of
nodes visited; `none` means the bound was reached before a root. -/
def backpropLoop {S : Type} (reward : ℚ) : Nat → Heap S → Nat → Int → Option (Heap S)
  | 0, _, _, _ => none
  | fuel + 1, h, cur, parity =>
    match (h cur).parent with
    | some p => backpropLoop reward fuel (annotate h cur parity reward) p (parity * (-1))
    | none => some (annotate h cur parity reward)

/-- The member function `this->backprop()`; `reward` is `mdp.reward`. It throws,
before any write, when the reward of `this->state` is absent; otherwise the loop
starts at `this` with `parity = -1`. -/
def backprop {S : Type} (reward : S → Option ℚ) (fuel : Nat) (h : Heap S) (this : Nat) :
    Option (Outcome (Heap S)) :=
  match reward (h this).state with
  | none => some (.threw h)
  | some r => (backpropLoop r fuel h this (-1)).map .ok

/-- A sequence of `backprop` calls, all of which return normally. -/
def backprops {S : Type} (reward : S → Option ℚ) (fuel : Nat) :
    Heap S → List Nat → Option (Heap S)
  | h, [] => some h
  | h, t :: ts =>
    match backprop reward fuel h t with
    | some (.ok h2) => backprops reward fuel h2 ts
    | _ => none

/-- The `k`-th node on the parent chain of `a` (`a` itself for `k = 0`). -/
def ancestor {S : Type} (h : Heap S) : Nat → Nat → Option Nat
  | 0, a => some a
  | k + 1, a =>
    match (h a).parent with
    | some p => ancestor h k p
    | none => none

/-- The first `fuel` nodes of the parent chain of `a`, starting with `a`. -/
def chain {S : Type} (h : Heap S) : Nat → Nat → List Nat
  | 0, _ => []
  | fuel + 1, a =>
    a :: match (h a).parent with
      | some p => chain h fuel p
      | none => []

/-- The data-model invariant on one cell: `expected` is present iff `count > 0`,
and then it equals `tot / count`. -/
def cellOK {S : Type} (c : MCTSCell S) : Prop :=
  (c.expected.isSome = true ↔ 0 < c.count) ∧ ∀ e, c.expected = some e → e = c.tot / c.count

/-- The number of calls in `ts` whose start node is `a` or a descendant of `a`,
that is, whose parent chain passes through `a`. -/
def visitsThrough {S : Type} (h : Heap S) (fuel : Nat) (ts : List Nat) (a : Nat) : Nat :=
  (ts.filter (fun t => decide (a ∈ chain h fuel t))).length

/-- A store in which the parent of address `a + 1` is `a`, address 0 is a root,
the state of a node is its address, and no node has been visited. -/
def exHeap : Heap Nat :=
  fun a => { state := a, parent := if a = 0 then none else some (a - 1),
             expected := none, tot := 0, count := 0 }

/-- A reward function: state 2 is terminal with reward 1. -/
def exReward : Nat → Option ℚ :=
  fun s => if s = 2 then some 1 else none

/-! ## Scoring and selection -/

/-- The member function `this->score(cur_itersm1, exploration_bias, apprentice)`
on a node with a parent. `parent_count` is `this->parent.value()->count`, `eval`
is `apprentice.eval`, and `sqrt`, `log` are the functions of `<cmath>`; the
arithmetic is that of the field `R` (the reals in the claims). The argument
`cur_itersm1` is not used by the code. -/
def score {S R : Type} [Field R] (sqrt log : R → R) (parent_count : Int) (n : MCTSNode S)
    (exploration_bias : R) (eval : S → R) : R :=
  let bonus_weight : R := 1 / 2
  let exploration_term :=
    exploration_bias * sqrt (log ((parent_count : R) + 1) / ((n.count : R) + 1))
  let exp : R := ((n.expected.getD 0 : ℚ) : R)
  exp + bonus_weight * eval n.state + exploration_bias * exploration_term

/-- The loop of `std::max_element`: `largest` is the element at index `li`, the
elements still to visit start at index `i`; an element replaces `largest` only
when `comp largest element` holds. The result is the index of the maximum. -/
def max_element_loop {α : Type} (comp : α → α → Bool) : α → Nat → Nat → List α → Nat
  | _, li, _, [] => li
  | largest, li, i, x :: xs =>
    if comp largest x then max_element_loop comp x i (i + 1) xs
    else max_element_loop comp largest li (i + 1) xs

/-- The function `std::max_element(first, last, comp)` as an index into the
range; `none` is `last` (empty range). -/
def max_element {α : Type} (comp : α → α → Bool) : List α → Option Nat
  | [] => none
  | x :: xs => some (max_element_loop comp x 0 1 xs)

/-- Modelled from the spec: `select_randomly(g, container)` is declared in
`util.h`, which is not part of the sources; it returns an element of a non-empty
container chosen uniformly at random. `draw` is the random number drawn from the
generator `g`, and the result is the index of the chosen element. -/
def select_randomly {α : Type} (draw : Nat) (xs : List α) : Nat :=
  draw % xs.length

/-- The member function `this->select(cur_itersm1, exploration_bias, apprentice)`.
The result is the index in `children` of the node returned (`none` is
`std::nullopt`). The children are scored with `this->count` as the count of
their parent. -/
def select {S R : Type} [LinearOrderedField R] (sqrt log : R → R) (draw : Nat)
    (n : MCTSNode S) (exploration_bias : R) (eval : S → R) : Option Nat :=
  if n.children.length = 0 then none
  else if n.children.all (fun child => child.expected.isNone) then
    some (select_randomly draw n.children)
  else
    max_element
      (fun a b => decide (score sqrt log n.count a exploration_bias eval
                            < score sqrt log n.count b exploration_bias eval))
      n.children

/-- A root visited three times whose children (states 1, 2, 3) have `expected`
1, 2 and 2. -/
def exScored : MCTSNode Nat :=
  MCTSNode.mk 0 [MCTSNode.mk 1 [] (some ()) (some 1) 1 1, MCTSNode.mk 2 [] (some ()) (some 2) 2 1,
    MCTSNode.mk 3 [] (some ()) (some 2) 2 1] none (some (5/3)) 5 3

/-! ## Environment, random draws and results of execution -/

/-- The class `MDP<S,A>`: transition function, legal actions, reward and
terminal test of the environment. -/
structure MDP (S A : Type) where
  /-- Field `tr`. -/
  tr : S → A → S
  /-- Field `actions`. -/
  actions : S → List A
  /-- Field `reward`. -/
  reward : S → Option ℚ
  /-- Field `is_terminal`. -/
  is_terminal : S → Bool

/-- The state of the generator `g`: the sequence of numbers it is going to
produce. -/
abbrev Rng := Nat → Nat

/-- The next number produced by the generator. -/
def Rng.draw (g : Rng) : Nat := g 0

/-- The generator after one number has been produced. -/
def Rng.next (g : Rng) : Rng := fun i => g (i + 1)

/-- The ways in which the search functions leave without a result: the
`std::runtime_error`s thrown in the source, and the events outside them
(`.value()` on an empty optional, a failed `assert`, `std::terminate` after an
exception in a worker thread, a division by zero, and `use_after_free`: a read,
a write or a `delete` of a node object that has been deleted, from where on the
behaviour is undefined). -/
inductive Failure where
  | cannot_act
  | no_actions_expand
  | no_actions_rollout
  | no_reward
  | no_child
  | no_best
  | bad_optional_access
  | assertion
  | terminate
  | division_by_zero
  | merge_mismatch
  | use_after_free
  deriving DecidableEq

/-- Result of running code on `*this`: `done a out` is normal return with
`*this` equal to `a` and value `out`; `threw a e` is an exit by failure `e` with
`*this` equal to `a` at that moment; `stuck` means that a play-out did not end
within the bound on its length. -/
inductive Exec (α β : Type) where
  | done (a : α) (out : β)
  | threw (a : α) (e : Failure)
  | stuck

/-! ## Expansion and replay -/

/-- The member function `this->expand()`: on a node without children the
children are built from `mdp.actions(state)`, one per action in order; the
result is the index of the child chosen by `select_randomly`. -/
def expand {S A : Type} (mdp : MDP S A) (draw : Nat) (n : MCTSNode S) :
    Exec (MCTSNode S) Nat :=
  if n.children.length = 0 then
    if (mdp.actions n.state).length = 0 then .threw n .no_actions_expand
    else
      .done
        (MCTSNode.mk n.state
          ((mdp.actions n.state).map (fun action => MCTSNode.child (mdp.tr n.state action)))
          n.parent n.expected n.tot n.count)
        (select_randomly draw
          ((mdp.actions n.state).map (fun action => MCTSNode.child (mdp.tr n.state action))))
  else .done n (select_randomly draw n.children)

/-- The loop of the member function `play`, at the node `cur`; `at_this` tells
whether `cur == this`. The result is the tree below `cur` after the walk and the
path (child indices) from `cur` to the node returned; `none` is undefined
behaviour. The test `child != children.end()` compares with the end of
`this->children`: when `cur` is another node, `child` points into another
vector and the test holds, so a `find_if` without match on a non-empty
`cur->children` leads to `*child` on the end iterator. -/
def play_walk {S A : Type} [DecidableEq S] (mdp : MDP S A) :
    Bool → MCTSNode S → List A → Option (MCTSNode S × List Nat)
  | _, cur, [] => some (cur, [])
  | at_this, cur, action :: rest =>
    match find_if (fun child => decide (mdp.tr cur.state action = child.state)) cur.children with
    | some (pre, child, post) =>
      match play_walk mdp false child rest with
      | some (child2, path) =>
        some (MCTSNode.mk cur.state (pre ++ child2 :: post) cur.parent cur.expected cur.tot
          cur.count, pre.length :: path)
      | none => none
    | none =>
      if at_this || cur.children.isEmpty then
        match play_walk mdp false (MCTSNode.child (mdp.tr cur.state action)) rest with
        | some (next_node, path) =>
          some (MCTSNode.mk cur.state (cur.children ++ [next_node]) cur.parent cur.expected
            cur.tot cur.count, cur.children.length :: path)
        | none => none
      else none

/-- The member function `this->play(actions)`, `root` being `*this`. -/
def play {S A : Type} [DecidableEq S] (mdp : MDP S A) (root : MCTSNode S) (actions : List A) :
    Option (MCTSNode S × List Nat) :=
  play_walk mdp true root actions

/-! ## Best action and the budget split of `par_search` -/

/-- The value `expected.value_or(-infinity)`: an absent `expected` is the bottom
element, below every number. -/
def value_or_bot (expected : Option ℚ) : WithBot ℚ := expected

section BestAction

variable {S A : Type} [DecidableEq S]

/-- Modelled from the spec: `argmax(begin, end, f)` is declared in `util.h`,
which is not part of the sources; it returns the position of an element whose
value under `f` is maximal, and `end` on an empty range. Here the values have
been computed beforehand, the first maximum is taken, and the result is the
element with its value. -/
def argmax {α V : Type} [LinearOrder V] (xs : List (α × V)) : Option (α × V) :=
  (max_element (fun a b => decide (a.2 < b.2)) xs).bind (fun i => xs[i]?)

end BestAction

section SearchTop

variable {S A R : Type} [DecidableEq S] [LinearOrderedField R]
variable (mdp : MDP S A) (fuel : Nat) (sqrt log : R → R)

/-- The 32-bit `unsigned` value `num_iters_per_thread = iters / num_threads`
(`iters` is converted to `unsigned`). -/
def num_iters_per_thread (iters : Int) (num_threads : Nat) : Int :=
  (iters % 2 ^ 32) / (num_threads : Int)

/-- The 32-bit `unsigned` value
`num_iters_last_thread = iters - (num_threads - 1) * num_iters_per_thread`. -/
def num_iters_last_thread (iters : Int) (num_threads : Nat) : Int :=
  (iters - ((num_threads : Int) - 1) * num_iters_per_thread iters num_threads) % 2 ^ 32

/-- The values `num_iters` of the workers `i = 0, …, num_threads - 1`. -/
def worker_shares (iters : Int) (num_threads : Nat) : List Int :=
  (List.range num_threads).map (fun i =>
    if i = num_threads - 1 then num_iters_last_thread iters num_threads
    else num_iters_per_thread iters num_threads)

/-- Conversion of a 32-bit `unsigned` value to the `int` parameter of `search`. -/
def to_int (v : Int) : Int :=
  if v < 2 ^ 31 then v else v - 2 ^ 32

end SearchTop
/-! ## Conditions on environments, statistics by state path -/

/-- The state of `*this` after the execution, when it ended. -/
def Exec.self {α β : Type} : Exec α β → Option α
  | .done a _ => some a
  | .threw a _ => some a
  | .stuck => none

/-- The state of `*this` after the execution. -/
def Outcome.self {α : Type} : Outcome α → α
  | .ok a => a
  | .threw a => a

/-- The environment contract: a state that is not terminal has a legal action,
and a terminal state has a reward. -/
def MDP.contract {S A : Type} (mdp : MDP S A) : Prop :=
  (∀ s, mdp.is_terminal s = false → mdp.actions s ≠ []) ∧
  (∀ s, mdp.is_terminal s = true → (mdp.reward s).isSome = true)

/-- Every play-out ends: `measure` decreases with every legal action of a state
that is not terminal. -/
def MDP.descends {S A : Type} (mdp : MDP S A) (measure : S → Nat) : Prop :=
  ∀ s, mdp.is_terminal s = false → ∀ a ∈ mdp.actions s, measure (mdp.tr s a) < measure s

/-- Distinct legal actions of a state lead to distinct states (and no action is
listed twice). -/
def MDP.distinct_successors {S A : Type} (mdp : MDP S A) : Prop :=
  ∀ s, ((mdp.actions s).map (mdp.tr s)).Nodup

/-- The relation `R` applied at some node of a tree: at the root of the tree or
inside one of its subtrees. The nodes above the node are left as they are; this
fits calls that write only the node they are called on and nodes below it, as
`expand`, `play` and `merge` do. -/
inductive Inside {S : Type} (R : MCTSNode S → MCTSNode S → Prop) :
    MCTSNode S → MCTSNode S → Prop where
  | at_node (n n2 : MCTSNode S) : R n n2 → Inside R n n2
  | in_child (s : S) (pre : List (MCTSNode S)) (ch ch2 : MCTSNode S) (post : List (MCTSNode S))
      (p : Option Unit) (e : Option ℚ) (t : ℚ) (k : Int) :
      Inside R ch ch2 →
      Inside R (.mk s (pre ++ ch :: post) p e t k) (.mk s (pre ++ ch2 :: post) p e t k)

/-- The `tot` and `count` of the node reached from the root by a path of states
(at each step the first child with the given state); `none` when there is no
such node. -/
def stats_at {S : Type} [DecidableEq S] : MCTSNode S → List S → Option (ℚ × Int)
  | n, [] => some (n.tot, n.count)
  | n, s :: rest =>
    match find_if (fun child => decide (child.state = s)) n.children with
    | some (_, child, _) => stats_at child rest
    | none => none

/-! ## Example environments -/

/-- A counting game: a state is a number, an action subtracts 1 or 2, state 0 is
terminal with reward 1. -/
def exGame : MDP Nat Nat where
  tr := fun s a => s - a
  actions := fun s => if s = 0 then [] else if s = 1 then [1] else [1, 2]
  reward := fun s => if s = 0 then some 1 else none
  is_terminal := fun s => decide (s = 0)

/-- An environment in which the two legal actions of state 0 lead to the same
state 1, which is terminal with reward 1. -/
def exTwinGame : MDP Nat Nat where
  tr := fun s _ => s + 1
  actions := fun s => if s = 0 then [0, 1] else []
  reward := fun s => if s = 0 then none else some 1
  is_terminal := fun s => decide (s ≠ 0)

/-- A generator that always produces 1. -/
def exOnes : Rng := fun _ => 1

/-- The tree left by `play(root, [1, 1])` in `exGame` on a fresh root of state 5:
the chain of states 5, 4, 3. -/
def exPlayed : MCTSNode Nat :=
  MCTSNode.mk 5 [MCTSNode.mk 4 [MCTSNode.mk 3 [] (some ()) none 0 0] (some ()) none 0 0]
    none none 0 0

/-- The first node of a list with the given state, as `find_if` finds it. -/
def first_child {S : Type} [DecidableEq S] (s : S) (l : List (MCTSNode S)) :
    Option (MCTSNode S) :=
  (find_if (fun child => decide (child.state = s)) l).map (fun r => r.2.1)

/-- The sum of the statistics found in two trees under one state path, where a
path that is absent from a tree contributes nothing. -/
def add_stats : Option (ℚ × Int) → Option (ℚ × Int) → Option (ℚ × Int)
  | some (t1, c1), some (t2, c2) => some (t1 + t2, c1 + c2)
  | some x, none => some x
  | none, some y => some y
  | none, none => none

/-- The relation between a node before and after an operation that the
invariants of the tree rest on: the state and the parent are kept, a tree whose
stored children all have a parent stays so, and, under the condition `D` on the
environment, a tree without equal-state siblings stays so. -/
def keeps {S : Type} (D : Prop) (n n2 : MCTSNode S) : Prop :=
  n2.state = n.state ∧ n2.parent = n.parent ∧
  (MCTSNode.linked n = true → MCTSNode.linked n2 = true) ∧
  (D → MCTSNode.uniqueSiblings n → MCTSNode.uniqueSiblings n2)

/-! ## The chess environment of `uci_chess` -/

/-- Modelled from the spec: the enumeration `thc::TERMINAL` of `thc.h`, which is
not among the sources: the result of `ChessRules::Evaluate`, one of the two
checkmates and two stalemates that `uci_chess` names, or that the game has not
ended. -/
inductive TERMINAL where
  | NOT_TERMINAL
  | TERMINAL_WCHECKMATE
  | TERMINAL_WSTALEMATE
  | TERMINAL_BCHECKMATE
  | TERMINAL_BSTALEMATE
  deriving DecidableEq

/-- The function `reward` of `uci_chess`. The position type `thc::ChessRules` is
a parameter: `Evaluate cr` is the value that `cr.Evaluate(eval)` stores in
`eval`, and `white cr` is the field `cr.white`. -/
def uci_chess.reward {CR : Type} (Evaluate : CR → TERMINAL) (white : CR → Bool) (cr : CR) :
    Option ℚ :=
  if Evaluate cr = TERMINAL.TERMINAL_WCHECKMATE then
    if white cr then some (-1) else some 1
  else if Evaluate cr = TERMINAL.TERMINAL_BCHECKMATE then
    if !white cr then some (-1) else some 1
  else some 0

/-- The index that `trainf` of `uci_chess` sets to 1 in `action_tensor` for the
move `action`: `src = (src_str[0]-'a', src_str[1]-'1')`, likewise `dst` from the
next two characters, and the index is `src.first*src.second * dst.first*dst.second`.
The result is `none` for a string of fewer than four characters, where `substr`
throws or a character past the end is read. The differences and the product are
`int`s; for characters of a move string nothing overflows. -/
def uci_chess.trainf_index (action : String) : Option Int :=
  match action.data with
  | c0 :: c1 :: c2 :: c3 :: _ =>
    let src : Int × Int := ((c0.toNat : Int) - ('a'.toNat : Int), (c1.toNat : Int) - ('1'.toNat : Int))
    let dst : Int × Int := ((c2.toNat : Int) - ('a'.toNat : Int), (c3.toNat : Int) - ('1'.toNat : Int))
    some (src.1 * src.2 * dst.1 * dst.2)
  | _ => none

/-- The decoding of a sampled index in `dm_rollout`:
`src = sample / 64; tgt = sample % 64;` and the move string made of the
characters `src % 8 + 'a'`, `src / 8 + '1'`, `tgt % 8 + 'a'`, `tgt / 8 + '1'`.
The sample is an index into the distribution and so not negative. -/
def dm_rollout.decode (sample : Nat) : String :=
  let src := sample / 64
  let tgt := sample % 64
  String.mk [Char.ofNat (src % 8 + 'a'.toNat), Char.ofNat (src / 8 + '1'.toNat),
    Char.ofNat (tgt % 8 + 'a'.toNat), Char.ofNat (tgt / 8 + '1'.toNat)]

/-- The move string `f1 r1 f2 r2` of the claims on the move index: files and
ranks are given by their numbers from 0, file 0 being `a` and rank 0 being `1`. -/
def move_string (f1 r1 f2 r2 : Nat) : String :=
  String.mk [Char.ofNat (f1 + 'a'.toNat), Char.ofNat (r1 + '1'.toNat),
    Char.ofNat (f2 + 'a'.toNat), Char.ofNat (r2 + '1'.toNat)]

/-- An abstract chess position for examples: the value `Evaluate` gives and the
side to move. -/
def exStart : TERMINAL × Bool := (TERMINAL.NOT_TERMINAL, true)

/-- A store for examples on the chess environment: every cell is an unvisited
root whose position is `exStart`. -/
def exChessHeap : Heap (TERMINAL × Bool) :=
  fun _ => { state := exStart, parent := none, expected := none, tot := 0, count := 0 }

/-! ## Store model with object lifetime -/

/-- An `MCTSNode` object in the store with all its fields but `mdp`; `children`
and `parent` hold addresses. -/
structure MCTSObject (S : Type) where
  /-- Field `state`. -/
  state : S
  /-- Field `children`: the addresses in the vector, in order. -/
  children : List Nat
  /-- Field `parent`: `none` is an empty optional, `some p` points to address `p`. -/
  parent : Option Nat
  /-- Field `expected`. -/
  expected : Option ℚ
  /-- Field `tot`. -/
  tot : ℚ
  /-- Field `count`. -/
  count : Int
  deriving DecidableEq

/-- The store of node objects: the entry at index `a` is the object at address
`a`, or `none` once that object has been deleted; `new` appends an entry.
Pointers to a deleted object stay where they are (in a `children` vector, in a
`parent` field). -/
abbrev Store (S : Type) := List (Option (MCTSObject S))

/-- Access through a pointer: the object at address `p`, or `none` when there is
no live object there (it has been deleted), in which case the access is
undefined behaviour. -/
def Store.read {S : Type} (st : Store S) (p : Nat) : Option (MCTSObject S) :=
  match st[p]? with
  | some (some o) => some o
  | _ => none

/-- The constructor `MCTSNode(MCTSNode* parent, S state)`: `state` and `parent`
as given, `tot(0)`, `count(0)`, and the default members, an empty `children`
vector and an empty `expected`. -/
def MCTSObject.child {S : Type} (parent : Nat) (state : S) : MCTSObject S :=
  { state := state, children := [], parent := some parent, expected := none, tot := 0, count := 0 }

/-- The expression `delete p`: the destructor `~MCTSNode()` runs
`for (auto child : children) delete child;` and then the object is gone.
Deleting what has been deleted already is undefined behaviour. `fuel` bounds
the depth of the recursion. -/
def Store.delete {S : Type} : Nat → Store S → Nat → Exec (Store S) Unit
  | 0, _, _ => .stuck
  | fuel + 1, st, p =>
    match Store.read st p with
    | none => .threw st .use_after_free
    | some o =>
      match o.children.foldl
          (fun (acc : Exec (Store S) Unit) child =>
            match acc with
            | .done st2 _ => Store.delete fuel st2 child
            | .threw st2 e => .threw st2 e
            | .stuck => .stuck)
          (Exec.done st ()) with
      | .done st2 _ => .done (st2.set p none) ()
      | .threw st2 e => .threw st2 e
      | .stuck => .stuck

/-- The end of the lifetime of a vector of owning pointers
(`std::vector<std::unique_ptr<MCTSNode>>`, or a loop `for (p : v) delete p;`):
every element is deleted. The depth of a tree is below the number of objects. -/
def Store.destroy {S : Type} : Store S → List Nat → Exec (Store S) Unit
  | st, [] => .done st ()
  | st, p :: rest =>
    match Store.delete (st.length + 1) st p with
    | .done st2 _ => Store.destroy st2 rest
    | .threw st2 e => .threw st2 e
    | .stuck => .stuck

/-- The loop `while (!mdp.is_terminal(cur->state)) { … }` of `basic_rollout` on
the store: `cur` is the address of the current node and `rollout_nodes` the
addresses owned by the vector so far. Each round allocates one object with the
constructor `MCTSNode(cur, mdp.tr(cur->state, action))` and pushes its address.
When `actions` is empty the exception leaves the function, and the vector
`rollout_nodes` is destroyed with all it owns. `fuel` bounds the number of
rounds (`stuck` when it is used up). -/
def Store.rollout_loop {S A : Type} (mdp : MDP S A) :
    Nat → Rng → Store S → Nat → List Nat → Exec (Store S) (List Nat × Rng)
  | 0, _, _, _, _ => .stuck
  | fuel + 1, g, st, cur, rollout_nodes =>
    match Store.read st cur with
    | none => .threw st .use_after_free
    | some c =>
      if mdp.is_terminal c.state then .done st (rollout_nodes, g)
      else
        match (mdp.actions c.state)[select_randomly g.draw (mdp.actions c.state)]? with
        | none =>
          match Store.destroy st rollout_nodes with
          | .done st2 _ => .threw st2 .no_actions_rollout
          | .threw st2 e => .threw st2 e
          | .stuck => .stuck
        | some action =>
          Store.rollout_loop mdp fuel g.next
            (st ++ [some (MCTSObject.child cur (mdp.tr c.state action))]) st.length
            (rollout_nodes ++ [st.length])

/-- The member function `this->basic_rollout()` on the store, `this` being an
address: `std::unique_ptr<MCTSNode>(this)` is moved into `rollout_nodes`, so the
vector owns `this` itself besides the nodes the loop creates, and the vector
is returned to the caller, who owns these objects from then on. -/
def Store.basic_rollout {S A : Type} (mdp : MDP S A) (fuel : Nat) (g : Rng) (st : Store S)
    (this : Nat) : Exec (Store S) (List Nat × Rng) :=
  Store.rollout_loop mdp fuel g st this [this]

/-- The chain property of the vector returned by `basic_rollout`: each element
after the first has the element before it as parent and a state that a legal
action of the state before leads to, and the state of the last is terminal. -/
def Store.is_rollout_chain {S A : Type} (mdp : MDP S A) (st : Store S) : List Nat → Prop
  | [] => True
  | [l] => ∃ c, Store.read st l = some c ∧ mdp.is_terminal c.state = true
  | p :: q :: rest =>
    (∃ cp cq, Store.read st p = some cp ∧ Store.read st q = some cq ∧ cq.parent = some p ∧
      ∃ a ∈ mdp.actions cp.state, cq.state = mdp.tr cp.state a) ∧
    Store.is_rollout_chain mdp st (q :: rest)

/-- The three writes of `backprop` on one object:
`cur->tot += parity*reward; cur->count += 1; cur->expected = cur->tot / cur->count;`. -/
def MCTSObject.annotate {S : Type} (o : MCTSObject S) (parity : Int) (reward : ℚ) :
    MCTSObject S :=
  { o with
    tot := o.tot + parity * reward
    count := o.count + 1
    expected := some ((o.tot + parity * reward) / ((o.count + 1 : Int) : ℚ)) }

/-- The loop of `backprop` on the store, followed by the writes on the root. -/
def Store.backprop_loop {S : Type} (reward : ℚ) : Nat → Store S → Nat → Int → Exec (Store S) Unit
  | 0, _, _, _ => .stuck
  | fuel + 1, st, cur, parity =>
    match Store.read st cur with
    | none => .threw st .use_after_free
    | some o =>
      match o.parent with
      | some p =>
        Store.backprop_loop reward fuel (st.set cur (some (o.annotate parity reward))) p
          (parity * (-1))
      | none => .done (st.set cur (some (o.annotate parity reward))) ()

/-- The member function `this->backprop()` on the store. A parent chain is not
longer than the number of objects. -/
def Store.backprop {S A : Type} (mdp : MDP S A) (st : Store S) (this : Nat) :
    Exec (Store S) Unit :=
  match Store.read st this with
  | none => .threw st .use_after_free
  | some o =>
    match mdp.reward o.state with
    | none => .threw st .no_reward
    | some reward => Store.backprop_loop reward (st.length + 1) st this (-1)

/-- The objects at the given addresses, when all of them are live. -/
def Store.read_all {S : Type} (st : Store S) : List Nat → Option (List (MCTSObject S))
  | [] => some []
  | p :: rest =>
    match Store.read st p, Store.read_all st rest with
    | some o, some os => some (o :: os)
    | _, _ => none

/-- The fields of an object as a node value with the given children: the
argument that `score` takes. -/
def MCTSObject.node {S : Type} (o : MCTSObject S) (children : List (MCTSNode S)) : MCTSNode S :=
  MCTSNode.mk o.state children (o.parent.map (fun _ => ())) o.expected o.tot o.count

/-- The values `child->score(…)` of the given children, in order. Each child
reads the count of its parent through its own pointer, `this->parent.value()->count`,
which throws on an empty optional. -/
def Store.scores {S R : Type} [Field R] (sqrt log : R → R) (exploration_bias : R) (eval : S → R)
    (st : Store S) : List (MCTSObject S) → Exec Unit (List R)
  | [] => .done () []
  | child :: rest =>
    match child.parent with
    | none => .threw () .bad_optional_access
    | some p =>
      match Store.read st p with
      | none => .threw () .use_after_free
      | some parent =>
        match Store.scores sqrt log exploration_bias eval st rest with
        | .done _ values =>
          .done () (score sqrt log parent.count (child.node []) exploration_bias eval :: values)
        | .threw _ e => .threw () e
        | .stuck => .stuck

/-- The member function `this->select(cur_itersm1, exploration_bias, apprentice)`
on the store: the address returned (`none` is `std::nullopt`) and the generator
afterwards. `all_of` reads `expected` of the children; when all are absent one
child is drawn; otherwise `max_element` compares the scores of the children,
which with one child makes no comparison. Every child is read in each case, so
a deleted child makes the call undefined. -/
def Store.select {S R : Type} [LinearOrderedField R] (sqrt log : R → R) (exploration_bias : R)
    (eval : S → R) (g : Rng) (st : Store S) (this : Nat) : Exec Unit (Option Nat × Rng) :=
  match Store.read st this with
  | none => .threw () .use_after_free
  | some o =>
    if o.children.length = 0 then .done () (none, g)
    else
      match Store.read_all st o.children with
      | none => .threw () .use_after_free
      | some children =>
        if children.all (fun child => child.expected.isNone) then
          .done () (o.children[select_randomly g.draw o.children]?, g.next)
        else if children.length = 1 then .done () (o.children[0]?, g)
        else
          match Store.scores sqrt log exploration_bias eval st children with
          | .done _ values =>
            .done () ((max_element (fun a b => decide (a < b)) values).bind
              (fun i => o.children[i]?), g)
          | .threw _ e => .threw () e
          | .stuck => .stuck

/-- The member function `this->expand()` on the store; the result is the
address of the child chosen by `select_randomly`. -/
def Store.expand {S A : Type} (mdp : MDP S A) (draw : Nat) (st : Store S) (this : Nat) :
    Exec (Store S) Nat :=
  match Store.read st this with
  | none => .threw st .use_after_free
  | some o =>
    if o.children.length = 0 then
      if (mdp.actions o.state).length = 0 then .threw st .no_actions_expand
      else
        let new_children := List.range' st.length (mdp.actions o.state).length
        let st2 := (st ++ (mdp.actions o.state).map
          (fun action => some (MCTSObject.child this (mdp.tr o.state action)))).set this
            (some { o with children := new_children })
        match new_children[select_randomly draw new_children]? with
        | some choice => .done st2 choice
        | none => .threw st2 .bad_optional_access
    else
      match o.children[select_randomly draw o.children]? with
      | some choice => .done st choice
      | none => .threw st .bad_optional_access

/-- The function `std::find_if` over a `children` vector with a predicate that
compares the state of the child with `s`: the children are read in order up to
the first match; the result is the address found, `none` for `end()`. -/
def Store.find_if_state {S : Type} [DecidableEq S] (st : Store S) (s : S) :
    List Nat → Exec Unit (Option Nat)
  | [] => .done () none
  | p :: rest =>
    match Store.read st p with
    | none => .threw () .use_after_free
    | some o => if o.state = s then .done () (some p) else Store.find_if_state st s rest

section StoreSearch

variable {S A R : Type} [DecidableEq S] [LinearOrderedField R]
variable (mdp : MDP S A) (fuel : Nat) (sqrt log : R → R)
variable (exploration_bias : R) (eval : S → R)

/-- The SELECTION loop of `search`,
`while (!cur->is_leaf()) cur = cur->select(…).value();`, on the store. The
result is the leaf reached and the generator. The depth of a tree is below the
number of objects, which bounds the number of rounds. -/
def Store.descend : Nat → Store S → Nat → Rng → Exec (Store S) (Nat × Rng)
  | 0, _, _, _ => .stuck
  | rounds + 1, st, cur, g =>
    match Store.read st cur with
    | none => .threw st .use_after_free
    | some o =>
      if o.children.length = 0 then .done st (cur, g)
      else
        match Store.select sqrt log exploration_bias eval g st cur with
        | .stuck => .stuck
        | .threw _ e => .threw st e
        | .done _ (none, _) => .threw st .bad_optional_access
        | .done _ (some child, g2) => Store.descend rounds st child g2

/-- The EXPANSION step of `search` at the leaf `cur`: a leaf with a terminal
state is kept, otherwise `cur = cur->expand()`. -/
def Store.expansion (st : Store S) (cur : Nat) (g : Rng) : Exec (Store S) (Nat × Rng) :=
  match Store.read st cur with
  | none => .threw st .use_after_free
  | some o =>
    if mdp.is_terminal o.state then .done st (cur, g)
    else
      match Store.expand mdp g.draw st cur with
      | .done st2 expanded_child => .done st2 (expanded_child, g.next)
      | .threw st2 e => .threw st2 e
      | .stuck => .stuck

/-- The body of the loop of `search`: SELECTION, EXPANSION, ROLLOUT and
BACKPROPAGATION. The vector `rollout_nodes` is a local of the body: at the end
of the body (and when `backprop` throws) it is destroyed with the objects it
owns, the node the play-out started from among them. -/
def Store.iteration (st : Store S) (this : Nat) (g : Rng) : Exec (Store S) Rng :=
  match Store.descend sqrt log exploration_bias eval (st.length + 1) st this g with
  | .stuck => .stuck
  | .threw st1 e => .threw st1 e
  | .done st1 (leaf, g1) =>
    match Store.expansion mdp st1 leaf g1 with
    | .stuck => .stuck
    | .threw st2 e => .threw st2 e
    | .done st2 (cur, g2) =>
      match Store.basic_rollout mdp fuel g2 st2 cur with
      | .stuck => .stuck
      | .threw st3 e => .threw st3 e
      | .done st3 (rollout_nodes, g3) =>
        match Store.backprop mdp st3 (rollout_nodes.getLast?.getD cur) with
        | .stuck => .stuck
        | .threw st4 .no_reward =>
          match Store.destroy st4 rollout_nodes with
          | .done st5 _ => .threw st5 .no_reward
          | .threw st5 e => .threw st5 e
          | .stuck => .stuck
        | .threw st4 e => .threw st4 e
        | .done st4 _ =>
          match Store.destroy st4 rollout_nodes with
          | .done st5 _ => .done st5 g3
          | .threw st5 e => .threw st5 e
          | .stuck => .stuck

/-- The loop `for (cur_itersm1 = 0; cur_itersm1 < iters; cur_itersm1++)` of
`search`. -/
def Store.iterations : Nat → Store S → Nat → Rng → Exec (Store S) Rng
  | 0, st, _, g => .done st g
  | iters + 1, st, this, g =>
    match Store.iteration mdp fuel sqrt log exploration_bias eval st this g with
    | .stuck => .stuck
    | .threw st2 e => .threw st2 e
    | .done st2 g2 => Store.iterations iters st2 this g2

/-- The values computed by the lambda given to `argmax` in `search`, for the
actions in order: `find_if` looks up the first child of `this` whose state is
the successor state, the lambda throws when there is none, and the value is
`expected` of the child, an absent `expected` counting as minus infinity. -/
def Store.action_values (st : Store S) (o : MCTSObject S) :
    List A → Exec Unit (List (A × WithBot ℚ))
  | [] => .done () []
  | action :: rest =>
    match Store.find_if_state st (mdp.tr o.state action) o.children with
    | .stuck => .stuck
    | .threw _ e => .threw () e
    | .done _ none => .threw () .no_child
    | .done _ (some p) =>
      match Store.read st p with
      | none => .threw () .use_after_free
      | some child =>
        match Store.action_values st o rest with
        | .done _ values => .done () ((action, value_or_bot child.expected) :: values)
        | .threw _ e => .threw () e
        | .stuck => .stuck

/-- The last part of `search` and of `par_search`: the legal action whose child
has the highest `expected`. -/
def Store.best_action (st : Store S) (this : Nat) : Exec (Store S) A :=
  match Store.read st this with
  | none => .threw st .use_after_free
  | some o =>
    match Store.action_values mdp st o (mdp.actions o.state) with
    | .stuck => .stuck
    | .threw _ e => .threw st e
    | .done _ values =>
      match argmax values with
      | none => .threw st .no_best
      | some (action, _) => .done st action

/-- The member function `this->search(iters, exploration_bias, apprentice)` on
the store, `this` being an address; `iters` is the number of iterations the
loop makes (none when the `int` is negative), `eval` is `apprentice.eval`, `g`
the state of the generator. -/
def Store.search (iters : Nat) (st : Store S) (this : Nat) (g : Rng) : Exec (Store S) A :=
  match Store.read st this with
  | none => .threw st .use_after_free
  | some o =>
    if (mdp.actions o.state).length = 0 then .threw st .cannot_act
    else
      match Store.iterations mdp fuel sqrt log exploration_bias eval iters st this g with
      | .stuck => .stuck
      | .threw st2 e => .threw st2 e
      | .done st2 _ => Store.best_action mdp st2 this

end StoreSearch
/-- A store for examples: one unvisited root of state `s` at address 0. -/
def exRootStore (s : Nat) : Store Nat :=
  [some { state := s, children := [], parent := none, expected := none, tot := 0, count := 0 }]
/-- The copy constructor `MCTSNode(const MCTSNode& other, optional<MCTSNode*> parent)`
called by `new`: a new object with the fields of `other` and the given `parent`,
whose children are new copies of the children of `other`, made in order with
the new object as parent. The result is the address of the new object. `fuel`
bounds the depth of the recursion. -/
def Store.copy {S : Type} : Nat → Store S → Nat → Option Nat → Exec (Store S) Nat
  | 0, _, _, _ => .stuck
  | fuel + 1, st, other, parent =>
    match Store.read st other with
    | none => .threw st .use_after_free
    | some o =>
      match o.children.foldl
          (fun (acc : Exec (Store S) (List Nat)) child =>
            match acc with
            | .done st2 copies =>
              match Store.copy fuel st2 child (some st.length) with
              | .done st3 c => .done st3 (copies ++ [c])
              | .threw st3 e => .threw st3 e
              | .stuck => .stuck
            | .threw st2 e => .threw st2 e
            | .stuck => .stuck)
          (Exec.done (st ++ [some { o with children := [], parent := parent }]) []) with
      | .done st2 copies =>
        .done (st2.set st.length (some { o with children := copies, parent := parent })) st.length
      | .threw st2 e => .threw st2 e
      | .stuck => .stuck

/-- The member function `this->merge(other)` on the store. `fuel` bounds the
depth of the recursion. -/
def Store.merge {S : Type} [DecidableEq S] : Nat → Store S → Nat → Nat → Exec (Store S) Unit
  | 0, _, _, _ => .stuck
  | fuel + 1, st, this, other =>
    match Store.read st this, Store.read st other with
    | some a, some b =>
      if (a.parent.isNone && b.parent.isSome) || (a.parent.isSome && b.parent.isNone) then
        .threw st .merge_mismatch
      else if a.state ≠ b.state then .threw st .merge_mismatch
      else
        b.children.foldl
          (fun (acc : Exec (Store S) Unit) their_child =>
            match acc with
            | .done st2 _ =>
              match Store.read st2 this, Store.read st2 their_child with
              | some a2, some tc =>
                match Store.find_if_state st2 tc.state a2.children with
                | .stuck => .stuck
                | .threw _ e => .threw st2 e
                | .done _ (some our_child) => Store.merge fuel st2 our_child their_child
                | .done _ none =>
                  match Store.copy (st2.length + 1) st2 their_child (some this) with
                  | .done st3 c =>
                    .done (st3.set this (some { a2 with children := a2.children ++ [c] })) ()
                  | .threw st3 e => .threw st3 e
                  | .stuck => .stuck
              | _, _ => .threw st2 .use_after_free
            | .threw st2 e => .threw st2 e
            | .stuck => .stuck)
          (Exec.done
            (st.set this (some { a with tot := a.tot + b.tot, count := a.count + b.count })) ())
    | _, _ => .threw st .use_after_free

/-- The loop `for (i = 1; i < trees.size(); i++) tree->merge(trees[i]);` of
`par_search`. -/
def Store.merge_all {S : Type} [DecidableEq S] : Store S → Nat → List Nat → Exec (Store S) Unit
  | st, _, [] => .done st ()
  | st, tree, other :: rest =>
    match Store.merge (st.length + 1) st tree other with
    | .done st2 _ => Store.merge_all st2 tree rest
    | .threw st2 e => .threw st2 e
    | .stuck => .stuck

section StoreParSearch

variable {S A R : Type} [DecidableEq S] [LinearOrderedField R]
variable (mdp : MDP S A) (fuel : Nat) (sqrt log : R → R)
variable (exploration_bias : R) (eval : S → R)

/-- The workers of `par_search`, taken one after the other in their order of
creation: each makes `copy = new MCTSNode(*this, this->parent)`, runs `search`
on the copy with its share and pushes the copy onto `trees`. Worker `i` draws
from the generator state `gs i`. An exception in a worker ends the program
(`std::terminate`). -/
def Store.worker_trees (this : Nat) (gs : Nat → Rng) :
    Store S → Nat → List Int → Exec (Store S) (List Nat)
  | st, _, [] => .done st []
  | st, i, share :: rest =>
    match Store.read st this with
    | none => .threw st .use_after_free
    | some o =>
      match Store.copy (st.length + 1) st this o.parent with
      | .stuck => .stuck
      | .threw st1 e => .threw st1 e
      | .done st1 copy =>
        match Store.search (A := A) mdp fuel sqrt log exploration_bias eval (to_int share).toNat
            st1 copy (gs i) with
        | .stuck => .stuck
        | .threw st2 .use_after_free => .threw st2 .use_after_free
        | .threw st2 _ => .threw st2 .terminate
        | .done st2 _ =>
          match Store.worker_trees this gs st2 (i + 1) rest with
          | .done st3 trees => .done st3 (copy :: trees)
          | .threw st3 e => .threw st3 e
          | .stuck => .stuck

/-- The part of `par_search` after the merge loop: the children of `this` are
deleted, `*this = *new MCTSNode(*tree, tree->parent)` makes a copy of the merged
tree and assigns its fields to `*this` (the `children` vector of the copy with
them, so that the children keep the copy as parent), the worker trees are
deleted, and the best action is chosen. -/
def Store.install (st : Store S) (this : Nat) (trees : List Nat) (tree : Nat) :
    Exec (Store S) A :=
  match Store.read st this with
  | none => .threw st .use_after_free
  | some o =>
    match Store.destroy st o.children with
    | .stuck => .stuck
    | .threw st1 e => .threw st1 e
    | .done st1 _ =>
      match Store.read st1 tree with
      | none => .threw st1 .use_after_free
      | some t =>
        match Store.copy (st1.length + 1) st1 tree t.parent with
        | .stuck => .stuck
        | .threw st2 e => .threw st2 e
        | .done st2 temp =>
          match Store.read st2 temp with
          | none => .threw st2 .use_after_free
          | some assigned =>
            match Store.destroy (st2.set this (some assigned)) trees with
            | .stuck => .stuck
            | .threw st3 e => .threw st3 e
            | .done st3 _ => Store.best_action mdp st3 this

/-- The member function `this->par_search(iters, exploration_bias, apprentice)`
on the store, with `num_threads` the value of
`std::thread::hardware_concurrency()`. The workers run one after the other,
each with its own generator state; with one worker this is the only schedule. -/
def Store.par_search (num_threads : Nat) (iters : Int) (st : Store S) (this : Nat)
    (gs : Nat → Rng) : Exec (Store S) A :=
  match Store.read st this with
  | none => .threw st .use_after_free
  | some o =>
    if mdp.is_terminal o.state then .threw st .assertion
    else if num_threads = 0 then .threw st .division_by_zero
    else
      match Store.worker_trees mdp fuel sqrt log exploration_bias eval this gs st 0
          (worker_shares iters num_threads) with
      | .stuck => .stuck
      | .threw st1 e => .threw st1 e
      | .done st1 [] => .threw st1 .bad_optional_access
      | .done st1 (tree :: others) =>
        match Store.merge_all st1 tree others with
        | .stuck => .stuck
        | .threw st2 e => .threw st2 e
        | .done st2 _ => Store.install mdp st2 this (tree :: others) tree

end StoreParSearch

section Reachable

variable {S A : Type} [DecidableEq S]
variable (mdp : MDP S A)

/-- One call of `expand` (whether it returns or throws) or one call of `play`
whose behaviour is defined, on the node `n`, leaving it as `n2`. -/
def Operation (n n2 : MCTSNode S) : Prop :=
  (∃ draw, (expand mdp draw n).self = some n2) ∨
  (∃ actions path, play mdp n actions = some (n2, path))

/-- The trees obtained from a freshly constructed root by a sequence of
`expand`, `play` and `merge` calls, each on some node of the tree; the argument
of a `merge` is itself such a tree. Calls of `search` are not among the steps:
its iterations delete nodes that the tree still lists. -/
inductive Reach : MCTSNode S → Prop where
  | fresh (s : S) : Reach (MCTSNode.fresh s [] none)
  | op (t t2 : MCTSNode S) : Reach t → Inside (Operation mdp) t t2 → Reach t2
  | merged (t b t2 : MCTSNode S) : Reach t → Reach b →
      Inside (fun n n2 => (MCTSNode.merge n b).self = n2) t t2 → Reach t2

end Reachable

/-- An environment with a state that is not terminal and has no legal action
(every state is such a state). -/
def exDeadEnd : MDP Nat Nat where
  tr := fun s a => s + a
  actions := fun _ => []
  reward := fun _ => none
  is_terminal := fun _ => false

/-- A store for examples: an unvisited root of state `s` at address 0 with one
unvisited child of state `s2` at address 1, as `play` leaves them. -/
def exPairStore (s s2 : Nat) : Store Nat :=
  [some { state := s, children := [1], parent := none, expected := none, tot := 0, count := 0 },
   some { state := s2, children := [], parent := some 0, expected := none, tot := 0, count := 0 }]

namespace MCTSNode

variable {S : Type}

/-! ## Basic lemmas -/

@[simp] theorem state_mk (s : S) (cs : List (MCTSNode S)) (p : Option Unit) (e : Option ℚ)
    (t : ℚ) (c : Int) : (mk s cs p e t c).state = s := rfl

@[simp] theorem children_mk (s : S) (cs : List (MCTSNode S)) (p : Option Unit) (e : Option ℚ)
    (t : ℚ) (c : Int) : (mk s cs p e t c).children = cs := rfl

@[simp] theorem parent_mk (s : S) (cs : List (MCTSNode S)) (p : Option Unit) (e : Option ℚ)
    (t : ℚ) (c : Int) : (mk s cs p e t c).parent = p := rfl

@[simp] theorem expected_mk (s : S) (cs : List (MCTSNode S)) (p : Option Unit) (e : Option ℚ)
    (t : ℚ) (c : Int) : (mk s cs p e t c).expected = e := rfl

@[simp] theorem tot_mk (s : S) (cs : List (MCTSNode S)) (p : Option Unit) (e : Option ℚ)
    (t : ℚ) (c : Int) : (mk s cs p e t c).tot = t := rfl

@[simp] theorem count_mk (s : S) (cs : List (MCTSNode S)) (p : Option Unit) (e : Option ℚ)
    (t : ℚ) (c : Int) : (mk s cs p e t c).count = c := rfl

@[simp] theorem is_root_mk (s : S) (cs : List (MCTSNode S)) (p : Option Unit) (e : Option ℚ)
    (t : ℚ) (c : Int) : (mk s cs p e t c).is_root = !p.isSome := rfl

/-- Simultaneous induction over a tree and its forests. -/
theorem induct {P : MCTSNode S → Prop} {Q : List (MCTSNode S) → Prop}
    (hmk : ∀ s cs p e t c, Q cs → P (mk s cs p e t c))
    (hnil : Q [])
    (hcons : ∀ x xs, P x → Q xs → Q (x :: xs)) :
    (∀ n, P n) ∧ (∀ l, Q l) :=
  ⟨fun n => MCTSNode.rec (motive_1 := P) (motive_2 := Q) hmk hnil hcons n,
   fun l => MCTSNode.rec_1 (motive_1 := P) (motive_2 := Q) hmk hnil hcons l⟩

theorem linkedList_iff (l : List (MCTSNode S)) :
    linkedList l = true ↔ ∀ x ∈ l, x.parent.isSome = true ∧ linked x = true := by
  induction l with
  | nil => simp [linkedList]
  | cons x xs ih => simp [linkedList, ih, and_assoc]

theorem linkedList_append (l₁ l₂ : List (MCTSNode S)) :
    linkedList (l₁ ++ l₂) = true ↔ linkedList l₁ = true ∧ linkedList l₂ = true := by
  simp only [linkedList_iff, List.mem_append]
  constructor
  · intro h
    exact ⟨fun x hx => h x (Or.inl hx), fun x hx => h x (Or.inr hx)⟩
  · rintro ⟨h₁, h₂⟩ x (hx | hx)
    · exact h₁ x hx
    · exact h₂ x hx

theorem sumCountList_append (l₁ l₂ : List (MCTSNode S)) :
    sumCountList (l₁ ++ l₂) = sumCountList l₁ + sumCountList l₂ := by
  induction l₁ with
  | nil => simp [sumCountList]
  | cons x xs ih => simp [sumCountList, ih, add_assoc]

theorem sumTotList_append (l₁ l₂ : List (MCTSNode S)) :
    sumTotList (l₁ ++ l₂) = sumTotList l₁ + sumTotList l₂ := by
  induction l₁ with
  | nil => simp [sumTotList]
  | cons x xs ih => simp [sumTotList, ih, add_assoc]

theorem copy_facts :
    (∀ n : MCTSNode S, ∀ p, (copy n p).state = n.state ∧ (copy n p).parent = p ∧
        (copy n p).tot = n.tot ∧ (copy n p).count = n.count ∧
        (copy n p).expected = n.expected ∧ linked (copy n p) = true ∧
        sumCount (copy n p) = sumCount n ∧ sumTot (copy n p) = sumTot n) ∧
    (∀ l : List (MCTSNode S), linkedList (copyChildren l) = true ∧
        sumCountList (copyChildren l) = sumCountList l ∧
        sumTotList (copyChildren l) = sumTotList l) := by
  apply induct
  · intro s cs p e t c ih q
    simp [copy, linked, sumCount, sumTot, ih]
  · simp [copyChildren, linkedList, sumCountList, sumTotList]
  · intro x xs hx hxs
    have h := hx (some ())
    simp [copyChildren, linkedList, sumCountList, sumTotList, h, hxs]

/-- On a tree whose stored children all have a parent pointer, the copy
constructor called with the node's own `parent` rebuilds the same value. -/
theorem copy_eq_self :
    (∀ n : MCTSNode S, linked n = true → copy n n.parent = n) ∧
    (∀ l : List (MCTSNode S), linkedList l = true → copyChildren l = l) := by
  apply induct
  · intro s cs p e t c ih h
    simp only [linked] at h
    simp [copy, ih h]
  · intro _
    simp [copyChildren]
  · intro x xs hx hxs h
    simp only [linkedList, Bool.and_eq_true] at h
    obtain ⟨⟨hp, hl⟩, hls⟩ := h
    have hpx : x.parent = some () := by
      cases hq : x.parent with
      | none => simp [hq] at hp
      | some u => rfl
    have := hx hl
    rw [hpx] at this
    simp [copyChildren, this, hxs hls]

end MCTSNode

theorem find_if_some {α : Type} (p : α → Bool) :
    ∀ (l pre : List α) (x : α) (post : List α), find_if p l = some (pre, x, post) →
      l = pre ++ x :: post ∧ p x = true ∧ ∀ y ∈ pre, p y = false := by
  intro l
  induction l with
  | nil => intro pre x post h; simp [find_if] at h
  | cons c cs ih =>
    intro pre x post h
    unfold find_if at h
    by_cases hc : p c = true
    · simp [hc] at h
      obtain ⟨rfl, rfl, rfl⟩ := h
      simp [hc]
    · simp only [hc] at h
      cases hf : find_if p cs with
      | none => simp [hf] at h
      | some r =>
        obtain ⟨pre2, x2, post2⟩ := r
        simp [hf] at h
        obtain ⟨rfl, rfl, rfl⟩ := h
        obtain ⟨h1, h2, h3⟩ := ih pre2 x2 post2 hf
        refine ⟨by simp [h1], h2, ?_⟩
        intro y hy
        rcases List.mem_cons.mp hy with rfl | hy
        · simpa using hc
        · exact h3 y hy

theorem find_if_none {α : Type} (p : α → Bool) :
    ∀ l : List α, find_if p l = none ↔ ∀ y ∈ l, p y = false := by
  intro l
  induction l with
  | nil => simp [find_if]
  | cons c cs ih =>
    unfold find_if
    by_cases hc : p c = true
    · simp [hc]
    · have hc2 : p c = false := by simpa using hc
      cases hf : find_if p cs with
      | none =>
        have h2 := ih.mp hf
        simp only [hc2]
        constructor
        · intro _ y hy
          rcases List.mem_cons.mp hy with rfl | hy
          · exact hc2
          · exact h2 y hy
        · intro _; simp
      | some r =>
        obtain ⟨pre2, x2, post2⟩ := r
        simp only [hc2]
        constructor
        · intro h; simp at h
        · intro h
          have : find_if p cs = none := ih.mpr (fun y hy => h y (List.mem_cons_of_mem _ hy))
          rw [hf] at this
          cases this

/-- The decomposition found by `find_if` is the first-match decomposition. -/
theorem find_if_of_split {α : Type} (p : α → Bool) :
    ∀ (pre : List α) (x : α) (post : List α), p x = true → (∀ y ∈ pre, p y = false) →
      find_if p (pre ++ x :: post) = some (pre, x, post) := by
  intro pre
  induction pre with
  | nil => intro x post hx _; simp [find_if, hx]
  | cons c cs ih =>
    intro x post hx hpre
    have hc : p c = false := hpre c (List.mem_cons_self _ _)
    have := ih x post hx (fun y hy => hpre y (List.mem_cons_of_mem _ hy))
    simp [find_if, hc, this]

namespace MCTSNode

variable {S : Type} [DecidableEq S]

/-! ## Lemmas on `merge` -/

/-- Whatever the outcome, `merge` keeps `state`, `parent` and `expected` of `this`. -/
theorem merge_keeps (a b : MCTSNode S) :
    ∀ r, (merge a b = .ok r ∨ merge a b = .threw r) →
      r.state = a.state ∧ r.parent = a.parent ∧ r.expected = a.expected := by
  cases a with
  | mk s cs p e t c =>
  cases b with
  | mk bs bcs bp be bt bc =>
    intro r hr
    rw [merge] at hr
    split_ifs at hr with h1 h2
    · simp at hr; subst hr; simp
    · simp at hr; subst hr; simp
    · cases hm : mergeChildren cs bcs with
      | ok cs2 => simp [hm] at hr; subst hr; simp
      | threw cs2 => simp [hm] at hr; subst hr; simp

/-- A successful `merge` adds `tot` and `count` at the top node. -/
theorem merge_top (a b r : MCTSNode S) (h : merge a b = .ok r) :
    r.tot = a.tot + b.tot ∧ r.count = a.count + b.count := by
  cases a with
  | mk s cs p e t c =>
  cases b with
  | mk bs bcs bp be bt bc =>
    rw [merge] at h
    split_ifs at h with h1 h2
    cases hm : mergeChildren cs bcs with
    | ok cs2 => simp [hm] at h; subst h; simp
    | threw cs2 => simp [hm] at h

/-- On trees whose stored children all have a parent pointer, `merge` returns
normally as soon as the two guards of the top-level call pass. -/
theorem merge_ok_aux :
    (∀ b : MCTSNode S, ∀ a, linked a = true → linked b = true → is_root a = is_root b →
        a.state = b.state → ∃ r, merge a b = .ok r ∧ linked r = true) ∧
    (∀ bcs : List (MCTSNode S), ∀ ours, linkedList ours = true → linkedList bcs = true →
        ∃ cs2, mergeChildren ours bcs = .ok cs2 ∧ linkedList cs2 = true) := by
  apply induct
  · intro bs bcs bp be bt bc ih a ha hb hroot hstate
    cases a with
    | mk s cs p e t c =>
      simp only [linked] at ha hb
      obtain ⟨cs2, h1, h2⟩ := ih cs ha hb
      simp only [is_root_mk] at hroot
      simp only [state_mk] at hstate
      refine ⟨mk s cs2 p e (t + bt) (c + bc), ?_, by simpa [linked] using h2⟩
      have hg : ((!p.isSome && !(!bp.isSome)) || (!(!p.isSome) && !bp.isSome)) = false := by
        cases p <;> cases bp <;> simp at hroot ⊢
      rw [merge]
      simp only [is_root_mk, hg, hstate, h1]
      simp
  · intro ours ho _
    exact ⟨ours, by simp [mergeChildren], ho⟩
  · intro x xs hx hxs ours ho hb
    simp only [linkedList, Bool.and_eq_true] at hb
    obtain ⟨⟨hxp, hxl⟩, hxsl⟩ := hb
    rw [mergeChildren]
    cases hf : find_if (fun our_child => decide (our_child.state = x.state)) ours with
    | none =>
      simp only []
      apply hxs _ _ hxsl
      rw [linkedList_append]
      refine ⟨ho, ?_⟩
      have := (copy_facts (S := S)).1 x (some ())
      simp [linkedList, this]
    | some r =>
      obtain ⟨pre, o, post⟩ := r
      obtain ⟨hsplit, hp, _⟩ := find_if_some _ _ _ _ _ hf
      subst hsplit
      rw [linkedList_append] at ho
      obtain ⟨hpre, hpost⟩ := ho
      simp only [linkedList, Bool.and_eq_true] at hpost
      obtain ⟨⟨hop, hol⟩, hpostl⟩ := hpost
      have hst : o.state = x.state := by simpa using hp
      have hr : is_root o = is_root x := by simp [is_root, hop, hxp]
      obtain ⟨m, hm, hml⟩ := hx o hol hxl hr hst
      simp only [hm]
      apply hxs _ _ hxsl
      rw [linkedList_append]
      refine ⟨hpre, ?_⟩
      have hk := (merge_keeps o x m (Or.inl hm)).2.1
      simp [linkedList, hml, hpostl, hk, hop]

/-- A successful `merge` adds up the `count` sums and the `tot` sums of the two
trees. -/
theorem merge_sums_aux :
    (∀ b : MCTSNode S, ∀ a r, merge a b = .ok r →
        sumCount r = sumCount a + sumCount b ∧ sumTot r = sumTot a + sumTot b) ∧
    (∀ bcs : List (MCTSNode S), ∀ ours cs2, mergeChildren ours bcs = .ok cs2 →
        sumCountList cs2 = sumCountList ours + sumCountList bcs ∧
        sumTotList cs2 = sumTotList ours + sumTotList bcs) := by
  apply induct
  · intro bs bcs bp be bt bc ih a r h
    cases a with
    | mk s cs p e t c =>
      rw [merge] at h
      split_ifs at h with h1 h2
      cases hm : mergeChildren cs bcs with
      | threw cs2 => simp [hm] at h
      | ok cs2 =>
        simp [hm] at h
        subst h
        obtain ⟨i1, i2⟩ := ih cs cs2 hm
        simp only [sumCount, sumTot, i1, i2]
        constructor <;> ring
  · intro ours cs2 h
    simp [mergeChildren] at h
    subst h
    simp [sumCountList, sumTotList]
  · intro x xs hx hxs ours cs2 h
    rw [mergeChildren] at h
    cases hf : find_if (fun our_child => decide (our_child.state = x.state)) ours with
    | none =>
      simp only [hf] at h
      obtain ⟨i1, i2⟩ := hxs _ _ h
      have hc := (copy_facts (S := S)).1 x (some ())
      rw [i1, i2, sumCountList_append, sumTotList_append]
      simp only [sumCountList, sumTotList, hc]
      constructor <;> ring
    | some r =>
      obtain ⟨pre, o, post⟩ := r
      obtain ⟨hsplit, _, _⟩ := find_if_some _ _ _ _ _ hf
      subst hsplit
      simp only [hf] at h
      cases hm : merge o x with
      | threw m => simp [hm] at h
      | ok m =>
        simp only [hm] at h
        obtain ⟨i1, i2⟩ := hxs _ _ h
        obtain ⟨j1, j2⟩ := hx o m hm
        rw [i1, i2]
        simp only [sumCountList_append, sumTotList_append, sumCountList, sumTotList, j1, j2]
        constructor <;> ring

/-- When one of the two guards fails, `merge` throws with `this` untouched. -/
theorem merge_guard_threw (a b : MCTSNode S)
    (h : a.is_root ≠ b.is_root ∨ a.state ≠ b.state) : merge a b = .threw a := by
  cases a with
  | mk s cs p e t c =>
  cases b with
  | mk bs bcs bp be bt bc =>
    rw [merge]
    simp only [is_root_mk, state_mk] at h ⊢
    by_cases hg : ((!p.isSome && !(!bp.isSome)) || (!(!p.isSome) && !bp.isSome)) = true
    · rw [if_pos hg]
    · have hr : (!p.isSome) = (!bp.isSome) := by
        cases p <;> cases bp <;> simp at hg ⊢
      rcases h with h | h
      · exact absurd hr h
      · simp only [hg]
        simp [h]

/-! ## Claims on `merge` -/

/-- C1. Merge neither loses nor double-counts statistics: for trees `a`, `b`
(every stored child having a parent pointer) with equal root state and equal
root-ness, `merge` returns normally and the sum of `count` over all nodes of the
result is the sum over `a` plus the sum over `b`; likewise for the sum of `tot`. -/
theorem merge_sums_additive (a b : MCTSNode S)
    (ha : linked a = true) (hb : linked b = true)
    (hstate : a.state = b.state) (hroot : a.is_root = b.is_root) :
    ∃ r, merge a b = .ok r ∧ sumCount r = sumCount a + sumCount b ∧
      sumTot r = sumTot a + sumTot b := by
  obtain ⟨r, hr, _⟩ := merge_ok_aux.1 b a ha hb hroot hstate
  exact ⟨r, hr, merge_sums_aux.1 b a r hr⟩

/-- C8. On trees whose stored children all have a parent pointer, `merge a b`
throws exactly when the states differ or the root-ness differs, and a throw
leaves `a` exactly as it was (it can only come from the guards of the top-level
call). -/
theorem merge_throws_iff_guard (a b : MCTSNode S)
    (ha : linked a = true) (hb : linked b = true) :
    ((∃ r, merge a b = .threw r) ↔ (a.state ≠ b.state ∨ a.is_root ≠ b.is_root)) ∧
    (∀ r, merge a b = .threw r → r = a) := by
  by_cases hg : a.is_root ≠ b.is_root ∨ a.state ≠ b.state
  · have ht := merge_guard_threw a b hg
    refine ⟨⟨fun _ => hg.symm, fun _ => ⟨a, ht⟩⟩, ?_⟩
    intro r hr
    rw [ht] at hr
    cases hr
    rfl
  · have hg2 : a.is_root = b.is_root ∧ a.state = b.state := by
      constructor
      · by_contra h; exact hg (Or.inl h)
      · by_contra h; exact hg (Or.inr h)
    obtain ⟨r, hr, _⟩ := merge_ok_aux.1 b a ha hb hg2.1 hg2.2
    refine ⟨⟨?_, fun h => absurd h.symm hg⟩, ?_⟩
    · rintro ⟨r2, hr2⟩
      rw [hr] at hr2
      cases hr2
    · intro r2 hr2
      rw [hr] at hr2
      cases hr2

end MCTSNode
open MCTSNode

theorem find_if_idx {α : Type} (p : α → Bool) (l pre : List α) (x : α) (post : List α)
    (h : find_if p l = some (pre, x, post)) :
    l[pre.length]? = some x ∧ ∀ m, pre ++ m :: post = l.set pre.length m := by
  obtain ⟨rfl, _, _⟩ := find_if_some p l pre x post h
  constructor
  · rw [List.getElem?_append_right (le_refl _)]
    simp
  · intro m
    simp

namespace MCTSNode
variable {S : Type} [DecidableEq S]

theorem mergeChildren_frame :
    ∀ (bcs cur cs2 : List (MCTSNode S)), mergeChildren cur bcs = .ok cs2 →
      ∀ (i : Nat) (c : MCTSNode S), cur[i]? = some c →
        ∃ c2, cs2[i]? = some c2 ∧ c2.state = c.state ∧
          ((∀ bc ∈ bcs, bc.state ≠ c.state) → c2 = c) := by
  intro bcs
  induction bcs with
  | nil =>
    intro cur cs2 h i c hc
    simp [mergeChildren] at h
    subst h
    exact ⟨c, hc, rfl, fun _ => rfl⟩
  | cons x xs ih =>
    intro cur cs2 h i c hc
    rw [mergeChildren] at h
    cases hf : find_if (fun our_child => decide (our_child.state = x.state)) cur with
    | none =>
      simp only [hf] at h
      have hi : i < cur.length := (List.getElem?_eq_some.mp hc).1
      have hc' : (cur ++ [copy x (some ())])[i]? = some c := by
        rw [List.getElem?_append_left hi]; exact hc
      obtain ⟨c2, h1, h2, h3⟩ := ih _ _ h i c hc'
      exact ⟨c2, h1, h2, fun hall => h3 (fun bc hbc => hall bc (List.mem_cons_of_mem _ hbc))⟩
    | some r =>
      obtain ⟨pre, o, post⟩ := r
      simp only [hf] at h
      obtain ⟨_, hp, _⟩ := find_if_some _ _ _ _ _ hf
      obtain ⟨hj, hset⟩ := find_if_idx _ _ _ _ _ hf
      have hst : o.state = x.state := by simpa using hp
      cases hm : merge o x with
      | threw m => simp [hm] at h
      | ok m =>
        simp only [hm] at h
        rw [hset m] at h
        have hms : m.state = o.state := (merge_keeps o x m (Or.inl hm)).1
        have hjl : pre.length < cur.length := (List.getElem?_eq_some.mp hj).1
        by_cases hij : i = pre.length
        · subst hij
          have hco : c = o := by rw [hj] at hc; exact (Option.some.inj hc).symm
          subst hco
          have hc' : (cur.set pre.length m)[pre.length]? = some m := by
            simp [List.getElem?_set, hjl]
          obtain ⟨c2, h1, h2, _⟩ := ih _ _ h pre.length m hc'
          refine ⟨c2, h1, by rw [h2, hms], ?_⟩
          intro hall
          exact absurd hst.symm (hall x (List.mem_cons_self _ _))
        · have hc' : (cur.set pre.length m)[i]? = some c := by
            rw [List.getElem?_set_ne (Ne.symm hij)]; exact hc
          obtain ⟨c2, h1, h2, h3⟩ := ih _ _ h i c hc'
          exact ⟨c2, h1, h2, fun hall => h3 (fun bc hbc => hall bc (List.mem_cons_of_mem _ hbc))⟩

theorem mergeChildren_appended :
    ∀ (bcs cur cs2 : List (MCTSNode S)), mergeChildren cur bcs = .ok cs2 →
      (bcs.map state).Nodup →
      cs2.drop cur.length =
        (bcs.filter (fun bc => decide (bc.state ∉ cur.map state))).map
          (fun bc => copy bc (some ())) := by
  intro bcs
  induction bcs with
  | nil =>
    intro cur cs2 h _
    simp [mergeChildren] at h
    subst h
    simp
  | cons x xs ih =>
    intro cur cs2 h hnd
    have hnd' : x.state ∉ xs.map state ∧ (xs.map state).Nodup := by
      simpa using hnd
    have hframe := mergeChildren_frame (x :: xs) cur cs2 h
    rw [mergeChildren] at h
    cases hf : find_if (fun our_child => decide (our_child.state = x.state)) cur with
    | none =>
      simp only [hf] at h
      have hno := (find_if_none _ _).mp hf
      have hx : x.state ∉ cur.map state := by
        intro hmem
        obtain ⟨c, hc, hcs⟩ := List.mem_map.mp hmem
        have := hno c hc
        simp [hcs] at this
      have h2 := ih _ _ h hnd'.2
      have hfr := mergeChildren_frame xs _ cs2 h cur.length (copy x (some ())) (by simp)
      obtain ⟨c2, hc2, _, hc2eq⟩ := hfr
      have hcx : c2 = copy x (some ()) := by
        apply hc2eq
        intro bc hbc heq
        apply hnd'.1
        rw [((copy_facts (S := S)).1 x (some ())).1] at heq
        rw [← heq]
        exact List.mem_map_of_mem _ hbc
      subst hcx
      have hlen : cur.length < cs2.length := (List.getElem?_eq_some.mp hc2).1
      rw [List.drop_eq_getElem_cons hlen]
      have hget : cs2[cur.length] = copy x (some ()) := (List.getElem?_eq_some.mp hc2).2
      rw [hget]
      simp only [List.length_append, List.length_singleton] at h2
      rw [h2]
      rw [List.filter_cons_of_pos (by simpa using hx)]
      simp only [List.map_cons]
      congr 2
      apply List.filter_congr
      intro bc hbc
      have hne : bc.state ≠ x.state := by
        intro heq
        apply hnd'.1
        rw [← heq]
        exact List.mem_map_of_mem _ hbc
      simp [((copy_facts (S := S)).1 x (some ())).1, hne]
    | some r =>
      obtain ⟨pre, o, post⟩ := r
      simp only [hf] at h
      obtain ⟨hsplit, hp, _⟩ := find_if_some _ _ _ _ _ hf
      have hst : o.state = x.state := by simpa using hp
      cases hm : merge o x with
      | threw m => simp [hm] at h
      | ok m =>
        simp only [hm] at h
        have hms : m.state = o.state := (merge_keeps o x m (Or.inl hm)).1
        have h2 := ih _ _ h hnd'.2
        have hx : ¬ (x.state ∉ cur.map state) := by
          intro hcon
          apply hcon
          rw [hsplit]
          simp [hst]
        rw [List.filter_cons_of_neg (by simpa using hx)]
        have hl : (pre ++ m :: post).length = cur.length := by rw [hsplit]; simp
        have hmap : (pre ++ m :: post).map state = cur.map state := by
          rw [hsplit]; simp [hms]
        rw [hl, hmap] at h2
        exact h2

/-- A successful `merge` is the loop run on the children of its arguments. -/
theorem merge_children (a b r : MCTSNode S) (h : merge a b = .ok r) :
    mergeChildren a.children b.children = .ok r.children := by
  cases a with
  | mk s cs p e t c =>
  cases b with
  | mk bs bcs bp be bt bc =>
    rw [merge] at h
    split_ifs at h with h1 h2
    cases hm : mergeChildren cs bcs with
    | ok cs2 => simp [hm] at h; subst h; simp [hm]
    | threw cs2 => simp [hm] at h

theorem merge_self_aux :
    (∀ b : MCTSNode S, linked b = true → uniqueSiblings b → merge b b = .ok (doubled b)) ∧
    (∀ l : List (MCTSNode S), ∀ done : List (MCTSNode S), linkedList l = true →
        uniqueSiblingsList l → (l.map state).Nodup →
        (∀ x ∈ done, x.state ∉ l.map state) →
        mergeChildren (done ++ l) l = .ok (done ++ doubledList l)) := by
  apply induct
  · intro s cs p e t c ih hl hu
    simp only [linked] at hl
    simp only [uniqueSiblings] at hu
    have h := ih [] hl hu.2 hu.1 (by simp)
    simp only [List.nil_append] at h
    rw [merge]
    have hg : ((!p.isSome && !(!p.isSome)) || (!(!p.isSome) && !p.isSome)) = false := by
      cases p <;> simp
    simp only [is_root_mk, hg, h, doubled]
    simp [two_mul]
  · intro done _ _ _ _
    simp [mergeChildren, doubledList]
  · intro x xs hx hxs done hl hu hnd hdone
    simp only [linkedList, Bool.and_eq_true] at hl
    obtain ⟨⟨_, hlx⟩, hlxs⟩ := hl
    simp only [uniqueSiblingsList] at hu
    have hnd' : x.state ∉ xs.map state ∧ (xs.map state).Nodup := by simpa using hnd
    have hfind : find_if (fun our_child => decide (our_child.state = x.state)) (done ++ x :: xs)
        = some (done, x, xs) := by
      apply find_if_of_split
      · simp
      · intro y hy
        have := hdone y hy
        simp only [List.map_cons, List.mem_cons, not_or] at this
        simpa using this.1
    rw [mergeChildren]
    simp only [hfind, hx hlx hu.1]
    have hd : (doubled x).state = x.state := by
      cases x with
      | mk s cs p e t c => simp [doubled]
    have := hxs (done ++ [doubled x]) hlxs hu.2 hnd'.2 (by
      intro y hy
      rcases List.mem_append.mp hy with hy | hy
      · have := hdone y hy
        simp only [List.map_cons, List.mem_cons, not_or] at this
        exact this.2
      · simp only [List.mem_singleton] at hy
        subst hy
        rw [hd]
        exact hnd'.1)
    simpa [doubledList] using this

/-- Witness of C1 on the example trees `exA` and `exB`. -/
theorem merge_sums_additive_witness :
    linked exA = true ∧ linked exB = true ∧ exA.state = exB.state ∧
      exA.is_root = exB.is_root ∧
      ∃ r, merge exA exB = .ok r ∧ sumCount r = sumCount exA + sumCount exB ∧
        sumTot r = sumTot exA + sumTot exB :=
  ⟨rfl, rfl, rfl, rfl, merge_sums_additive exA exB rfl rfl rfl rfl⟩

/-- Witness of C8 on `exA` (a root) and `exC` (same state, but not a root). -/
theorem merge_throws_iff_guard_witness :
    linked exA = true ∧ linked exC = true ∧
      (((∃ r, merge exA exC = .threw r) ↔ (exA.state ≠ exC.state ∨ exA.is_root ≠ exC.is_root)) ∧
        (∀ r, merge exA exC = .threw r → r = exA)) :=
  ⟨rfl, rfl, merge_throws_iff_guard exA exC rfl rfl⟩

/-- C3 (the code departs from the claim). `exWin` and `exDraw` are mergeable and
satisfy the `expected` invariant at every node; after `merge` the node has
`tot = 1`, `count = 2` and still `expected = 1`, which is not `tot / count`. -/
theorem merge_leaves_expected_stale :
    (∀ x ∈ allNodes exWin, expectedOK x) ∧ (∀ x ∈ allNodes exDraw, expectedOK x) ∧
      exWin.state = exDraw.state ∧ exWin.is_root = exDraw.is_root ∧
      merge exWin exDraw = .ok (mk 0 [] none (some 1) 1 2) ∧
      ¬ expectedOK (mk 0 [] none (some 1) 1 2 : MCTSNode Nat) ∧
      (some 1 : Option ℚ) ≠ some ((exWin.tot + exDraw.tot) / (exWin.count + exDraw.count)) := by
  refine ⟨?_, ?_, rfl, rfl, ?_, ?_, ?_⟩
  · simp [allNodes, allNodesList, exWin, expectedOK]
  · simp [allNodes, allNodesList, exDraw, expectedOK]
  · simp [merge, mergeChildren, exWin, exDraw]
  · simp [expectedOK]
  · simp [exWin, exDraw]

/-- C6. For a tree `A` with pairwise distinct sibling states at every node (and
every stored child having a parent pointer), merging `A` with a deep copy of `A`
returns normally with the tree `doubled A`: same shape, states and child order,
every `tot` and `count` twice its value in `A`. -/
theorem merge_with_copy_doubles (A : MCTSNode S)
    (hl : linked A = true) (hu : uniqueSiblings A) :
    merge A (copy A A.parent) = .ok (doubled A) := by
  rw [copy_eq_self.1 A hl]
  exact merge_self_aux.1 A hl hu

/-- Witness of C6 on `exA`. -/
theorem merge_with_copy_doubles_witness :
    linked exA = true ∧ uniqueSiblings exA ∧
      merge exA (copy exA exA.parent) = .ok (doubled exA) :=
  ⟨rfl, by simp [uniqueSiblings, uniqueSiblingsList, exA],
   merge_with_copy_doubles exA rfl (by simp [uniqueSiblings, uniqueSiblingsList, exA])⟩

/-- C7 as stated fails: `exBare` and `exTwins` are mergeable, both children of
`exTwins` have a state that no child of `exBare` has, yet after the merge no
child of the result agrees with the first of them in state, `tot` and `count`
(the single new child has accumulated both). -/
theorem merge_twins_not_copied :
    linked exBare = true ∧ linked exTwins = true ∧ exBare.state = exTwins.state ∧
      exBare.is_root = exTwins.is_root ∧
      ∃ r, merge exBare exTwins = .ok r ∧
        ∃ bc ∈ exTwins.children, (∀ ac ∈ exBare.children, ac.state ≠ bc.state) ∧
          ∀ c ∈ r.children, ¬ (c.state = bc.state ∧ c.tot = bc.tot ∧ c.count = bc.count) := by
  refine ⟨rfl, rfl, rfl, rfl, mk 0 [mk 1 [] (some ()) (some 1) 2 2] none none 2 2, ?_, ?_⟩
  · simp [merge, mergeChildren, exBare, exTwins, find_if, copy, copyChildren]
    norm_num
  · refine ⟨mk 1 [] (some ()) (some 1) 1 1, by simp [exTwins], by simp [exBare], ?_⟩
    simp

/-- C7 (amended). For mergeable trees `A`, `B` (every stored child having a
parent pointer) `merge` returns normally; every child of `A` whose state is the
state of no child of `B` is unchanged at its position; and when the children of
`B` have pairwise distinct states, the children after the old ones of `A` are
exactly the children of `B` whose state no child of `A` has, in `B`'s order,
each equal to the child of `B` with its whole subtree. -/
theorem merge_frame_and_append (A B : MCTSNode S)
    (hA : linked A = true) (hB : linked B = true)
    (hstate : A.state = B.state) (hroot : A.is_root = B.is_root) :
    ∃ r, merge A B = .ok r ∧
      (∀ (i : Nat) (ac : MCTSNode S), A.children[i]? = some ac →
        (∀ bc ∈ B.children, bc.state ≠ ac.state) → r.children[i]? = some ac) ∧
      ((B.children.map state).Nodup →
        r.children.drop A.children.length =
          B.children.filter (fun bc => decide (bc.state ∉ A.children.map state))) := by
  obtain ⟨r, hr, _⟩ := merge_ok_aux.1 B A hA hB hroot hstate
  have hc := merge_children A B r hr
  refine ⟨r, hr, ?_, ?_⟩
  · intro i ac hi hno
    obtain ⟨c2, h1, _, h3⟩ := mergeChildren_frame _ _ _ hc i ac hi
    rw [h1, h3 hno]
  · intro hnd
    rw [mergeChildren_appended _ _ _ hc hnd]
    have hBl : linkedList B.children = true := by
      cases B with
      | mk bs bcs bp be bt bc => simpa [linked] using hB
    rw [linkedList_iff] at hBl
    conv_rhs => rw [← List.map_id (List.filter _ B.children)]
    apply List.map_congr_left
    intro bc hbc
    have hmem : bc ∈ B.children := (List.mem_filter.mp hbc).1
    obtain ⟨hp, hl⟩ := hBl bc hmem
    have hpx : bc.parent = some () := by
      cases hq : bc.parent with
      | none => simp [hq] at hp
      | some u => rfl
    have := copy_eq_self.1 bc hl
    rw [hpx] at this
    simpa using this

/-- Witness of C7 (amended) on `exA` and `exB`. -/
theorem merge_frame_and_append_witness :
    linked exA = true ∧ linked exB = true ∧ exA.state = exB.state ∧
      exA.is_root = exB.is_root ∧
      ∃ r, merge exA exB = .ok r ∧
        (∀ (i : Nat) (ac : MCTSNode Nat), exA.children[i]? = some ac →
          (∀ bc ∈ exB.children, bc.state ≠ ac.state) → r.children[i]? = some ac) ∧
        ((exB.children.map state).Nodup →
          r.children.drop exA.children.length =
            exB.children.filter (fun bc => decide (bc.state ∉ exA.children.map state))) :=
  ⟨rfl, rfl, rfl, rfl, merge_frame_and_append exA exB rfl rfl rfl rfl⟩

end MCTSNode

theorem find_if_of_idx {α : Type} (p : α → Bool) :
    ∀ (l : List α) (i : Nat) (x : α), l[i]? = some x → p x = true →
      (∀ (j : Nat) (y : α), j < i → l[j]? = some y → p y = false) →
      ∃ pre post, find_if p l = some (pre, x, post) ∧ pre.length = i := by
  intro l
  induction l with
  | nil => intro i x h; simp at h
  | cons c cs ih =>
    intro i x h hx hlt
    cases i with
    | zero =>
      simp at h
      subst h
      exact ⟨[], cs, by simp [find_if, hx], rfl⟩
    | succ k =>
      have hc : p c = false := hlt 0 c (Nat.succ_pos _) (by simp)
      have hk : cs[k]? = some x := by simpa using h
      obtain ⟨pre, post, h1, h2⟩ := ih k x hk hx (fun j y hj hy =>
        hlt (j + 1) y (Nat.succ_lt_succ hj) (by simpa using hy))
      exact ⟨c :: pre, post, by simp [find_if, hc, h1], by simp [h2]⟩

theorem find_if_before_idx {α : Type} (p : α → Bool) (l pre : List α) (x : α) (post : List α)
    (h : find_if p l = some (pre, x, post)) :
    ∀ (j : Nat) (y : α), j < pre.length → l[j]? = some y → p y = false := by
  obtain ⟨rfl, _, hpre⟩ := find_if_some p l pre x post h
  intro j y hj hy
  rw [List.getElem?_append_left hj] at hy
  exact hpre y (List.getElem?_mem hy)

namespace MCTSNode
variable {S : Type} [DecidableEq S]

theorem merge_adds_aux :
    (∀ b : MCTSNode S, ∀ a r, uniqueSiblings b → merge a b = .ok r → addsStats b a r) ∧
    (∀ bcs : List (MCTSNode S), ∀ orig cur cs2, uniqueSiblingsList bcs →
        (bcs.map state).Nodup →
        (∀ (i : Nat) (o : MCTSNode S), orig[i]? = some o →
          ∃ c, cur[i]? = some c ∧ c.state = o.state ∧
            ((∃ bc ∈ bcs, bc.state = o.state) → c = o)) →
        mergeChildren cur bcs = .ok cs2 → addsStatsChildren bcs orig cs2) := by
  apply induct
  · intro bs bcs bp be bt bc ih a r hu h
    have ht := merge_top a _ r h
    have hc := merge_children a _ r h
    simp only [uniqueSiblings] at hu
    simp only [tot_mk, count_mk, children_mk] at ht hc
    refine ⟨ht.1, ht.2, ih a.children a.children r.children hu.2 hu.1 ?_ hc⟩
    intro i o ho
    exact ⟨o, ho, rfl, fun _ => rfl⟩
  · intro _ _ _ _ _ _ _
    simp [addsStatsChildren]
  · intro x xs hx hxs orig cur cs2 hu hnd hinv h
    simp only [uniqueSiblingsList] at hu
    have hnd' : x.state ∉ xs.map state ∧ (xs.map state).Nodup := by simpa using hnd
    have hxsne : ∀ bc ∈ xs, bc.state ≠ x.state := by
      intro bc hbc heq
      apply hnd'.1
      rw [← heq]
      exact List.mem_map_of_mem _ hbc
    rw [mergeChildren] at h
    rw [addsStatsChildren]
    cases hf : find_if (fun our_child => decide (our_child.state = x.state)) cur with
    | none =>
      simp only [hf] at h
      have hno := (find_if_none _ _).mp hf
      constructor
      · cases hfo : find_if (fun our_child => decide (our_child.state = x.state)) orig with
        | none => simp
        | some q =>
          obtain ⟨pre, ac, post⟩ := q
          exfalso
          obtain ⟨hj, _⟩ := find_if_idx _ _ _ _ _ hfo
          obtain ⟨_, hp, _⟩ := find_if_some _ _ _ _ _ hfo
          obtain ⟨c, hc, hcs, _⟩ := hinv _ _ hj
          have := hno c (List.getElem?_mem hc)
          have hac : ac.state = x.state := by simpa using hp
          simp [hcs, hac] at this
      · apply hxs orig _ cs2 hu.2 hnd'.2 _ h
        intro i o ho
        obtain ⟨c, hc, hcs, hceq⟩ := hinv i o ho
        have hi : i < cur.length := (List.getElem?_eq_some.mp hc).1
        refine ⟨c, by rw [List.getElem?_append_left hi]; exact hc, hcs, ?_⟩
        rintro ⟨bc, hbc, hbcs⟩
        exact hceq ⟨bc, List.mem_cons_of_mem _ hbc, hbcs⟩
    | some q =>
      obtain ⟨pre1, o1, post1⟩ := q
      simp only [hf] at h
      obtain ⟨_, hp1, _⟩ := find_if_some _ _ _ _ _ hf
      obtain ⟨hj1, hset⟩ := find_if_idx _ _ _ _ _ hf
      have hpre1 := find_if_before_idx _ _ _ _ _ hf
      have hst1 : o1.state = x.state := by simpa using hp1
      cases hm : merge o1 x with
      | threw m => simp [hm] at h
      | ok m =>
        simp only [hm] at h
        rw [hset m] at h
        have hms : m.state = o1.state := (merge_keeps o1 x m (Or.inl hm)).1
        have hjl : pre1.length < cur.length := (List.getElem?_eq_some.mp hj1).1
        have hcur'j : (cur.set pre1.length m)[pre1.length]? = some m := by
          simp [List.getElem?_set, hjl]
        constructor
        · cases hfo : find_if (fun our_child => decide (our_child.state = x.state)) orig with
          | none => simp
          | some q =>
            obtain ⟨pre, ac, post⟩ := q
            simp only []
            obtain ⟨hj, _⟩ := find_if_idx _ _ _ _ _ hfo
            obtain ⟨_, hp, _⟩ := find_if_some _ _ _ _ _ hfo
            have hpre := find_if_before_idx _ _ _ _ _ hfo
            have hac : ac.state = x.state := by simpa using hp
            obtain ⟨c, hc, _, hceq⟩ := hinv _ _ hj
            have hcac : c = ac := hceq ⟨x, List.mem_cons_self _ _, hac.symm⟩
            subst hcac
            -- the first match in `cur` sits at the same index
            obtain ⟨pre2, post2, hf2, hlen2⟩ := find_if_of_idx
              (fun our_child : MCTSNode S => decide (our_child.state = x.state)) cur pre.length c hc hp
              (by
                intro j y hjlt hy
                have hjo : j < orig.length :=
                  lt_trans hjlt (List.getElem?_eq_some.mp hj).1
                have hoj : orig[j]? = some orig[j] := List.getElem?_eq_getElem hjo
                obtain ⟨c', hc', hcs', _⟩ := hinv j _ hoj
                rw [hy] at hc'
                have hyc : y = c' := Option.some.inj hc'
                subst hyc
                have := hpre j _ hjlt hoj
                simpa [hcs'] using this)
            rw [hf] at hf2
            simp only [Option.some.injEq, Prod.mk.injEq] at hf2
            obtain ⟨hpe, hoe, _⟩ := hf2
            subst hpe
            subst hoe
            rw [← hlen2]
            obtain ⟨c2, hc2, _, hc2eq⟩ := mergeChildren_frame xs _ cs2 h pre1.length m hcur'j
            have : c2 = m := hc2eq (by
              intro bc hbc
              rw [hms, hst1]
              exact hxsne bc hbc)
            subst this
            exact ⟨c2, hc2, hx o1 c2 hu.1 hm⟩
        · apply hxs orig _ cs2 hu.2 hnd'.2 _ h
          intro i o ho
          obtain ⟨c, hc, hcs, hceq⟩ := hinv i o ho
          by_cases hij : i = pre1.length
          · subst hij
            rw [hj1] at hc
            have hco : o1 = c := Option.some.inj hc
            subst hco
            refine ⟨m, hcur'j, by rw [hms, hcs], ?_⟩
            rintro ⟨bc, hbc, hbcs⟩
            exfalso
            apply hxsne bc hbc
            rw [hbcs, ← hcs, hst1]
          · refine ⟨c, by rw [List.getElem?_set_ne (Ne.symm hij)]; exact hc, hcs, ?_⟩
            rintro ⟨bc, hbc, hbcs⟩
            exact hceq ⟨bc, List.mem_cons_of_mem _ hbc, hbcs⟩

/-- C2 as stated fails: `exOne` and `exTwins` are mergeable, `merge` matches the
only child of `exOne` (count 0) with the first child of `exTwins` (count 1), and
after the merge that child has count 2, not 0 + 1: the relation `addsStats` of
the claim does not hold. -/
theorem merge_twins_not_pairwise_added :
    linked exOne = true ∧ linked exTwins = true ∧ exOne.state = exTwins.state ∧
      exOne.is_root = exTwins.is_root ∧
      ∃ r, merge exOne exTwins = .ok r ∧ ¬ addsStats exTwins exOne r := by
  refine ⟨rfl, rfl, rfl, rfl, mk 0 [mk 1 [] (some ()) none 2 2] none none 2 2, ?_, ?_⟩
  · simp [merge, mergeChildren, exOne, exTwins, find_if]
    norm_num
  · simp [addsStats, addsStatsChildren, exOne, exTwins, find_if]

/-- C2 (amended). For nodes `a`, `b` with equal state and equal root-ness (every
stored child having a parent pointer), where no node of `b` has two children
with equal state, `merge(a, b)` returns normally and `a` has `tot` and `count`
grown by those of `b`, and the same holds recursively for every pair of children
that `merge` matches. (The argument `b` is only read by `merge`.) -/
theorem merge_adds_stats (a b : MCTSNode S)
    (ha : linked a = true) (hb : linked b = true)
    (hstate : a.state = b.state) (hroot : a.is_root = b.is_root)
    (hu : uniqueSiblings b) :
    ∃ r, merge a b = .ok r ∧ addsStats b a r := by
  obtain ⟨r, hr, _⟩ := merge_ok_aux.1 b a ha hb hroot hstate
  exact ⟨r, hr, merge_adds_aux.1 b a r hu hr⟩

/-- Witness of C2 (amended) on `exA` and `exB`. -/
theorem merge_adds_stats_witness :
    linked exA = true ∧ linked exB = true ∧ exA.state = exB.state ∧
      exA.is_root = exB.is_root ∧ uniqueSiblings exB ∧
      ∃ r, merge exA exB = .ok r ∧ addsStats exB exA r :=
  ⟨rfl, rfl, rfl, rfl, by simp [uniqueSiblings, uniqueSiblingsList, exB],
   merge_adds_stats exA exB rfl rfl rfl rfl (by simp [uniqueSiblings, uniqueSiblingsList, exB])⟩

end MCTSNode
variable {S : Type}

/-! ## Lemmas on `backprop` -/

theorem annotate_parent (h : Heap S) (cur : Nat) (parity : Int) (r : ℚ) (a : Nat) :
    (annotate h cur parity r a).parent = (h a).parent ∧
    (annotate h cur parity r a).state = (h a).state := by
  unfold annotate
  by_cases hc : a = cur
  · subst hc; simp
  · simp [hc]

theorem annotate_other (h : Heap S) (cur : Nat) (parity : Int) (r : ℚ) (a : Nat)
    (hne : a ≠ cur) : annotate h cur parity r a = h a := by
  simp [annotate, hne]

/-- The parent chain only depends on the `parent` fields. -/
theorem ancestor_congr (h h2 : Heap S) (hp : ∀ a, (h2 a).parent = (h a).parent) :
    ∀ (k a : Nat), ancestor h2 k a = ancestor h k a := by
  intro k
  induction k with
  | zero => intro a; rfl
  | succ k ih =>
    intro a
    simp only [ancestor, hp a]
    cases (h a).parent with
    | none => rfl
    | some p => exact ih p

theorem ancestor_add (h : Heap S) :
    ∀ (m n a : Nat), ancestor h (m + n) a = (ancestor h m a).bind (ancestor h n) := by
  intro m
  induction m with
  | zero => intro n a; simp [ancestor]
  | succ m ih =>
    intro n a
    rw [Nat.succ_add]
    simp only [ancestor]
    cases (h a).parent with
    | none => rfl
    | some p => exact ih n p

/-- The number of steps from a node up to a root is unique. -/
theorem ancestor_root_unique (h : Heap S) :
    ∀ (m n a root root2 : Nat), ancestor h m a = some root → (h root).parent = none →
      ancestor h n a = some root2 → (h root2).parent = none → m = n := by
  intro m
  induction m with
  | zero =>
    intro n a root root2 h1 h2 h3 _
    simp only [ancestor, Option.some.injEq] at h1
    subst h1
    cases n with
    | zero => rfl
    | succ n => simp [ancestor, h2] at h3
  | succ m ih =>
    intro n a root root2 h1 h2 h3 h4
    cases n with
    | zero =>
      simp only [ancestor, Option.some.injEq] at h3
      subst h3
      simp [ancestor, h4] at h1
    | succ n =>
      simp only [ancestor] at h1 h3
      cases hp : (h a).parent with
      | none => simp [hp] at h1
      | some p =>
        simp only [hp] at h1 h3
        rw [ih n p root root2 h1 h2 h3 h4]

/-- A node does not occur on the parent chain of its parent when that chain ends
in a root. -/
theorem not_on_parent_chain (h : Heap S) (cur p root d : Nat)
    (hp : (h cur).parent = some p) (hd : ancestor h d p = some root)
    (hr : (h root).parent = none) :
    ∀ k, k ≤ d → ancestor h k p ≠ some cur := by
  intro k hk hcon
  have h1 : ancestor h (d + 1) cur = some root := by
    simp [ancestor, hp, hd]
  have h2 : ancestor h (d - k) cur = some root := by
    have := ancestor_add h k (d - k) p
    rw [Nat.add_sub_cancel' hk, hd, hcon] at this
    simpa using this.symm
  have := ancestor_root_unique h _ _ _ _ _ h1 hr h2 hr
  omega

/-- The loop of `backprop`, started at `cur` with sign `parity` on a chain that
reaches a root after `d` steps, returns; it rewrites the `k`-th node of the
chain with sign `parity * (-1)^k` and leaves every other cell alone. -/
theorem backpropLoop_spec (r : ℚ) :
    ∀ (d : Nat) (h : Heap S) (cur : Nat) (parity : Int) (root fuel : Nat),
      ancestor h d cur = some root → (h root).parent = none → d < fuel →
      ∃ h2, backpropLoop r fuel h cur parity = some h2 ∧
        (∀ a, (∀ k, k ≤ d → ancestor h k cur ≠ some a) → h2 a = h a) ∧
        (∀ k a, k ≤ d → ancestor h k cur = some a →
          h2 a = annotate h a (parity * (-1) ^ k) r a) := by
  intro d
  induction d with
  | zero =>
    intro h cur parity root fuel hd hr hf
    simp only [ancestor, Option.some.injEq] at hd
    subst hd
    obtain ⟨f, rfl⟩ : ∃ f, fuel = f + 1 := ⟨fuel - 1, by omega⟩
    refine ⟨annotate h cur parity r, by simp [backpropLoop, hr], ?_, ?_⟩
    · intro a ha
      apply annotate_other
      intro hc
      exact ha 0 (le_refl _) (by simp [ancestor, hc])
    · intro k a hk ha
      have hk0 : k = 0 := by omega
      subst hk0
      simp only [ancestor, Option.some.injEq] at ha
      subst ha
      simp
  | succ d ih =>
    intro h cur parity root fuel hd hr hf
    obtain ⟨f, rfl⟩ : ∃ f, fuel = f + 1 := ⟨fuel - 1, by omega⟩
    cases hp : (h cur).parent with
    | none => simp [ancestor, hp] at hd
    | some p =>
      have hdp : ancestor h d p = some root := by simpa [ancestor, hp] using hd
      have hpar : ∀ a, (annotate h cur parity r a).parent = (h a).parent :=
        fun a => (annotate_parent h cur parity r a).1
      have hanc := ancestor_congr h (annotate h cur parity r) hpar
      have hnot := not_on_parent_chain h cur p root d hp hdp hr
      obtain ⟨h2, hrun, hframe, hupd⟩ := ih (annotate h cur parity r) p (parity * (-1)) root f
        (by rw [hanc]; exact hdp) (by rw [hpar]; exact hr) (by omega)
      refine ⟨h2, by simp only [backpropLoop, hp, hrun], ?_, ?_⟩
      · intro a ha
        have hac : a ≠ cur := by
          intro hc
          exact ha 0 (Nat.zero_le _) (by simp [ancestor, hc])
        rw [hframe a, annotate_other _ _ _ _ _ hac]
        intro k hk
        rw [hanc]
        have := ha (k + 1) (by omega)
        simpa [ancestor, hp] using this
      · intro k a hk ha
        cases k with
        | zero =>
          simp only [ancestor, Option.some.injEq] at ha
          subst ha
          rw [hframe cur]
          · simp
          · intro k hk
            rw [hanc]
            exact hnot k hk
        | succ k =>
          have hak : ancestor h k p = some a := by simpa [ancestor, hp] using ha
          have hac : a ≠ cur := by
            intro hc
            subst hc
            exact hnot k (by omega) hak
          have := hupd k a (by omega) (by rw [hanc]; exact hak)
          rw [this]
          simp only [annotate, if_true]
          rw [if_neg hac]
          simp [pow_succ, mul_assoc]

theorem ancestor_beyond_root (h : Heap S) (s d root : Nat)
    (hd : ancestor h d s = some root) (hr : (h root).parent = none) :
    ∀ k, d < k → ancestor h k s = none := by
  intro k hk
  obtain ⟨j, rfl⟩ : ∃ j, k = d + (j + 1) := ⟨k - d - 1, by omega⟩
  rw [ancestor_add, hd]
  simp [ancestor, hr]

theorem mem_chain (h : Heap S) :
    ∀ (fuel s a : Nat), a ∈ chain h fuel s ↔ ∃ k, k < fuel ∧ ancestor h k s = some a := by
  intro fuel
  induction fuel with
  | zero => intro s a; simp [chain]
  | succ f ih =>
    intro s a
    simp only [chain, List.mem_cons]
    constructor
    · rintro (rfl | hmem)
      · exact ⟨0, Nat.succ_pos _, rfl⟩
      · cases hp : (h s).parent with
        | none => simp [hp] at hmem
        | some p =>
          simp only [hp] at hmem
          obtain ⟨k, hk, hka⟩ := (ih p a).mp hmem
          exact ⟨k + 1, by omega, by simp [ancestor, hp, hka]⟩
    · rintro ⟨k, hk, hka⟩
      cases k with
      | zero =>
        left
        simpa [ancestor] using hka.symm
      | succ k =>
        right
        cases hp : (h s).parent with
        | none => simp [ancestor, hp] at hka
        | some p =>
          simp only [ancestor, hp] at hka
          simp only []
          exact (ih p a).mpr ⟨k, by omega, hka⟩

theorem chain_congr (h h2 : Heap S) (hp : ∀ a, (h2 a).parent = (h a).parent)
    (fuel s : Nat) : chain h2 fuel s = chain h fuel s := by
  induction fuel generalizing s with
  | zero => rfl
  | succ f ih =>
    simp only [chain, hp s]
    cases (h s).parent with
    | none => rfl
    | some p => simp [ih p]

/-- One successful `backprop` call, described cell by cell. -/
theorem backprop_spec (reward : S → Option ℚ) (h : Heap S) (t d root fuel : Nat) (r : ℚ)
    (hrew : reward (h t).state = some r) (hd : ancestor h d t = some root)
    (hroot : (h root).parent = none) (hf : d < fuel) :
    ∃ h2, backprop reward fuel h t = some (.ok h2) ∧
      (∀ a, a ∉ chain h fuel t → h2 a = h a) ∧
      (∀ k a, k ≤ d → ancestor h k t = some a →
        h2 a = annotate h a ((-1) * (-1) ^ k) r a) ∧
      (∀ a, a ∈ chain h fuel t → ∃ k, k ≤ d ∧ ancestor h k t = some a) := by
  obtain ⟨h2, hrun, hframe, hupd⟩ := backpropLoop_spec r d h t (-1) root fuel hd hroot hf
  refine ⟨h2, by simp [backprop, hrew, hrun], ?_, hupd, ?_⟩
  · intro a ha
    apply hframe
    intro k hk hka
    exact ha ((mem_chain h fuel t a).mpr ⟨k, by omega, hka⟩)
  · intro a ha
    obtain ⟨k, _, hka⟩ := (mem_chain h fuel t a).mp ha
    refine ⟨k, ?_, hka⟩
    by_contra hkd
    have := ancestor_beyond_root h t d root hd hroot k (by omega)
    rw [this] at hka
    cases hka

theorem backprops_spec (reward : S → Option ℚ) (fuel : Nat) (h0 : Heap S) :
    ∀ (ts : List Nat) (h : Heap S),
      (∀ a, (h a).parent = (h0 a).parent ∧ (h a).state = (h0 a).state) →
      (∀ t ∈ ts, ∃ d root, d < fuel ∧ ancestor h0 d t = some root ∧ (h0 root).parent = none) →
      (∀ t ∈ ts, (reward (h0 t).state).isSome = true) →
      ∃ hf, backprops reward fuel h ts = some hf ∧
        ∀ a, (hf a).count = (h a).count + (visitsThrough h0 fuel ts a : Int) ∧
          ((0 ≤ (h a).count ∧ cellOK (h a)) → cellOK (hf a)) := by
  intro ts
  induction ts with
  | nil =>
    intro h _ _ _
    exact ⟨h, rfl, fun a => ⟨by simp [visitsThrough], fun hc => hc.2⟩⟩
  | cons t ts ih =>
    intro h hsame htree hrew
    obtain ⟨d, root, hdf, hd, hroot⟩ := htree t (List.mem_cons_self _ _)
    have hpar : ∀ a, (h a).parent = (h0 a).parent := fun a => (hsame a).1
    have hanc := ancestor_congr h0 h hpar
    obtain ⟨r, hr⟩ := Option.isSome_iff_exists.mp (hrew t (List.mem_cons_self _ _))
    obtain ⟨h2, hrun, hoff, hon, hmem⟩ := backprop_spec reward h t d root fuel r
      (by rw [(hsame t).2]; exact hr) (by rw [hanc]; exact hd) (by rw [hpar]; exact hroot) hdf
    rw [chain_congr h0 h hpar] at hoff hmem
    have hsame2 : ∀ a, (h2 a).parent = (h0 a).parent ∧ (h2 a).state = (h0 a).state := by
      intro a
      by_cases ha : a ∈ chain h0 fuel t
      · obtain ⟨k, hk, hka⟩ := hmem a ha
        rw [hon k a hk hka]
        have := annotate_parent h a ((-1) * (-1) ^ k) r a
        rw [this.1, this.2]
        exact hsame a
      · rw [hoff a ha]; exact hsame a
    obtain ⟨hf, hfrun, hfspec⟩ := ih h2 hsame2
      (fun t' ht' => htree t' (List.mem_cons_of_mem _ ht'))
      (fun t' ht' => hrew t' (List.mem_cons_of_mem _ ht'))
    refine ⟨hf, by simp [backprops, hrun, hfrun], ?_⟩
    intro a
    obtain ⟨hcount, hok⟩ := hfspec a
    by_cases ha : a ∈ chain h0 fuel t
    · obtain ⟨k, hk, hka⟩ := hmem a ha
      have h2a := hon k a hk hka
      have hc2 : (h2 a).count = (h a).count + 1 := by rw [h2a]; simp [annotate]
      constructor
      · rw [hcount, hc2]
        simp only [visitsThrough, List.filter_cons, ha, decide_True, if_true, List.length_cons]
        push_cast
        ring
      · rintro ⟨hnn, _⟩
        apply hok
        refine ⟨by rw [hc2]; omega, ?_⟩
        rw [h2a]
        constructor
        · simp only [annotate, if_true, Option.isSome_some, true_iff]
          omega
        · intro e he
          simp only [annotate, if_true, Option.some.injEq] at he
          rw [← he]
          simp [annotate]
    · have h2a := hoff a ha
      constructor
      · rw [hcount, h2a]
        simp [visitsThrough, List.filter_cons, ha]
      · intro hc
        apply hok
        rw [h2a]
        exact hc

/-! ## Claims on `backprop` -/

/-- C4 as stated fails. In `exHeap` node 2 is at depth 2 below the root 0 and
its state has reward 1; `backprop` from node 2 adds `+1` (not `-1`) to the `tot`
of its parent 1 and `-1` (not `(-1)^2 * 1`) to the `tot` of the root. -/
theorem backprop_parent_receives_plus_reward :
    ancestor exHeap 2 2 = some 0 ∧ (exHeap 0).parent = none ∧
      (exHeap 2).parent = some 1 ∧ (exHeap 1).parent = some 0 ∧
      exReward (exHeap 2).state = some 1 ∧
      ∃ h2, backprop exReward 3 exHeap 2 = some (.ok h2) ∧
        (h2 1).tot = (exHeap 1).tot + 1 ∧ (h2 1).tot ≠ (exHeap 1).tot + (-1) * 1 ∧
        (h2 0).tot = (exHeap 0).tot - 1 ∧ (h2 0).tot ≠ (exHeap 0).tot + (-1) ^ 2 * 1 := by
  refine ⟨rfl, rfl, rfl, rfl, rfl, _, rfl, ?_, ?_, ?_, ?_⟩ <;>
    simp [annotate, exHeap] <;> norm_num

/-- C4 (amended). For a node `t` at depth `d` (root at depth 0) whose state has
reward `r`, `t.backprop()` returns normally and adds `(-1)^(k+1) * r` to the
`tot` of the `k`-th node of the parent chain of `t`: `-r` to `t` itself, `+r` to
its parent, `-r` to its grandparent, and `(-1)^(d+1) * r` to the root; signs
alternate at each step up the chain. -/
theorem backprop_alternating_signs (reward : S → Option ℚ) (h : Heap S)
    (t d root fuel : Nat) (r : ℚ)
    (hrew : reward (h t).state = some r) (hd : ancestor h d t = some root)
    (hroot : (h root).parent = none) (hf : d < fuel) :
    ∃ h2, backprop reward fuel h t = some (.ok h2) ∧
      ∀ k a, k ≤ d → ancestor h k t = some a →
        (h2 a).tot = (h a).tot + (-1) ^ (k + 1) * r := by
  obtain ⟨h2, hrun, _, hon, _⟩ := backprop_spec reward h t d root fuel r hrew hd hroot hf
  refine ⟨h2, hrun, ?_⟩
  intro k a hk hka
  rw [hon k a hk hka]
  simp [annotate, pow_succ]

/-- Witness of C4 (amended) on `exHeap`, node 2, reward 1. -/
theorem backprop_alternating_signs_witness :
    exReward (exHeap 2).state = some 1 ∧ ancestor exHeap 2 2 = some 0 ∧
      (exHeap 0).parent = none ∧ 2 < 3 ∧
      ∃ h2, backprop exReward 3 exHeap 2 = some (.ok h2) ∧
        ∀ k a, k ≤ 2 → ancestor exHeap k 2 = some a →
          (h2 a).tot = (exHeap a).tot + (-1) ^ (k + 1) * 1 :=
  ⟨rfl, rfl, rfl, by decide,
   backprop_alternating_signs exReward exHeap 2 2 0 3 1 rfl rfl rfl (by decide)⟩

/-- C5. Starting from a store whose nodes all have `count = 0`, `tot = 0` and no
`expected`, every sequence `ts` of `backprop` calls started at nodes whose
parent chain reaches a root and whose state has a reward returns normally, and
afterwards every node `a` has `count` equal to the number of calls whose start
is `a` or a descendant of `a`, and `expected` is present iff `count > 0`, in
which case it equals `tot / count`. -/
theorem backprop_bookkeeping (reward : S → Option ℚ) (fuel : Nat) (h0 : Heap S)
    (ts : List Nat)
    (hzero : ∀ a, (h0 a).count = 0 ∧ (h0 a).tot = 0 ∧ (h0 a).expected = none)
    (htree : ∀ t ∈ ts, ∃ d root, d < fuel ∧ ancestor h0 d t = some root ∧
      (h0 root).parent = none)
    (hrew : ∀ t ∈ ts, (reward (h0 t).state).isSome = true) :
    ∃ hf, backprops reward fuel h0 ts = some hf ∧
      ∀ a, (hf a).count = (visitsThrough h0 fuel ts a : Int) ∧
        ((hf a).expected.isSome = true ↔ 0 < (hf a).count) ∧
        (∀ e, (hf a).expected = some e → e = (hf a).tot / (hf a).count) := by
  obtain ⟨hf, hrun, hspec⟩ := backprops_spec reward fuel h0 ts h0
    (fun a => ⟨rfl, rfl⟩) htree hrew
  refine ⟨hf, hrun, ?_⟩
  intro a
  obtain ⟨hc, hok⟩ := hspec a
  obtain ⟨hz1, _, hz3⟩ := hzero a
  have hcell : cellOK (hf a) := by
    apply hok
    refine ⟨by rw [hz1], ?_⟩
    constructor
    · simp [hz1, hz3]
    · intro e he
      rw [hz3] at he
      cases he
  refine ⟨by rw [hc, hz1]; simp, hcell.1, hcell.2⟩

/-- Witness of C5 on `exHeap` with two calls from node 2. -/
theorem backprop_bookkeeping_witness :
    (∀ a, (exHeap a).count = 0 ∧ (exHeap a).tot = 0 ∧ (exHeap a).expected = none) ∧
      (∀ t ∈ [2, 2], ∃ d root, d < 3 ∧ ancestor exHeap d t = some root ∧
        (exHeap root).parent = none) ∧
      (∀ t ∈ [2, 2], (exReward (exHeap t).state).isSome = true) ∧
      ∃ hf, backprops exReward 3 exHeap [2, 2] = some hf ∧
        ∀ a, (hf a).count = (visitsThrough exHeap 3 [2, 2] a : Int) ∧
          ((hf a).expected.isSome = true ↔ 0 < (hf a).count) ∧
          (∀ e, (hf a).expected = some e → e = (hf a).tot / (hf a).count) :=
  have hz : ∀ a, (exHeap a).count = 0 ∧ (exHeap a).tot = 0 ∧ (exHeap a).expected = none :=
    fun _ => ⟨rfl, rfl, rfl⟩
  have ht : ∀ t ∈ [2, 2], ∃ d root, d < 3 ∧ ancestor exHeap d t = some root ∧
      (exHeap root).parent = none := by
    intro t ht
    simp only [List.mem_cons, List.mem_singleton, List.not_mem_nil, or_false, or_self] at ht
    subst ht
    exact ⟨2, 0, by decide, rfl, rfl⟩
  have hr : ∀ t ∈ [2, 2], (exReward (exHeap t).state).isSome = true := by
    intro t ht
    simp only [List.mem_cons, List.mem_singleton, List.not_mem_nil, or_false, or_self] at ht
    subst ht
    rfl
  ⟨hz, ht, hr, backprop_bookkeeping exReward 3 exHeap [2, 2] hz ht hr⟩

theorem max_element_loop_spec {α R : Type} [LinearOrder R] (f : α → R) :
    ∀ (xs : List α) (largest : α) (li i : Nat),
      (max_element_loop (fun a b => decide (f a < f b)) largest li i xs = li ∧
        ∀ x ∈ xs, f x ≤ f largest) ∨
      (∃ m, i ≤ max_element_loop (fun a b => decide (f a < f b)) largest li i xs ∧
        xs[max_element_loop (fun a b => decide (f a < f b)) largest li i xs - i]? = some m ∧
        f largest < f m ∧ (∀ x ∈ xs, f x ≤ f m) ∧
        ∀ (j : Nat) (y : α),
          j < max_element_loop (fun a b => decide (f a < f b)) largest li i xs - i →
          xs[j]? = some y → f y < f m) := by
  intro xs
  induction xs with
  | nil => intro largest li i; left; simp [max_element_loop]
  | cons x xs ih =>
    intro largest li i
    by_cases hlt : f largest < f x
    · simp only [max_element_loop, hlt, decide_True, if_true]
      right
      rcases ih x i (i + 1) with ⟨hk, hall⟩ | ⟨m, hik, hget, hxm, hall, hbefore⟩
      · refine ⟨x, by omega, by simp [hk], hlt, ?_, ?_⟩
        · intro y hy
          rcases List.mem_cons.mp hy with rfl | hy
          · exact le_refl _
          · exact hall y hy
        · intro j y hj
          rw [hk] at hj
          omega
      · generalize max_element_loop (fun a b => decide (f a < f b)) x i (i + 1) xs = k at *
        obtain ⟨e, rfl⟩ : ∃ e, k = i + 1 + e := ⟨k - (i + 1), by omega⟩
        have e1 : i + 1 + e - (i + 1) = e := by omega
        have e2 : i + 1 + e - i = e + 1 := by omega
        rw [e1] at hget hbefore
        rw [e2]
        refine ⟨m, by omega, by simpa using hget, lt_trans hlt hxm, ?_, ?_⟩
        · intro y hy
          rcases List.mem_cons.mp hy with rfl | hy
          · exact le_of_lt hxm
          · exact hall y hy
        · intro j y hj hy
          cases j with
          | zero =>
            simp at hy
            subst hy
            exact hxm
          | succ j => exact hbefore j y (by omega) (by simpa using hy)
    · simp only [max_element_loop, hlt, decide_False, if_false, Bool.false_eq_true]
      have hle : f x ≤ f largest := not_lt.mp hlt
      rcases ih largest li (i + 1) with ⟨hk, hall⟩ | ⟨m, hik, hget, hxm, hall, hbefore⟩
      · left
        refine ⟨hk, ?_⟩
        intro y hy
        rcases List.mem_cons.mp hy with rfl | hy
        · exact hle
        · exact hall y hy
      · right
        generalize max_element_loop (fun a b => decide (f a < f b)) largest li (i + 1) xs = k at *
        obtain ⟨e, rfl⟩ : ∃ e, k = i + 1 + e := ⟨k - (i + 1), by omega⟩
        have e1 : i + 1 + e - (i + 1) = e := by omega
        have e2 : i + 1 + e - i = e + 1 := by omega
        rw [e1] at hget hbefore
        rw [e2]
        refine ⟨m, by omega, by simpa using hget, hxm, ?_, ?_⟩
        · intro y hy
          rcases List.mem_cons.mp hy with rfl | hy
          · exact le_of_lt (lt_of_le_of_lt hle hxm)
          · exact hall y hy
        · intro j y hj hy
          cases j with
          | zero =>
            simp at hy
            subst hy
            exact lt_of_le_of_lt hle hxm
          | succ j => exact hbefore j y (by omega) (by simpa using hy)

/-- The function `std::max_element` returns the first position of a maximum. -/
theorem max_element_spec {α R : Type} [LinearOrder R] (f : α → R) (l : List α)
    (hne : l ≠ []) :
    ∃ i m, max_element (fun a b => decide (f a < f b)) l = some i ∧ l[i]? = some m ∧
      (∀ x ∈ l, f x ≤ f m) ∧ ∀ (j : Nat) (y : α), j < i → l[j]? = some y → f y < f m := by
  cases l with
  | nil => exact absurd rfl hne
  | cons x xs =>
    simp only [max_element]
    rcases max_element_loop_spec f xs x 0 1 with ⟨hk, hall⟩ | ⟨m, hik, hget, hxm, hall, hbefore⟩
    · refine ⟨0, x, by rw [hk], by simp, ?_, ?_⟩
      · intro y hy
        rcases List.mem_cons.mp hy with rfl | hy
        · exact le_refl _
        · exact hall y hy
      · intro j y hj
        omega
    · generalize max_element_loop (fun a b => decide (f a < f b)) x 0 1 xs = k at *
      obtain ⟨e, rfl⟩ : ∃ e, k = e + 1 := ⟨k - 1, by omega⟩
      simp only [Nat.add_sub_cancel] at hget hbefore
      refine ⟨e + 1, m, rfl, by simpa using hget, ?_, ?_⟩
      · intro y hy
        rcases List.mem_cons.mp hy with rfl | hy
        · exact le_of_lt hxm
        · exact hall y hy
      · intro j y hj hy
        cases j with
        | zero =>
          simp at hy
          subst hy
          exact hxm
        | succ j => exact hbefore j y (by omega) (by simpa using hy)

/-! ## Claims on `score` and `select` -/

/-- What `score` computes: the exploration bias multiplies the square root twice. -/
theorem score_eq {R : Type} [Field R] (sqrt log : R → R) (parent_count : Int)
    (n : MCTSNode S) (c : R) (eval : S → R) :
    score sqrt log parent_count n c eval =
      ((n.expected.getD 0 : ℚ) : R) + 1 / 2 * eval n.state +
        c ^ 2 * sqrt (log ((parent_count : R) + 1) / ((n.count : R) + 1)) := by
  simp only [score]
  ring

/-- C9 (the code departs from the claim). Over the reals, for the unvisited
non-root node `exC` whose parent has `count = 1`, exploration bias 2 and an
apprentice evaluating to 0, `score` returns `4 * sqrt (ln 2)`, whereas the
formula of the claim gives `2 * sqrt (ln 2)`. -/
theorem score_multiplies_bias_twice :
    score Real.sqrt Real.log 1 MCTSNode.exC (2 : ℝ) (fun _ => 0) = 4 * Real.sqrt (Real.log 2) ∧
      score Real.sqrt Real.log 1 MCTSNode.exC (2 : ℝ) (fun _ => 0) ≠
        ((MCTSNode.exC.expected.getD 0 : ℚ) : ℝ) + 1 / 2 * 0 +
          2 * Real.sqrt (Real.log (((1 : Int) : ℝ) + 1) / ((MCTSNode.exC.count : ℝ) + 1)) := by
  have hval : score Real.sqrt Real.log 1 MCTSNode.exC (2 : ℝ) (fun _ => 0)
      = 4 * Real.sqrt (Real.log 2) := by
    rw [score_eq]
    simp only [MCTSNode.exC, MCTSNode.expected_mk, MCTSNode.count_mk, MCTSNode.state_mk]
    norm_num
  have hpos : 0 < Real.sqrt (Real.log 2) :=
    Real.sqrt_pos.mpr (Real.log_pos (by norm_num))
  refine ⟨hval, ?_⟩
  rw [hval]
  simp only [MCTSNode.exC, MCTSNode.expected_mk, MCTSNode.count_mk]
  norm_num
  intro h
  linarith

/-- C10. `select` returns `none` exactly when the node has no children.
Otherwise it returns (the index of) one of the children: when every child has no
`expected`, a child with no `expected`; when some child has an `expected`, a
child of maximal score whose score is strictly above that of every child before
it in child order. -/
theorem select_spec {R : Type} [LinearOrderedField R] (sqrt log : R → R) (draw : Nat)
    (n : MCTSNode S) (c : R) (eval : S → R) :
    (select sqrt log draw n c eval = none ↔ n.children = []) ∧
    (n.children ≠ [] →
      ∃ i ch, select sqrt log draw n c eval = some i ∧ n.children[i]? = some ch ∧
        ((∀ x ∈ n.children, x.expected = none) → ch.expected = none) ∧
        ((∃ x ∈ n.children, x.expected ≠ none) →
          (∀ x ∈ n.children, score sqrt log n.count x c eval ≤ score sqrt log n.count ch c eval) ∧
          ∀ (j : Nat) (y : MCTSNode S), j < i → n.children[j]? = some y →
            score sqrt log n.count y c eval < score sqrt log n.count ch c eval)) := by
  by_cases hnil : n.children = []
  · refine ⟨by simp [select, hnil], fun h => absurd hnil h⟩
  · have hlen : n.children.length ≠ 0 := by
      simpa [List.length_eq_zero] using hnil
    have hpos : 0 < n.children.length := Nat.pos_of_ne_zero hlen
    by_cases hall : n.children.all (fun child => child.expected.isNone) = true
    · have hsel : select sqrt log draw n c eval = some (draw % n.children.length) := by
        simp only [select, hlen, hall, if_true, if_false, select_randomly]
      have hall2 : ∀ x ∈ n.children, x.expected = none := by
        intro x hx
        have := List.all_eq_true.mp hall x hx
        simpa using this
      have hi : draw % n.children.length < n.children.length := Nat.mod_lt _ hpos
      refine ⟨by rw [hsel]; simp [hnil], fun _ => ?_⟩
      refine ⟨_, n.children[draw % n.children.length], hsel, List.getElem?_eq_getElem hi, ?_, ?_⟩
      · intro _
        exact hall2 _ (List.getElem_mem _)
      · rintro ⟨x, hx, hxe⟩
        exact absurd (hall2 x hx) hxe
    · obtain ⟨i, m, hmax, hget, hge, hbefore⟩ :=
        max_element_spec (fun x : MCTSNode S => score sqrt log n.count x c eval) n.children hnil
      have hsel : select sqrt log draw n c eval = some i := by
        simp only [select, hlen, hall, if_false, Bool.false_eq_true]
        exact hmax
      refine ⟨by rw [hsel]; simp [hnil], fun _ => ?_⟩
      refine ⟨i, m, hsel, hget, ?_, fun _ => ⟨hge, hbefore⟩⟩
      intro hnone
      exfalso
      apply hall
      rw [List.all_eq_true]
      intro x hx
      simp [hnone x hx]

/-- Witness of C10 on `exScored`, whose children are non-empty and visited. -/
theorem select_spec_witness :
    exScored.children ≠ [] ∧
      ∃ i ch, select Real.sqrt Real.log 0 exScored (1 : ℝ) (fun _ => 0) = some i ∧
        exScored.children[i]? = some ch ∧
        ((∀ x ∈ exScored.children, x.expected = none) → ch.expected = none) ∧
        ((∃ x ∈ exScored.children, x.expected ≠ none) →
          (∀ x ∈ exScored.children,
            score Real.sqrt Real.log exScored.count x (1 : ℝ) (fun _ => 0)
              ≤ score Real.sqrt Real.log exScored.count ch (1 : ℝ) (fun _ => 0)) ∧
          ∀ (j : Nat) (y : MCTSNode Nat), j < i → exScored.children[j]? = some y →
            score Real.sqrt Real.log exScored.count y (1 : ℝ) (fun _ => 0)
              < score Real.sqrt Real.log exScored.count ch (1 : ℝ) (fun _ => 0)) :=
  have hne : exScored.children ≠ [] := by simp [exScored]
  ⟨hne, (select_spec Real.sqrt Real.log 0 exScored (1 : ℝ) (fun _ => 0)).2 hne⟩

/-! ## Claims on `expand` and `play` -/

section ExpandPlay

variable {S A : Type}

/-- C11. On a node without children: when `actions(state)` is empty `expand`
throws and leaves the node unchanged; otherwise the children afterwards are one
per action in order, the `i`-th with state `transition(state, action_i)`, a
parent, `tot = 0`, `count = 0`, no `expected` and no children, nothing else of
the node is changed, and the result is one of these children. On a node with
children `expand` leaves the node unchanged and returns one of its children. -/
theorem expand_spec (mdp : MDP S A) (draw : Nat) (n : MCTSNode S) :
    (n.children = [] → mdp.actions n.state = [] →
      expand mdp draw n = .threw n .no_actions_expand) ∧
    (n.children = [] → mdp.actions n.state ≠ [] →
      ∃ n2 i, expand mdp draw n = .done n2 i ∧
        n2 = MCTSNode.mk n.state
          ((mdp.actions n.state).map
            (fun action => MCTSNode.mk (mdp.tr n.state action) [] (some ()) none 0 0))
          n.parent n.expected n.tot n.count ∧
        n2.children.length = (mdp.actions n.state).length ∧ i < n2.children.length) ∧
    (n.children ≠ [] →
      ∃ i, expand mdp draw n = .done n i ∧ i < n.children.length) := by
  refine ⟨?_, ?_, ?_⟩
  · intro hc ha
    simp [expand, hc, ha]
  · intro hc ha
    have hlen : (mdp.actions n.state).length ≠ 0 := by
      simpa [List.length_eq_zero] using ha
    refine ⟨_, _, by simp only [expand, hc, List.length_nil, if_true, hlen, if_false]; rfl,
      rfl, by simp, ?_⟩
    simp only [MCTSNode.children_mk, select_randomly, List.length_map]
    exact Nat.mod_lt _ (Nat.pos_of_ne_zero hlen)
  · intro hc
    have hlen : n.children.length ≠ 0 := by
      simpa [List.length_eq_zero] using hc
    refine ⟨_, by simp only [expand, hlen, if_false]; rfl, ?_⟩
    exact Nat.mod_lt _ (Nat.pos_of_ne_zero hlen)

/-- Witness of C11 on the unvisited root of state 2 in `exGame`. -/
theorem expand_spec_witness :
    (MCTSNode.fresh 2 [] none : MCTSNode Nat).children = [] ∧
      exGame.actions (MCTSNode.fresh 2 [] none : MCTSNode Nat).state ≠ [] ∧
      ∃ n2 i, expand exGame 1 (MCTSNode.fresh 2 [] none) = .done n2 i ∧
        n2 = MCTSNode.mk (MCTSNode.fresh 2 [] none : MCTSNode Nat).state
          ((exGame.actions (MCTSNode.fresh 2 [] none : MCTSNode Nat).state).map
            (fun action => MCTSNode.mk
              (exGame.tr (MCTSNode.fresh 2 [] none : MCTSNode Nat).state action)
              [] (some ()) none 0 0))
          (MCTSNode.fresh 2 [] none : MCTSNode Nat).parent
          (MCTSNode.fresh 2 [] none : MCTSNode Nat).expected
          (MCTSNode.fresh 2 [] none : MCTSNode Nat).tot
          (MCTSNode.fresh 2 [] none : MCTSNode Nat).count ∧
        n2.children.length =
          (exGame.actions (MCTSNode.fresh 2 [] none : MCTSNode Nat).state).length ∧
        i < n2.children.length :=
  ⟨rfl, by decide, (expand_spec exGame 1 (MCTSNode.fresh 2 [] none)).2.1 rfl (by decide)⟩

end ExpandPlay

section PlayClaims

variable {S A : Type} [DecidableEq S]

/-- C13 (the code departs from the claim). In `exGame`, `play(root, [1, 1])` on
a fresh root of state 5 leaves the chain `exPlayed` and, called on `exPlayed`
with `[2]`, `play` appends a child of state 3 to the root as the claim says. But
`play(exPlayed, [1, 2])` reaches the node of state 4 at depth 1, which has a
child (state 3) but none of state 2: there the test against `this->children.end()`
passes and the end iterator of `cur->children` is dereferenced, so no child is
appended and the behaviour is undefined. -/
theorem play_below_root_dereferences_end :
    play exGame (MCTSNode.fresh 5 [] none) [1, 1] = some (exPlayed, [0, 0]) ∧
      play exGame exPlayed [2] =
        some (MCTSNode.mk 5
          [MCTSNode.mk 4 [MCTSNode.mk 3 [] (some ()) none 0 0] (some ()) none 0 0,
           MCTSNode.mk 3 [] (some ()) none 0 0] none none 0 0, [1]) ∧
      play exGame exPlayed [1, 2] = none := by
  refine ⟨?_, ?_, ?_⟩ <;>
    simp [play, play_walk, find_if, exPlayed, exGame, MCTSNode.fresh, MCTSNode.child]

/-- C14. `play(root, [])` returns `root` and leaves the tree unchanged; for
every action `a`, `play(root, [a])` returns, and a second call on the resulting
tree returns the same node (the same path) and leaves that tree unchanged. -/
theorem play_idempotent (mdp : MDP S A) (root : MCTSNode S) (a : A) :
    play mdp root [] = some (root, []) ∧
    ∃ t1 p1, play mdp root [a] = some (t1, p1) ∧ play mdp t1 [a] = some (t1, p1) := by
  refine ⟨rfl, ?_⟩
  cases root with
  | mk s cs p e t k =>
    cases hf : find_if (fun child => decide (mdp.tr s a = child.state)) cs with
    | some r =>
      obtain ⟨pre, ch, post⟩ := r
      obtain ⟨hsplit, _, _⟩ := find_if_some _ _ _ _ _ hf
      subst hsplit
      refine ⟨MCTSNode.mk s (pre ++ ch :: post) p e t k, [pre.length], ?_, ?_⟩ <;>
        simp [play, play_walk, hf]
    | none =>
      have hno := (find_if_none _ _).mp hf
      have hf2 : find_if (fun child => decide (mdp.tr s a = child.state))
          (cs ++ [MCTSNode.child (mdp.tr s a)]) = some (cs, MCTSNode.child (mdp.tr s a), []) :=
        find_if_of_split _ cs _ [] (by simp [MCTSNode.child]) hno
      refine ⟨MCTSNode.mk s (cs ++ [MCTSNode.child (mdp.tr s a)]) p e t k, [cs.length], ?_, ?_⟩
      · simp [play, play_walk, hf]
      · simp [play, play_walk, hf2]

end PlayClaims

/-! ## Claims on the budget split of `par_search` -/

theorem worker_shares_eq (iters : Int) (m : Nat) :
    worker_shares iters (m + 1) =
      List.replicate m (num_iters_per_thread iters (m + 1)) ++
        [num_iters_last_thread iters (m + 1)] := by
  unfold worker_shares
  rw [List.range_succ, List.map_append]
  congr 1
  · apply List.ext_getElem
    · simp
    · intro i h1 h2
      have hi : i < m := by simpa using h1
      have hne : i ≠ m := Nat.ne_of_lt hi
      simp [hne]
  · simp

/-- C18. For a budget `0 ≤ iters` (an `int`) and `W ≥ 1` workers (an
`unsigned`), `par_search` gives `floor(iters / W)` iterations to each of the
first `W - 1` workers and `iters - (W - 1) * floor(iters / W)` to the last; the
shares sum to `iters`, the last share is at least the common share and exceeds
it by less than `W`, and each share reaches `search` unchanged as an `int`. -/
theorem budget_split (iters : Int) (W : Nat)
    (h0 : 0 ≤ iters) (h31 : iters < 2 ^ 31) (hW : 1 ≤ W) (hW32 : W < 2 ^ 32) :
    worker_shares iters W =
        List.replicate (W - 1) (iters / (W : Int)) ++
          [iters - ((W : Int) - 1) * (iters / (W : Int))] ∧
      (worker_shares iters W).sum = iters ∧
      iters / (W : Int) ≤ iters - ((W : Int) - 1) * (iters / (W : Int)) ∧
      iters - ((W : Int) - 1) * (iters / (W : Int)) < iters / (W : Int) + W ∧
      ∀ v ∈ worker_shares iters W, to_int v = v := by
  obtain ⟨m, rfl⟩ : ∃ m, W = m + 1 := ⟨W - 1, by omega⟩
  have hWpos : (0 : Int) < ((m + 1 : Nat) : Int) := by positivity
  have hmod : iters % 2 ^ 32 = iters := Int.emod_eq_of_lt h0 (by omega)
  have hq0 : 0 ≤ iters / ((m + 1 : Nat) : Int) := Int.ediv_nonneg h0 (le_of_lt hWpos)
  have hdiv := Int.emod_add_ediv iters ((m + 1 : Nat) : Int)
  have hr0 := Int.emod_nonneg iters (ne_of_gt hWpos)
  have hrW := Int.emod_lt_of_pos iters hWpos
  have hper : num_iters_per_thread iters (m + 1) = iters / ((m + 1 : Nat) : Int) := by
    simp only [num_iters_per_thread, hmod]
  have hlastval : iters - (((m + 1 : Nat) : Int) - 1) * (iters / ((m + 1 : Nat) : Int))
      = iters % ((m + 1 : Nat) : Int) + iters / ((m + 1 : Nat) : Int) := by
    linarith
  have hqle : iters / ((m + 1 : Nat) : Int) ≤ iters := by
    have : iters / ((m + 1 : Nat) : Int) * 1 ≤ ((m + 1 : Nat) : Int) * (iters / ((m + 1 : Nat) : Int)) := by
      have h1 : (1 : Int) ≤ ((m + 1 : Nat) : Int) := by omega
      nlinarith
    linarith
  have hlast_le : iters - (((m + 1 : Nat) : Int) - 1) * (iters / ((m + 1 : Nat) : Int)) ≤ iters := by
    have h1 : (0 : Int) ≤ ((m + 1 : Nat) : Int) - 1 := by omega
    have := mul_nonneg h1 hq0
    linarith
  have hlast : num_iters_last_thread iters (m + 1)
      = iters - (((m + 1 : Nat) : Int) - 1) * (iters / ((m + 1 : Nat) : Int)) := by
    simp only [num_iters_last_thread, hper]
    apply Int.emod_eq_of_lt
    · rw [hlastval]; linarith
    · linarith
  have hshares := worker_shares_eq iters m
  rw [hper, hlast] at hshares
  refine ⟨by simpa using hshares, ?_, ?_, ?_, ?_⟩
  · rw [hshares]
    simp only [List.sum_append, List.sum_replicate, List.sum_singleton, smul_eq_mul]
    push_cast
    ring
  · rw [hlastval]; linarith
  · rw [hlastval]; linarith
  · intro v hv
    rw [hshares] at hv
    have hv2 : 0 ≤ v ∧ v < 2 ^ 31 := by
      rcases List.mem_append.mp hv with h | h
      · have := List.eq_of_mem_replicate h
        subst this
        exact ⟨hq0, by linarith⟩
      · simp only [List.mem_singleton] at h
        subst h
        exact ⟨by rw [hlastval]; linarith, by linarith⟩
    unfold to_int
    rw [if_pos hv2.2]

/-- Witness of C18 for a budget of 10 iterations and 4 workers. -/
theorem budget_split_witness :
    (0 : Int) ≤ 10 ∧ (10 : Int) < 2 ^ 31 ∧ 1 ≤ 4 ∧ 4 < 2 ^ 32 ∧
      (worker_shares 10 4 =
          List.replicate (4 - 1) ((10 : Int) / ((4 : Nat) : Int)) ++
            [(10 : Int) - (((4 : Nat) : Int) - 1) * ((10 : Int) / ((4 : Nat) : Int))] ∧
        (worker_shares 10 4).sum = 10 ∧
        (10 : Int) / ((4 : Nat) : Int)
          ≤ (10 : Int) - (((4 : Nat) : Int) - 1) * ((10 : Int) / ((4 : Nat) : Int)) ∧
        (10 : Int) - (((4 : Nat) : Int) - 1) * ((10 : Int) / ((4 : Nat) : Int))
          < (10 : Int) / ((4 : Nat) : Int) + (4 : Nat) ∧
        ∀ v ∈ worker_shares 10 4, to_int v = v) :=
  ⟨by decide, by decide, by decide, by decide,
   budget_split 10 4 (by decide) (by decide) (by decide) (by decide)⟩

/-! ## Merge seen through state paths -/

theorem uniqueSiblingsList_iff {S : Type} (l : List (MCTSNode S)) :
    MCTSNode.uniqueSiblingsList l ↔ ∀ x ∈ l, MCTSNode.uniqueSiblings x := by
  induction l with
  | nil => simp [MCTSNode.uniqueSiblingsList]
  | cons x xs ih => simp [MCTSNode.uniqueSiblingsList, ih]

theorem linked_child {S : Type} (n c : MCTSNode S) (h : MCTSNode.linked n = true) (hc : c ∈ n.children) :
    c.parent = some () ∧ MCTSNode.linked c = true := by
  cases n with
  | mk s cs p e t k =>
    simp only [MCTSNode.linked] at h
    rw [MCTSNode.linkedList_iff] at h
    obtain ⟨hp, hl⟩ := h c hc
    refine ⟨?_, hl⟩
    cases hq : c.parent with
    | none => simp [hq] at hp
    | some u => rfl

theorem unique_child {S : Type} (n c : MCTSNode S) (h : MCTSNode.uniqueSiblings n) (hc : c ∈ n.children) :
    MCTSNode.uniqueSiblings c ∧ (n.children.map MCTSNode.state).Nodup := by
  cases n with
  | mk s cs p e t k =>
    simp only [MCTSNode.uniqueSiblings] at h
    exact ⟨(uniqueSiblingsList_iff cs).mp h.2 c hc, h.1⟩

section StatePaths

variable {S : Type} [DecidableEq S]

theorem first_child_nil (s : S) : first_child s ([] : List (MCTSNode S)) = none := rfl

theorem first_child_cons (s : S) (x : MCTSNode S) (xs : List (MCTSNode S)) :
    first_child s (x :: xs) = if x.state = s then some x else first_child s xs := by
  unfold first_child
  by_cases h : x.state = s
  · simp [find_if, h]
  · simp only [find_if, h, decide_False, Bool.false_eq_true, if_false]
    cases find_if (fun child => decide (child.state = s)) xs with
    | none => rfl
    | some r => obtain ⟨pre, c, post⟩ := r; rfl

theorem first_child_append (s : S) (l₁ l₂ : List (MCTSNode S)) :
    first_child s (l₁ ++ l₂) =
      match first_child s l₁ with
      | some c => some c
      | none => first_child s l₂ := by
  induction l₁ with
  | nil => simp [first_child_nil]
  | cons x xs ih =>
    rw [List.cons_append, first_child_cons, first_child_cons]
    by_cases h : x.state = s
    · simp [h]
    · simp only [h, if_false]
      exact ih

theorem first_child_mem (s : S) (l : List (MCTSNode S)) (c : MCTSNode S)
    (h : first_child s l = some c) : c ∈ l ∧ c.state = s := by
  induction l with
  | nil => simp [first_child_nil] at h
  | cons x xs ih =>
    rw [first_child_cons] at h
    by_cases hx : x.state = s
    · simp only [hx, if_true, Option.some.injEq] at h
      subst h
      exact ⟨List.mem_cons_self _ _, hx⟩
    · simp only [hx, if_false] at h
      exact ⟨List.mem_cons_of_mem _ (ih h).1, (ih h).2⟩

theorem first_child_none (s : S) (l : List (MCTSNode S)) :
    first_child s l = none ↔ ∀ c ∈ l, c.state ≠ s := by
  induction l with
  | nil => simp [first_child_nil]
  | cons x xs ih =>
    rw [first_child_cons]
    by_cases hx : x.state = s
    · simp [hx]
    · simp [hx, ih]

theorem first_child_of_find (s : S) (l pre : List (MCTSNode S)) (c : MCTSNode S)
    (post : List (MCTSNode S))
    (h : find_if (fun child => decide (child.state = s)) l = some (pre, c, post)) :
    first_child s l = some c := by
  simp [first_child, h]

theorem stats_at_cons (n : MCTSNode S) (s : S) (rest : List S) :
    stats_at n (s :: rest) =
      match first_child s n.children with
      | some c => stats_at c rest
      | none => none := by
  simp only [stats_at, first_child]
  cases find_if (fun child => decide (child.state = s)) n.children with
  | none => rfl
  | some r => obtain ⟨pre, c, post⟩ := r; rfl

theorem add_stats_comm (x y : Option (ℚ × Int)) : add_stats x y = add_stats y x := by
  cases x with
  | none => cases y <;> rfl
  | some a =>
    cases y with
    | none => rfl
    | some b =>
      obtain ⟨t1, c1⟩ := a
      obtain ⟨t2, c2⟩ := b
      simp [add_stats, add_comm]

/-- The first child with state `s` after the loop of `merge`, when the children
of `other` have pairwise distinct states. -/
theorem mergeChildren_first_child :
    ∀ (bcs cur cs2 : List (MCTSNode S)), MCTSNode.mergeChildren cur bcs = .ok cs2 →
      (bcs.map MCTSNode.state).Nodup → ∀ s : S,
      match first_child s cur, first_child s bcs with
      | some o, some bc => ∃ m, MCTSNode.merge o bc = .ok m ∧ first_child s cs2 = some m
      | some o, none => first_child s cs2 = some o
      | none, some bc => first_child s cs2 = some (MCTSNode.copy bc (some ()))
      | none, none => first_child s cs2 = none := by
  intro bcs
  induction bcs with
  | nil =>
    intro cur cs2 h _ s
    simp [MCTSNode.mergeChildren] at h
    subst h
    rw [first_child_nil]
    cases first_child s cur <;> simp
  | cons x xs ih =>
    intro cur cs2 h hnd s
    have hnd2 : x.state ∉ xs.map MCTSNode.state ∧ (xs.map MCTSNode.state).Nodup := by
      simpa using hnd
    have hxs_none : first_child x.state xs = none := by
      rw [first_child_none]
      intro c hc heq
      exact hnd2.1 (heq ▸ List.mem_map_of_mem _ hc)
    rw [MCTSNode.mergeChildren] at h
    rw [first_child_cons]
    cases hf : find_if (fun our_child => decide (our_child.state = x.state)) cur with
    | none =>
      simp only [hf] at h
      have hcur_none : first_child x.state cur = none := by simp [first_child, hf]
      have hcopy : (MCTSNode.copy x (some ())).state = x.state :=
        ((MCTSNode.copy_facts (S := S)).1 x (some ())).1
      have ih2 := ih _ _ h hnd2.2 s
      rw [first_child_append, first_child_cons, first_child_nil, hcopy] at ih2
      by_cases hs : x.state = s
      · subst hs
        simp only [if_true]
        rw [hcur_none]
        rw [hcur_none, hxs_none] at ih2
        simpa using ih2
      · simp only [hs, if_false] at ih2 ⊢
        cases hc : first_child s cur with
        | none => rw [hc] at ih2; simpa using ih2
        | some o => rw [hc] at ih2; simpa using ih2
    | some r =>
      obtain ⟨pre, o, post⟩ := r
      simp only [hf] at h
      obtain ⟨hsplit, hp, hpre⟩ := find_if_some _ _ _ _ _ hf
      have hst : o.state = x.state := by simpa using hp
      have hpre_none : ∀ s2, s2 = x.state → first_child s2 pre = none := by
        intro s2 hs2
        rw [first_child_none]
        intro c hc
        have := hpre c hc
        rw [hs2]
        simpa using this
      cases hm : MCTSNode.merge o x with
      | threw m => simp [hm] at h
      | ok m =>
        simp only [hm] at h
        have hms : m.state = o.state := (MCTSNode.merge_keeps o x m (Or.inl hm)).1
        have ih2 := ih _ _ h hnd2.2 s
        rw [first_child_append, first_child_cons] at ih2
        rw [hsplit, first_child_append, first_child_cons]
        by_cases hs : x.state = s
        · subst hs
          simp only [if_true]
          rw [hpre_none _ rfl] at ih2 ⊢
          simp only [hst, hms, if_true] at ih2 ⊢
          rw [hxs_none] at ih2
          exact ⟨m, hm, ih2⟩
        · have hos : ¬ o.state = s := by rw [hst]; exact hs
          have hmss : ¬ m.state = s := by rw [hms]; exact hos
          simp only [hs, hos, hmss, if_false] at ih2 ⊢
          exact ih2

/-- After a successful `merge(a, b)`, the statistics under every state path are
the sums of those of `a` and `b` under that path. -/
theorem stats_at_merge :
    ∀ (path : List S) (a b r : MCTSNode S), MCTSNode.linked b = true →
      MCTSNode.uniqueSiblings b → MCTSNode.merge a b = .ok r →
      stats_at r path = add_stats (stats_at a path) (stats_at b path) := by
  intro path
  induction path with
  | nil =>
    intro a b r _ _ h
    have := MCTSNode.merge_top a b r h
    simp [stats_at, add_stats, this.1, this.2]
  | cons s rest ih =>
    intro a b r hl hu h
    have hc := MCTSNode.merge_children a b r h
    have hnd : (b.children.map MCTSNode.state).Nodup := by
      cases b with
      | mk bs bcs bp be bt bc => exact hu.1
    have key := mergeChildren_first_child _ _ _ hc hnd s
    rw [stats_at_cons, stats_at_cons, stats_at_cons]
    cases ha : first_child s a.children with
    | none =>
      cases hb : first_child s b.children with
      | none =>
        rw [ha, hb] at key
        simp only [] at key
        rw [key]
        rfl
      | some bc =>
        rw [ha, hb] at key
        simp only [] at key
        rw [key]
        have hmem := (first_child_mem _ _ _ hb).1
        obtain ⟨hp, hlc⟩ := linked_child b bc hl hmem
        have hcopy := MCTSNode.copy_eq_self.1 bc hlc
        rw [hp] at hcopy
        simp only [hcopy]
        cases stats_at bc rest <;> rfl
    | some o =>
      cases hb : first_child s b.children with
      | none =>
        rw [ha, hb] at key
        simp only [] at key
        rw [key]
        simp only []
        cases stats_at o rest with
        | none => rfl
        | some v => rfl
      | some bc =>
        rw [ha, hb] at key
        obtain ⟨m, hm, hfm⟩ := key
        rw [hfm]
        have hmem := (first_child_mem _ _ _ hb).1
        exact ih o bc m (linked_child b bc hl hmem).2 (unique_child b bc hu hmem).1 hm

/-- C19. For trees `a`, `b` with equal root state, both roots, pairwise distinct
sibling states at every node (and every stored child having a parent pointer),
`merge(a, b)` and `merge(b, a)` both return, and the two results contain the
same state paths from the root with the same `tot` and the same `count` under
each path. -/
theorem merge_order_independent (a b : MCTSNode S)
    (ha : MCTSNode.linked a = true) (hb : MCTSNode.linked b = true)
    (hstate : a.state = b.state) (hra : a.is_root = true) (hrb : b.is_root = true)
    (hua : MCTSNode.uniqueSiblings a) (hub : MCTSNode.uniqueSiblings b) :
    ∃ r1 r2, MCTSNode.merge a b = .ok r1 ∧ MCTSNode.merge b a = .ok r2 ∧
      ∀ path : List S, stats_at r1 path = stats_at r2 path := by
  obtain ⟨r1, h1, _⟩ := MCTSNode.merge_ok_aux.1 b a ha hb (by rw [hra, hrb]) hstate
  obtain ⟨r2, h2, _⟩ := MCTSNode.merge_ok_aux.1 a b hb ha (by rw [hra, hrb]) hstate.symm
  refine ⟨r1, r2, h1, h2, ?_⟩
  intro path
  rw [stats_at_merge path a b r1 hb hub h1, stats_at_merge path b a r2 ha hua h2,
    add_stats_comm]

/-- Witness of C19 on the example trees `exA` and `exB`. -/
theorem merge_order_independent_witness :
    MCTSNode.linked MCTSNode.exA = true ∧ MCTSNode.linked MCTSNode.exB = true ∧
      MCTSNode.exA.state = MCTSNode.exB.state ∧ MCTSNode.exA.is_root = true ∧
      MCTSNode.exB.is_root = true ∧ MCTSNode.uniqueSiblings MCTSNode.exA ∧
      MCTSNode.uniqueSiblings MCTSNode.exB ∧
      ∃ r1 r2, MCTSNode.merge MCTSNode.exA MCTSNode.exB = .ok r1 ∧
        MCTSNode.merge MCTSNode.exB MCTSNode.exA = .ok r2 ∧
        ∀ path : List Nat, stats_at r1 path = stats_at r2 path :=
  have hua : MCTSNode.uniqueSiblings MCTSNode.exA := by
    simp [MCTSNode.uniqueSiblings, MCTSNode.uniqueSiblingsList, MCTSNode.exA]
  have hub : MCTSNode.uniqueSiblings MCTSNode.exB := by
    simp [MCTSNode.uniqueSiblings, MCTSNode.uniqueSiblingsList, MCTSNode.exB]
  ⟨rfl, rfl, rfl, rfl, rfl, hua, hub,
   merge_order_independent MCTSNode.exA MCTSNode.exB rfl rfl rfl rfl rfl hua hub⟩

end StatePaths

/-! ## Lemmas on `argmax` and on the example environments -/

theorem argmax_spec {α V : Type} [LinearOrder V] (xs : List (α × V)) (hne : xs ≠ []) :
    ∃ r, argmax xs = some r ∧ r ∈ xs ∧ ∀ y ∈ xs, y.2 ≤ r.2 := by
  obtain ⟨i, m, hmax, hget, hge, _⟩ := max_element_spec (fun x : α × V => x.2) xs hne
  exact ⟨m, by simp [argmax, hmax, hget], List.getElem?_mem hget, hge⟩

theorem map_state_set {S : Type} (l : List (MCTSNode S)) (i : Nat) (x x2 : MCTSNode S)
    (hget : l[i]? = some x) (hs : x2.state = x.state) :
    (l.set i x2).map MCTSNode.state = l.map MCTSNode.state := by
  apply List.ext_getElem?
  intro j
  simp only [List.getElem?_map, List.getElem?_set]
  by_cases hij : i = j
  · subst hij
    have hi : i < l.length := (List.getElem?_eq_some.mp hget).1
    simp [hi, hget, hs]
  · simp [hij]

theorem exGame_contract : exGame.contract := by
  constructor
  · intro s hs
    simp only [exGame, decide_eq_false_iff_not] at hs
    simp only [exGame, hs, if_false]
    by_cases h1 : s = 1 <;> simp [h1]
  · intro s hs
    simp only [exGame, decide_eq_true_eq] at hs
    simp [exGame, hs]

theorem exGame_descends : exGame.descends (fun s => s) := by
  intro s hs a ha
  simp only [exGame, decide_eq_false_iff_not] at hs
  simp only [exGame, hs, if_false] at ha
  have ha1 : 1 ≤ a := by
    by_cases h1 : s = 1
    · simp [h1] at ha; omega
    · simp [h1] at ha; omega
  simp only [exGame]
  omega

theorem value_or_bot_none : value_or_bot none = (⊥ : WithBot ℚ) := rfl

theorem value_or_bot_some (q : ℚ) : value_or_bot (some q) = (q : WithBot ℚ) := rfl

/-! ## What `expand`, `play` and `merge` keep -/

section Keeps

variable {S : Type}

theorem linked_eq_children (n : MCTSNode S) :
    MCTSNode.linked n = MCTSNode.linkedList n.children := by
  cases n with
  | mk s cs p e t k => simp [MCTSNode.linked]

theorem unique_iff_children (n : MCTSNode S) :
    MCTSNode.uniqueSiblings n ↔
      (n.children.map MCTSNode.state).Nodup ∧ MCTSNode.uniqueSiblingsList n.children := by
  cases n with
  | mk s cs p e t k => simp [MCTSNode.uniqueSiblings]

theorem keeps_refl (D : Prop) (n : MCTSNode S) : keeps D n n :=
  ⟨rfl, rfl, fun h => h, fun _ h => h⟩

theorem keeps_trans (D : Prop) (a b c : MCTSNode S) (h1 : keeps D a b) (h2 : keeps D b c) :
    keeps D a c :=
  ⟨h2.1.trans h1.1, h2.2.1.trans h1.2.1, fun h => h2.2.2.1 (h1.2.2.1 h),
   fun d h => h2.2.2.2 d (h1.2.2.2 d h)⟩

/-- A node that differs from `n` only in its statistics. -/
theorem keeps_of_same (D : Prop) (n n2 : MCTSNode S) (hs : n2.state = n.state)
    (hp : n2.parent = n.parent) (hc : n2.children = n.children) : keeps D n n2 := by
  refine ⟨hs, hp, ?_, ?_⟩
  · intro h
    rw [linked_eq_children] at h ⊢
    rw [hc]; exact h
  · intro _ h
    rw [unique_iff_children] at h ⊢
    rw [hc]; exact h

theorem mem_set_cases (l : List (MCTSNode S)) (i : Nat) (x2 y : MCTSNode S)
    (h : y ∈ l.set i x2) : y = x2 ∨ y ∈ l := by
  rcases List.mem_or_eq_of_mem_set h with h | h
  · exact Or.inr h
  · exact Or.inl h

/-- Replacing the child at index `i` by a node related to it by `keeps`. -/
theorem keeps_set (D : Prop) (n n2 x x2 : MCTSNode S) (i : Nat)
    (hget : n.children[i]? = some x) (hx : keeps D x x2)
    (hs : n2.state = n.state) (hp : n2.parent = n.parent)
    (hc : n2.children = n.children.set i x2) : keeps D n n2 := by
  have hxmem : x ∈ n.children := List.getElem?_mem hget
  refine ⟨hs, hp, ?_, ?_⟩
  · intro h
    rw [linked_eq_children, MCTSNode.linkedList_iff] at h ⊢
    intro y hy
    rw [hc] at hy
    rcases mem_set_cases _ _ _ _ hy with rfl | hy
    · obtain ⟨h1, h2⟩ := h x hxmem
      exact ⟨by rw [hx.2.1]; exact h1, hx.2.2.1 h2⟩
    · exact h y hy
  · intro d h
    rw [unique_iff_children] at h ⊢
    rw [hc, map_state_set _ i x x2 hget hx.1]
    refine ⟨h.1, ?_⟩
    rw [uniqueSiblingsList_iff] at h ⊢
    intro y hy
    rcases mem_set_cases _ _ _ _ hy with rfl | hy
    · exact hx.2.2.2 d (h.2 x hxmem)
    · exact h.2 y hy

end Keeps

section KeepsOperations

variable {S A : Type}

/-- The call `expand` keeps the invariants when distinct legal actions lead to
distinct states. -/
theorem expand_keeps (mdp : MDP S A) (draw : Nat) (n r : MCTSNode S)
    (h : (expand mdp draw n).self = some r) : keeps mdp.distinct_successors n r := by
  unfold expand at h
  split_ifs at h with h1 h2
  · simp only [Exec.self, Option.some.injEq] at h
    subst h
    exact keeps_refl _ n
  · simp only [Exec.self, Option.some.injEq] at h
    subst h
    refine ⟨rfl, rfl, ?_, ?_⟩
    · intro _
      rw [linked_eq_children, MCTSNode.linkedList_iff]
      intro y hy
      simp only [MCTSNode.children_mk, List.mem_map] at hy
      obtain ⟨a, _, rfl⟩ := hy
      simp [MCTSNode.child, MCTSNode.linked, MCTSNode.linkedList]
    · intro d _
      rw [unique_iff_children]
      simp only [MCTSNode.children_mk, List.map_map]
      constructor
      · have := d n.state
        have heq : (MCTSNode.state ∘ fun action => MCTSNode.child (mdp.tr n.state action))
            = mdp.tr n.state := by
          funext a; simp [MCTSNode.child]
        rw [heq]; exact this
      · rw [uniqueSiblingsList_iff]
        intro y hy
        simp only [List.mem_map] at hy
        obtain ⟨a, _, rfl⟩ := hy
        simp [MCTSNode.child, MCTSNode.uniqueSiblings, MCTSNode.uniqueSiblingsList]
  · simp only [Exec.self, Option.some.injEq] at h
    subst h
    exact keeps_refl _ n

end KeepsOperations

section ParSearch

variable {S A R : Type} [DecidableEq S] [LinearOrderedField R]
variable (mdp : MDP S A) (fuel : Nat) (sqrt log : R → R) (c : R) (eval : S → R)

theorem to_int_of_int (iters : Int) (hlo : -2 ^ 31 ≤ iters) (hhi : iters < 2 ^ 31) :
    to_int (iters % 2 ^ 32) = iters := by
  unfold to_int
  by_cases h0 : 0 ≤ iters
  · have : iters % 2 ^ 32 = iters := Int.emod_eq_of_lt h0 (by omega)
    rw [this, if_pos hhi]
  · have : iters % 2 ^ 32 = iters + 2 ^ 32 := by
      have h1 : (iters + 2 ^ 32) % 2 ^ 32 = iters + 2 ^ 32 :=
        Int.emod_eq_of_lt (by omega) (by omega)
      rw [← h1]
      simp
    rw [this, if_neg (by omega)]
    omega

theorem worker_shares_one (iters : Int) : worker_shares iters 1 = [iters % 2 ^ 32] := by
  have h := worker_shares_eq iters 0
  simp only [Nat.zero_add, List.replicate_zero, List.nil_append] at h
  rw [h]
  simp [num_iters_last_thread]

end ParSearch

section KeepsPlayMerge

variable {S A : Type} [DecidableEq S]

/-- The walk of `play` keeps the invariants whenever its behaviour is defined. -/
theorem play_walk_keeps (D : Prop) (mdp : MDP S A) :
    ∀ (acts : List A) (at_this : Bool) (cur r : MCTSNode S) (path : List Nat),
      play_walk mdp at_this cur acts = some (r, path) → keeps D cur r := by
  intro acts
  induction acts with
  | nil =>
    intro at_this cur r path h
    simp only [play_walk, Option.some.injEq, Prod.mk.injEq] at h
    rw [← h.1]
    exact keeps_refl D cur
  | cons a rest ih =>
    intro at_this cur r path h
    rw [play_walk] at h
    cases hf : find_if (fun child => decide (mdp.tr cur.state a = child.state)) cur.children with
    | some q =>
      obtain ⟨pre, ch, post⟩ := q
      simp only [hf] at h
      obtain ⟨hget, hset⟩ := find_if_idx _ _ _ _ _ hf
      cases hrec : play_walk mdp false ch rest with
      | none => simp [hrec] at h
      | some q2 =>
        obtain ⟨ch2, path2⟩ := q2
        simp only [hrec, Option.some.injEq, Prod.mk.injEq] at h
        rw [← h.1]
        exact keeps_set D cur _ ch ch2 pre.length hget (ih false ch ch2 path2 hrec) rfl rfl
          (by simp [hset ch2])
    | none =>
      simp only [hf] at h
      have hno := (find_if_none _ _).mp hf
      split_ifs at h with hcond
      cases hrec : play_walk mdp false (MCTSNode.child (mdp.tr cur.state a)) rest with
      | none => simp [hrec] at h
      | some q2 =>
        obtain ⟨nx, path2⟩ := q2
        simp only [hrec, Option.some.injEq, Prod.mk.injEq] at h
        rw [← h.1]
        have hk := ih false _ nx path2 hrec
        refine ⟨rfl, rfl, ?_, ?_⟩
        · intro hl
          rw [linked_eq_children] at hl ⊢
          simp only [MCTSNode.children_mk]
          rw [MCTSNode.linkedList_append]
          refine ⟨hl, ?_⟩
          have h1 : nx.parent = some () := by rw [hk.2.1]; rfl
          have h2 : MCTSNode.linked nx = true := hk.2.2.1 (by simp [MCTSNode.child, MCTSNode.linked, MCTSNode.linkedList])
          simp [MCTSNode.linkedList, h1, h2]
        · intro d hu
          rw [unique_iff_children] at hu ⊢
          simp only [MCTSNode.children_mk, List.map_append, List.map_cons, List.map_nil]
          constructor
          · rw [List.nodup_append]
            refine ⟨hu.1, by simp, ?_⟩
            intro s hs1 hs2
            simp only [List.mem_singleton] at hs2
            obtain ⟨y, hy, hys⟩ := List.mem_map.mp hs1
            have := hno y hy
            rw [hs2, hk.1] at hys
            simp only [MCTSNode.child, MCTSNode.state_mk] at hys
            simp [hys] at this
          · rw [uniqueSiblingsList_iff] at hu ⊢
            intro y hy
            rcases List.mem_append.mp hy with hy | hy
            · exact hu.2 y hy
            · simp only [List.mem_singleton] at hy
              subst hy
              exact hk.2.2.2 d (by simp [MCTSNode.child, MCTSNode.uniqueSiblings, MCTSNode.uniqueSiblingsList])

end KeepsPlayMerge

theorem copy_unique {S : Type} :
    (∀ n : MCTSNode S, ∀ p, MCTSNode.uniqueSiblings n → MCTSNode.uniqueSiblings (MCTSNode.copy n p)) ∧
    (∀ l : List (MCTSNode S),
      (MCTSNode.copyChildren l).map MCTSNode.state = l.map MCTSNode.state ∧
      (MCTSNode.uniqueSiblingsList l → MCTSNode.uniqueSiblingsList (MCTSNode.copyChildren l))) := by
  apply MCTSNode.induct
  · intro s cs p e t k ih q hu
    simp only [MCTSNode.uniqueSiblings] at hu
    simp only [MCTSNode.copy, MCTSNode.uniqueSiblings, ih.1]
    exact ⟨hu.1, ih.2 hu.2⟩
  · simp [MCTSNode.copyChildren, MCTSNode.uniqueSiblingsList]
  · intro x xs hx hxs
    have hst := ((MCTSNode.copy_facts (S := S)).1 x (some ())).1
    refine ⟨by simp [MCTSNode.copyChildren, hst, hxs.1], ?_⟩
    intro hu
    simp only [MCTSNode.uniqueSiblingsList] at hu
    simp only [MCTSNode.copyChildren, MCTSNode.uniqueSiblingsList]
    exact ⟨hx (some ()) hu.1, hxs.2 hu.2⟩

section MergeUnique

variable {S : Type} [DecidableEq S]

/-- Whatever its outcome, `merge` leaves a tree without equal-state siblings
when both trees have none. -/
theorem merge_unique :
    (∀ b : MCTSNode S, MCTSNode.uniqueSiblings b → ∀ a, MCTSNode.uniqueSiblings a →
        (MCTSNode.merge a b).self.state = a.state ∧
        MCTSNode.uniqueSiblings (MCTSNode.merge a b).self) ∧
    (∀ bcs : List (MCTSNode S), MCTSNode.uniqueSiblingsList bcs → ∀ cur,
        (cur.map MCTSNode.state).Nodup → MCTSNode.uniqueSiblingsList cur →
        ((MCTSNode.mergeChildren cur bcs).self.map MCTSNode.state).Nodup ∧
        MCTSNode.uniqueSiblingsList (MCTSNode.mergeChildren cur bcs).self) := by
  apply MCTSNode.induct
  · intro bs bcs bp be bt bc ih hub a hua
    cases a with
    | mk s cs p e t k =>
      simp only [MCTSNode.uniqueSiblings] at hub hua
      rw [MCTSNode.merge]
      split_ifs with h1 h2
      · exact ⟨rfl, by simpa [Outcome.self, MCTSNode.uniqueSiblings] using hua⟩
      · exact ⟨rfl, by simpa [Outcome.self, MCTSNode.uniqueSiblings] using hua⟩
      · have := ih hub.2 cs hua.1 hua.2
        cases hm : MCTSNode.mergeChildren cs bcs with
        | ok cs2 =>
          rw [hm] at this
          simpa [Outcome.self, MCTSNode.uniqueSiblings] using this
        | threw cs2 =>
          rw [hm] at this
          simpa [Outcome.self, MCTSNode.uniqueSiblings] using this
  · intro _ cur hnd hu
    simpa [MCTSNode.mergeChildren, Outcome.self] using ⟨hnd, hu⟩
  · intro x xs hx hxs hub cur hnd hu
    simp only [MCTSNode.uniqueSiblingsList] at hub
    rw [MCTSNode.mergeChildren]
    cases hf : find_if (fun our_child => decide (our_child.state = x.state)) cur with
    | none =>
      simp only []
      have hno := (find_if_none _ _).mp hf
      have hst := ((MCTSNode.copy_facts (S := S)).1 x (some ())).1
      apply hxs hub.2
      · rw [List.map_append, List.nodup_append]
        refine ⟨hnd, by simp, ?_⟩
        intro s hs1 hs2
        simp only [List.map_cons, List.map_nil, List.mem_singleton] at hs2
        obtain ⟨y, hy, hys⟩ := List.mem_map.mp hs1
        have := hno y hy
        rw [hs2, hst] at hys
        simp [hys] at this
      · rw [uniqueSiblingsList_iff] at hu ⊢
        intro y hy
        rcases List.mem_append.mp hy with hy | hy
        · exact hu y hy
        · simp only [List.mem_singleton] at hy
          subst hy
          exact copy_unique.1 x (some ()) hub.1
    | some q =>
      obtain ⟨pre, o, post⟩ := q
      simp only []
      obtain ⟨hsplit, _, _⟩ := find_if_some _ _ _ _ _ hf
      subst hsplit
      have huo : MCTSNode.uniqueSiblings o := by
        rw [uniqueSiblingsList_iff] at hu
        exact hu o (by simp)
      obtain ⟨hms, hmu⟩ := hx hub.1 o huo
      have hnd2 : ∀ m : MCTSNode S, m.state = o.state →
          ((pre ++ m :: post).map MCTSNode.state).Nodup := by
        intro m hm
        simpa [hm] using hnd
      have hu2 : ∀ m : MCTSNode S, MCTSNode.uniqueSiblings m →
          MCTSNode.uniqueSiblingsList (pre ++ m :: post) := by
        intro m hm
        rw [uniqueSiblingsList_iff] at hu ⊢
        intro y hy
        simp only [List.mem_append, List.mem_cons] at hy
        rcases hy with hy | rfl | hy
        · exact hu y (by simp [hy])
        · exact hm
        · exact hu y (by simp [hy])
      cases hm : MCTSNode.merge o x with
      | ok m =>
        rw [hm] at hms hmu
        simp only [Outcome.self] at hms hmu
        simp only []
        exact hxs hub.2 _ (hnd2 m hms) (hu2 m hmu)
      | threw m =>
        rw [hm] at hms hmu
        simp only [Outcome.self] at hms hmu
        simp only [Outcome.self]
        exact ⟨hnd2 m hms, hu2 m hmu⟩

end MergeUnique

/-- A relation that, on trees without equal-state siblings, keeps the state and
the absence of equal-state siblings still does so when it is applied inside a
tree. -/
theorem inside_unique {S : Type} (R : MCTSNode S → MCTSNode S → Prop)
    (hR : ∀ n n2, R n n2 → MCTSNode.uniqueSiblings n →
      n2.state = n.state ∧ MCTSNode.uniqueSiblings n2)
    (t t2 : MCTSNode S) (h : Inside R t t2) (hu : MCTSNode.uniqueSiblings t) :
    t2.state = t.state ∧ MCTSNode.uniqueSiblings t2 := by
  induction h with
  | at_node n n2 hr => exact hR n n2 hr hu
  | in_child s pre ch ch2 post p e t k _ ih =>
    refine ⟨rfl, ?_⟩
    simp only [MCTSNode.uniqueSiblings] at hu ⊢
    have h2 := hu.2
    rw [uniqueSiblingsList_iff] at h2
    obtain ⟨hst, hu2⟩ := ih (h2 ch (by simp))
    constructor
    · simpa [hst] using hu.1
    · rw [uniqueSiblingsList_iff]
      intro y hy
      simp only [List.mem_append, List.mem_cons] at hy
      rcases hy with hy | rfl | hy
      · exact h2 y (by simp [hy])
      · exact hu2
      · exact h2 y (by simp [hy])

theorem exGame_distinct_successors : exGame.distinct_successors := by
  intro s
  by_cases h0 : s = 0
  · simp [exGame, h0]
  · by_cases h1 : s = 1
    · simp [exGame, h1]
    · simp only [exGame, h0, h1, if_false, List.map_cons, List.map_nil]
      simp only [List.nodup_cons, List.mem_cons, List.mem_singleton, List.not_mem_nil,
        List.nodup_nil, or_false, not_false_eq_true, and_true]
      omega

theorem char_of_file (f : Nat) (h : f < 8) :
    ((Char.ofNat (f + 'a'.toNat)).toNat : Int) = f + 97 := by
  interval_cases f <;> rfl

theorem char_of_rank (r : Nat) (h : r < 8) :
    ((Char.ofNat (r + '1'.toNat)).toNat : Int) = r + 49 := by
  interval_cases r <;> rfl

theorem trainf_index_move (f1 r1 f2 r2 : Nat) (h1 : f1 < 8) (h2 : r1 < 8) (h3 : f2 < 8)
    (h4 : r2 < 8) :
    uci_chess.trainf_index (move_string f1 r1 f2 r2) = some ((f1 * r1 * f2 * r2 : Nat) : Int) := by
  simp only [uci_chess.trainf_index, move_string, char_of_file _ h1, char_of_file _ h3,
    char_of_rank _ h2, char_of_rank _ h4]
  have ha : (('a'.toNat : Nat) : Int) = 97 := rfl
  have hb : (('1'.toNat : Nat) : Int) = 49 := rfl
  rw [ha, hb]
  push_cast
  congr 1
  ring

theorem decode_eq_move_string (i : Nat) :
    dm_rollout.decode i = move_string (i / 64 % 8) (i / 64 / 8) (i % 64 % 8) (i % 64 / 8) := rfl

theorem decode_position (f1 r1 f2 r2 : Nat) (h1 : f1 < 8) (h3 : f2 < 8) (h4 : r2 < 8) :
    dm_rollout.decode ((r1 * 8 + f1) * 64 + (r2 * 8 + f2)) = move_string f1 r1 f2 r2 := by
  have e1 : ((r1 * 8 + f1) * 64 + (r2 * 8 + f2)) / 64 = r1 * 8 + f1 := by omega
  have e2 : ((r1 * 8 + f1) * 64 + (r2 * 8 + f2)) % 64 = r2 * 8 + f2 := by omega
  have e3 : (r1 * 8 + f1) % 8 = f1 := by omega
  have e4 : (r1 * 8 + f1) / 8 = r1 := by omega
  have e5 : (r2 * 8 + f2) % 8 = f2 := by omega
  have e6 : (r2 * 8 + f2) / 8 = r2 := by omega
  simp only [dm_rollout.decode, move_string, e1, e2, e3, e4, e5, e6]

theorem move_string_injective (a b c d a2 b2 c2 d2 : Nat)
    (ha : a < 8) (hb : b < 8) (hc : c < 8) (hd : d < 8)
    (ha2 : a2 < 8) (hb2 : b2 < 8) (hc2 : c2 < 8) (hd2 : d2 < 8)
    (h : move_string a b c d = move_string a2 b2 c2 d2) :
    a = a2 ∧ b = b2 ∧ c = c2 ∧ d = d2 := by
  have hdata := congrArg String.data h
  simp only [move_string, List.cons.injEq, and_true] at hdata
  obtain ⟨e1, e2, e3, e4⟩ := hdata
  have k1 := congrArg (fun ch : Char => (ch.toNat : Int)) e1
  have k2 := congrArg (fun ch : Char => (ch.toNat : Int)) e2
  have k3 := congrArg (fun ch : Char => (ch.toNat : Int)) e3
  have k4 := congrArg (fun ch : Char => (ch.toNat : Int)) e4
  simp only [char_of_file _ ha, char_of_file _ ha2, char_of_file _ hc, char_of_file _ hc2,
    char_of_rank _ hb, char_of_rank _ hb2, char_of_rank _ hd, char_of_rank _ hd2] at k1 k2 k3 k4
  omega

theorem decode_unique (i : Nat) (hi : i < 4096) (f1 r1 f2 r2 : Nat)
    (h1 : f1 < 8) (h2 : r1 < 8) (h3 : f2 < 8) (h4 : r2 < 8)
    (h : dm_rollout.decode i = move_string f1 r1 f2 r2) :
    i = (r1 * 8 + f1) * 64 + (r2 * 8 + f2) := by
  rw [decode_eq_move_string] at h
  have := move_string_injective _ _ _ _ _ _ _ _ (by omega) (by omega) (by omega) (by omega)
    h1 h2 h3 h4 h
  omega

theorem product_eq_position (f1 r1 f2 r2 : Nat) (h1 : f1 < 8) (h3 : f2 < 8) (h4 : r2 < 8)
    (h : f1 * r1 * f2 * r2 = (r1 * 8 + f1) * 64 + (r2 * 8 + f2)) :
    f1 = 0 ∧ r1 = 0 ∧ f2 = 0 ∧ r2 = 0 := by
  have hb : f1 * r1 * f2 * r2 ≤ 7 * r1 * 7 * 7 :=
    Nat.mul_le_mul (Nat.mul_le_mul (Nat.mul_le_mul (by omega) le_rfl) (by omega)) (by omega)
  omega

theorem product_lt (f1 r1 f2 r2 : Nat) (h1 : f1 < 8) (h2 : r1 < 8) (h3 : f2 < 8) (h4 : r2 < 8) :
    f1 * r1 * f2 * r2 < 4096 := by
  have hb : f1 * r1 * f2 * r2 ≤ 7 * 7 * 7 * 7 :=
    Nat.mul_le_mul (Nat.mul_le_mul (Nat.mul_le_mul (by omega) (by omega)) (by omega)) (by omega)
  omega

/-- C24 (the code departs from the claim). For every move string
`m = f1 r1 f2 r2` with files in `a..h` and ranks in `1..8` (counted from 0
here): the decoding of the guided rollout maps the index
`(r1*8 + f1)*64 + (r2*8 + f2)`, and no other index of `0..4095`, to `m`; but
`trainf` sets the action target of `m` at the index `f1*r1*f2*r2`, and the
decoding maps that index back to `m` only when `m` is `a1a1`. -/
theorem trainf_index_not_inverse (f1 r1 f2 r2 : Nat)
    (h1 : f1 < 8) (h2 : r1 < 8) (h3 : f2 < 8) (h4 : r2 < 8) :
    dm_rollout.decode ((r1 * 8 + f1) * 64 + (r2 * 8 + f2)) = move_string f1 r1 f2 r2 ∧
    (∀ i < 4096, dm_rollout.decode i = move_string f1 r1 f2 r2 →
      i = (r1 * 8 + f1) * 64 + (r2 * 8 + f2)) ∧
    ∃ idx : Nat, uci_chess.trainf_index (move_string f1 r1 f2 r2) = some (idx : Int) ∧
      idx = f1 * r1 * f2 * r2 ∧ idx < 4096 ∧
      (dm_rollout.decode idx = move_string f1 r1 f2 r2 ↔
        f1 = 0 ∧ r1 = 0 ∧ f2 = 0 ∧ r2 = 0) := by
  refine ⟨decode_position f1 r1 f2 r2 h1 h3 h4,
    fun i hi h => decode_unique i hi f1 r1 f2 r2 h1 h2 h3 h4 h,
    f1 * r1 * f2 * r2, trainf_index_move f1 r1 f2 r2 h1 h2 h3 h4, rfl,
    product_lt f1 r1 f2 r2 h1 h2 h3 h4, ?_⟩
  constructor
  · intro h
    have := decode_unique _ (product_lt f1 r1 f2 r2 h1 h2 h3 h4) f1 r1 f2 r2 h1 h2 h3 h4 h
    exact product_eq_position f1 r1 f2 r2 h1 h3 h4 this
  · rintro ⟨rfl, rfl, rfl, rfl⟩
    rfl

/-- Witness of C24 at the move `e2e4`: `trainf` sets index 48, which the
decoding maps to `a1a7`; the index that decodes to `e2e4` is 796. -/
theorem trainf_index_not_inverse_witness :
    move_string 4 1 4 3 = "e2e4" ∧ dm_rollout.decode 48 = "a1a7" ∧
      uci_chess.trainf_index "e2e4" = some 48 ∧
      4 < 8 ∧ 1 < 8 ∧ 4 < 8 ∧ 3 < 8 ∧
      (dm_rollout.decode ((1 * 8 + 4) * 64 + (3 * 8 + 4)) = move_string 4 1 4 3 ∧
        (∀ i < 4096, dm_rollout.decode i = move_string 4 1 4 3 →
          i = (1 * 8 + 4) * 64 + (3 * 8 + 4)) ∧
        ∃ idx : Nat, uci_chess.trainf_index (move_string 4 1 4 3) = some (idx : Int) ∧
          idx = 4 * 1 * 4 * 3 ∧ idx < 4096 ∧
          (dm_rollout.decode idx = move_string 4 1 4 3 ↔
            4 = 0 ∧ 1 = 0 ∧ 4 = 0 ∧ 3 = 0)) :=
  ⟨by decide, by decide, rfl, by decide, by decide, by decide, by decide,
    trainf_index_not_inverse 4 1 4 3 (by decide) (by decide) (by decide) (by decide)⟩

/-! ## The reward of the chess environment -/

/-- C21 as stated fails. For the position `exStart`, in which the game has not
ended (`Evaluate` gives `NOT_TERMINAL`, white to move), `reward` returns the
value 0, and `backprop` started from a node with this position does not fail
for a missing reward: it returns normally. -/
theorem reward_present_before_game_end :
    exStart.1 = TERMINAL.NOT_TERMINAL ∧
      uci_chess.reward Prod.fst Prod.snd exStart = some 0 ∧
      ∃ h2, backprop (uci_chess.reward Prod.fst Prod.snd) 1 exChessHeap 0 = some (.ok h2) := by
  refine ⟨rfl, by simp [uci_chess.reward, exStart], ?_⟩
  simp [backprop, backpropLoop, uci_chess.reward, exStart, exChessHeap]

/-- C21 (amended). In the chess environment of `uci_chess`, `reward` has a
value at every position, whether the game has ended or not: -1 when the side
to move is checkmated, 1 when the other side is checkmated, 0 at every other
position. So `backprop` never fails for a missing reward in this environment,
whatever node it is started from. -/
theorem reward_always_present {CR : Type} (Evaluate : CR → TERMINAL) (white : CR → Bool) :
    (∀ cr : CR, uci_chess.reward Evaluate white cr =
      some (if Evaluate cr = TERMINAL.TERMINAL_WCHECKMATE then (if white cr = true then -1 else 1)
        else if Evaluate cr = TERMINAL.TERMINAL_BCHECKMATE then
          (if white cr = true then 1 else -1)
        else 0)) ∧
    (∀ cr : CR, (uci_chess.reward Evaluate white cr).isSome = true) ∧
    (∀ (fuel : Nat) (h h2 : Heap CR) (this : Nat),
      backprop (uci_chess.reward Evaluate white) fuel h this ≠ some (.threw h2)) := by
  have hval : ∀ cr : CR, uci_chess.reward Evaluate white cr =
      some (if Evaluate cr = TERMINAL.TERMINAL_WCHECKMATE then (if white cr = true then -1 else 1)
        else if Evaluate cr = TERMINAL.TERMINAL_BCHECKMATE then
          (if white cr = true then 1 else -1)
        else 0) := by
    intro cr
    unfold uci_chess.reward
    split_ifs <;> simp_all
  refine ⟨hval, fun cr => by rw [hval cr]; rfl, ?_⟩
  intro fuel h h2 this hthrew
  unfold backprop at hthrew
  rw [hval] at hthrew
  simp only [Option.map_eq_some'] at hthrew
  obtain ⟨x, _, hx⟩ := hthrew
  cases hx

/-! ## Merge and sibling uniqueness -/

section MergeUniqueTop

variable {S : Type} [DecidableEq S]

/-- The loop of `merge` over the children of the other node keeps the states of
the children of `this` pairwise distinct, whatever the other children are and
whatever its outcome. -/
theorem mergeChildren_nodup :
    ∀ (bcs cur : List (MCTSNode S)), (cur.map MCTSNode.state).Nodup →
      ((MCTSNode.mergeChildren cur bcs).self.map MCTSNode.state).Nodup := by
  intro bcs
  induction bcs with
  | nil =>
    intro cur hnd
    simpa [MCTSNode.mergeChildren, Outcome.self] using hnd
  | cons x xs ih =>
    intro cur hnd
    rw [MCTSNode.mergeChildren]
    cases hf : find_if (fun our_child => decide (our_child.state = x.state)) cur with
    | none =>
      simp only []
      have hno := (find_if_none _ _).mp hf
      have hst := ((MCTSNode.copy_facts (S := S)).1 x (some ())).1
      apply ih
      rw [List.map_append, List.nodup_append]
      refine ⟨hnd, by simp, ?_⟩
      intro s hs1 hs2
      simp only [List.map_cons, List.map_nil, List.mem_singleton] at hs2
      obtain ⟨y, hy, hys⟩ := List.mem_map.mp hs1
      have := hno y hy
      rw [hs2, hst] at hys
      simp [hys] at this
    | some q =>
      obtain ⟨pre, o, post⟩ := q
      simp only []
      obtain ⟨hsplit, _, _⟩ := find_if_some _ _ _ _ _ hf
      subst hsplit
      have hnd2 : ∀ m : MCTSNode S, m.state = o.state →
          ((pre ++ m :: post).map MCTSNode.state).Nodup := by
        intro m hm
        simpa [hm] using hnd
      cases hm : MCTSNode.merge o x with
      | ok m =>
        simp only []
        exact ih _ (hnd2 m (MCTSNode.merge_keeps o x m (Or.inl hm)).1)
      | threw m =>
        simp only [Outcome.self]
        exact hnd2 m (MCTSNode.merge_keeps o x m (Or.inr hm)).1

/-- C22. For mergeable trees `a`, `b` (equal root state, equal root-ness, every
stored child having a parent pointer) `merge(a, b)` returns, and when no node of
`a` and no node of `b` has two children with equal state, no node of the result
has; moreover, when the children of `a` have pairwise distinct states, those of
the result have too, whatever the children of `b` are. -/
theorem merge_preserves_unique_siblings (a b : MCTSNode S)
    (ha : MCTSNode.linked a = true) (hb : MCTSNode.linked b = true)
    (hstate : a.state = b.state) (hroot : a.is_root = b.is_root) :
    ∃ r, MCTSNode.merge a b = .ok r ∧
      (MCTSNode.uniqueSiblings a → MCTSNode.uniqueSiblings b → MCTSNode.uniqueSiblings r) ∧
      ((a.children.map MCTSNode.state).Nodup → (r.children.map MCTSNode.state).Nodup) := by
  obtain ⟨r, hr, _⟩ := MCTSNode.merge_ok_aux.1 b a ha hb hroot hstate
  refine ⟨r, hr, ?_, ?_⟩
  · intro hua hub
    have := (merge_unique.1 b hub a hua).2
    rw [hr] at this
    exact this
  · intro hnd
    have := mergeChildren_nodup b.children a.children hnd
    rw [MCTSNode.merge_children a b r hr] at this
    exact this

end MergeUniqueTop

/-- Witness of C22 on `exOne` and on `exTwins`, whose two children have the same
state. -/
theorem merge_preserves_unique_siblings_witness :
    MCTSNode.linked MCTSNode.exOne = true ∧ MCTSNode.linked MCTSNode.exTwins = true ∧
      MCTSNode.exOne.state = MCTSNode.exTwins.state ∧
      MCTSNode.exOne.is_root = MCTSNode.exTwins.is_root ∧
      ∃ r, MCTSNode.merge MCTSNode.exOne MCTSNode.exTwins = .ok r ∧
        (MCTSNode.uniqueSiblings MCTSNode.exOne → MCTSNode.uniqueSiblings MCTSNode.exTwins →
          MCTSNode.uniqueSiblings r) ∧
        ((MCTSNode.exOne.children.map MCTSNode.state).Nodup →
          (r.children.map MCTSNode.state).Nodup) :=
  ⟨rfl, rfl, rfl, rfl, merge_preserves_unique_siblings MCTSNode.exOne MCTSNode.exTwins rfl rfl rfl rfl⟩

section ReachClaims

variable {S A : Type} [DecidableEq S]
variable (mdp : MDP S A)

theorem operation_keeps (n n2 : MCTSNode S) (h : Operation mdp n n2) :
    keeps mdp.distinct_successors n n2 := by
  rcases h with ⟨draw, h⟩ | ⟨acts, path, h⟩
  · exact expand_keeps mdp draw n n2 h
  · exact play_walk_keeps _ mdp acts true n n2 path h

/-- C12 as stated fails. In `exTwinGame` the two legal actions of state 0 lead
to the same state, and one call of `expand` on the freshly constructed root
leaves it with two children of equal state. -/
theorem expand_makes_twins :
    Reach exTwinGame
        (MCTSNode.mk 0 [MCTSNode.mk 1 [] (some ()) none 0 0, MCTSNode.mk 1 [] (some ()) none 0 0]
          none none 0 0) ∧
      ¬ MCTSNode.uniqueSiblings
        (MCTSNode.mk 0 [MCTSNode.mk 1 [] (some ()) none 0 0, MCTSNode.mk 1 [] (some ()) none 0 0]
          none none 0 0 : MCTSNode Nat) := by
  constructor
  · apply Reach.op _ _ (Reach.fresh 0)
    apply Inside.at_node
    left
    exact ⟨0, by simp [expand, exTwinGame, MCTSNode.fresh, MCTSNode.child, Exec.self]⟩
  · simp [MCTSNode.uniqueSiblings]

/-- C12 (amended). In an environment in which distinct legal actions of a state
lead to distinct states, every tree obtained from a freshly constructed root by
a sequence of `expand`, `play` and `merge` calls, each on any node of the tree
(`play` in the runs in which its behaviour is defined, `merge` with any such
tree as argument and whatever its outcome), has no node with two children of
equal state. Trees on which `search` has run are not covered. -/
theorem reach_unique_siblings (hD : mdp.distinct_successors) (t : MCTSNode S)
    (h : Reach mdp t) : MCTSNode.uniqueSiblings t := by
  induction h with
  | fresh s => simp [MCTSNode.fresh, MCTSNode.uniqueSiblings, MCTSNode.uniqueSiblingsList]
  | op t t2 _ hin ih =>
    refine (inside_unique _ ?_ t t2 hin ih).2
    intro n n2 hop hu
    have hk := operation_keeps mdp n n2 hop
    exact ⟨hk.1, hk.2.2.2 hD hu⟩
  | merged t b t2 _ _ hin iht ihb =>
    refine (inside_unique _ ?_ t t2 hin iht).2
    intro n n2 hm hu
    subst hm
    exact merge_unique.1 b ihb n hu

end ReachClaims

/-- Witness of C12 (amended) in `exGame`: the root of state 5 after
`play(root, [1, 1])`, then `expand` on the node of state 3 at the end of the
chain. -/
theorem reach_unique_siblings_witness :
    exGame.distinct_successors ∧
      Reach exGame
        (MCTSNode.mk 5 [MCTSNode.mk 4 [MCTSNode.mk 3
          [MCTSNode.mk 2 [] (some ()) none 0 0, MCTSNode.mk 1 [] (some ()) none 0 0]
          (some ()) none 0 0] (some ()) none 0 0] none none 0 0) ∧
      MCTSNode.uniqueSiblings
        (MCTSNode.mk 5 [MCTSNode.mk 4 [MCTSNode.mk 3
          [MCTSNode.mk 2 [] (some ()) none 0 0, MCTSNode.mk 1 [] (some ()) none 0 0]
          (some ()) none 0 0] (some ()) none 0 0] none none 0 0 : MCTSNode Nat) :=
  have hplayed : Reach exGame exPlayed :=
    Reach.op _ _ (Reach.fresh 5) (Inside.at_node _ _ (Or.inr ⟨[1, 1], [0, 0], by
      simp [play, play_walk, find_if, exGame, exPlayed, MCTSNode.fresh, MCTSNode.child]⟩))
  have hr : Reach exGame
      (MCTSNode.mk 5 [MCTSNode.mk 4 [MCTSNode.mk 3
        [MCTSNode.mk 2 [] (some ()) none 0 0, MCTSNode.mk 1 [] (some ()) none 0 0]
        (some ()) none 0 0] (some ()) none 0 0] none none 0 0) :=
    Reach.op _ _ hplayed (Inside.in_child 5 [] _ _ [] none none 0 0
      (Inside.in_child 4 [] _ _ [] (some ()) none 0 0
        (Inside.at_node _ _ (Or.inl ⟨0, by
          simp [expand, exGame, MCTSNode.child, Exec.self]⟩))))
  ⟨exGame_distinct_successors, hr,
    reach_unique_siblings exGame exGame_distinct_successors _ hr⟩

section StoreRollout

variable {S A : Type}

theorem store_read_lt (st : Store S) (p : Nat) (o : MCTSObject S)
    (h : Store.read st p = some o) : p < st.length ∧ st[p]? = some (some o) := by
  unfold Store.read at h
  split at h
  · next o2 heq =>
    cases h
    exact ⟨(List.getElem?_eq_some.mp heq).1, heq⟩
  · cases h

theorem store_read_append_left (st more : Store S) (p : Nat) (h : p < st.length) :
    Store.read (st ++ more) p = Store.read st p := by
  unfold Store.read
  rw [List.getElem?_append_left h]

theorem store_read_new (st more : Store S) (o : MCTSObject S) :
    Store.read (st ++ some o :: more) st.length = some o := by
  have h : (st ++ some o :: more)[st.length]? = some (some o) := by
    rw [List.getElem?_append_right (le_refl _)]
    simp
  unfold Store.read
  rw [h]

/-- On the path on which it returns, the loop of `basic_rollout` leaves the
store as it was, followed by the objects created, which have no children and
no statistics; `rollout_nodes` has grown by their addresses, which form a chain
below `cur`. It returns in an environment that keeps its contract, from a node
of measure below `fuel`. -/
theorem store_rollout_loop_spec (mdp : MDP S A) (measure : S → Nat)
    (hc : mdp.contract) (hd : mdp.descends measure) :
    ∀ (fuel : Nat) (g : Rng) (st : Store S) (cur : Nat) (nodes : List Nat) (c : MCTSObject S),
      Store.read st cur = some c → measure c.state < fuel →
      ∃ created more g2,
        Store.rollout_loop mdp fuel g st cur nodes =
          .done (st ++ created.map some) (nodes ++ more, g2) ∧
        (∀ o ∈ created, o.children = [] ∧ o.expected = none ∧ o.tot = 0 ∧ o.count = 0) ∧
        (∀ x ∈ more, st.length ≤ x) ∧
        Store.is_rollout_chain mdp (st ++ created.map some) (cur :: more) ∧
        (mdp.is_terminal c.state = true → created = [] ∧ more = []) := by
  intro fuel
  induction fuel with
  | zero => intro g st cur nodes c _ h; omega
  | succ fuel ih =>
    intro g st cur nodes c hcur hm
    by_cases ht : mdp.is_terminal c.state = true
    · refine ⟨[], [], g, by simp [Store.rollout_loop, hcur, ht], by simp, by simp, ?_,
        fun _ => ⟨rfl, rfl⟩⟩
      simpa [Store.is_rollout_chain] using ⟨c, hcur, ht⟩
    · have htf : mdp.is_terminal c.state = false := by simpa using ht
      have hne := hc.1 c.state htf
      have hlen : 0 < (mdp.actions c.state).length := List.length_pos.mpr hne
      have hi : select_randomly g.draw (mdp.actions c.state) < (mdp.actions c.state).length :=
        Nat.mod_lt _ hlen
      obtain ⟨a, hget, hmem⟩ : ∃ a,
          (mdp.actions c.state)[select_randomly g.draw (mdp.actions c.state)]? = some a ∧
          a ∈ mdp.actions c.state :=
        ⟨_, List.getElem?_eq_getElem hi, List.getElem_mem _⟩
      have hlt := hd c.state htf a hmem
      have hnew : Store.read (st ++ [some (MCTSObject.child cur (mdp.tr c.state a))]) st.length =
          some (MCTSObject.child cur (mdp.tr c.state a)) := store_read_new st [] _
      obtain ⟨created, more, g2, hrun, hcreated, hmore, hchain, _⟩ :=
        ih g.next (st ++ [some (MCTSObject.child cur (mdp.tr c.state a))]) st.length
          (nodes ++ [st.length]) (MCTSObject.child cur (mdp.tr c.state a)) hnew
          (by simp only [MCTSObject.child]; omega)
      have hcurlt : cur < st.length := (store_read_lt st cur c hcur).1
      have hassoc : st ++ (MCTSObject.child cur (mdp.tr c.state a) :: created).map some =
          (st ++ [some (MCTSObject.child cur (mdp.tr c.state a))]) ++ created.map some := by
        simp
      refine ⟨MCTSObject.child cur (mdp.tr c.state a) :: created, st.length :: more, g2,
        ?_, ?_, ?_, ?_, fun h => absurd h ht⟩
      · rw [Store.rollout_loop]
        simp only [hcur, htf, hget, hrun]
        simp
      · intro o ho
        rcases List.mem_cons.mp ho with rfl | ho
        · simp [MCTSObject.child]
        · exact hcreated o ho
      · intro x hx
        rcases List.mem_cons.mp hx with rfl | hx
        · exact le_rfl
        · have := hmore x hx
          simp only [List.length_append, List.length_singleton] at this
          omega
      · rw [hassoc]
        refine ⟨⟨c, MCTSObject.child cur (mdp.tr c.state a), ?_, ?_, rfl, a, hmem, rfl⟩, hchain⟩
        · rw [List.append_assoc, store_read_append_left _ _ _ hcurlt]
          exact hcur
        · rw [store_read_append_left _ _ _ (by simp)]
          exact hnew

/-- What holds of `basic_rollout` on the path on which it returns, in an
environment that keeps its contract and whose play-outs end within the bound
`fuel`: every object that existed before is unchanged; the objects created have
no children and are in no `children` vector; the returned chain starts with `n`
itself, its later elements are created objects, each with the element before it
as parent and a state that a legal action of the state before leads to, and the
state of its last element is terminal; when the state of `n` is terminal the
chain is `[n]` and nothing is created. -/
theorem basic_rollout_frame (mdp : MDP S A) (measure : S → Nat)
    (hc : mdp.contract) (hd : mdp.descends measure)
    (fuel : Nat) (g : Rng) (st : Store S) (n : Nat) (c : MCTSObject S)
    (hn : Store.read st n = some c) (hfuel : measure c.state < fuel)
    (hclosed : ∀ o, some o ∈ st → ∀ k ∈ o.children, k < st.length) :
    ∃ st2 chain g2, Store.basic_rollout mdp fuel g st n = .done st2 (chain, g2) ∧
      (∀ a : Nat, a < st.length → st2[a]? = st[a]?) ∧
      (∀ (a : Nat) (o : MCTSObject S), Store.read st2 a = some o → st.length ≤ a →
        o.children = [] ∧ o.expected = none ∧ o.tot = 0 ∧ o.count = 0) ∧
      (∀ o, some o ∈ st2 → ∀ k ∈ o.children, k < st.length) ∧
      chain.head? = some n ∧ (∀ x ∈ chain.tail, st.length ≤ x) ∧
      Store.is_rollout_chain mdp st2 chain ∧
      (mdp.is_terminal c.state = true → chain = [n] ∧ st2 = st) := by
  obtain ⟨created, more, g2, hrun, hcreated, hmore, hchain, hterm⟩ :=
    store_rollout_loop_spec mdp measure hc hd fuel g st n [n] c hn hfuel
  refine ⟨st ++ created.map some, n :: more, g2, by simpa [Store.basic_rollout] using hrun,
    ?_, ?_, ?_, rfl, by simpa using hmore, hchain, ?_⟩
  · intro a ha
    rw [List.getElem?_append_left ha]
  · intro a o ha hge
    obtain ⟨_, hget⟩ := store_read_lt _ _ _ ha
    rw [List.getElem?_append_right hge] at hget
    have hmem := List.getElem?_mem hget
    simp only [List.mem_map, Option.some.injEq] at hmem
    obtain ⟨o2, ho2, rfl⟩ := hmem
    exact hcreated o2 ho2
  · intro o ho k hk
    rcases List.mem_append.mp ho with ho | ho
    · exact hclosed o ho k hk
    · simp only [List.mem_map, Option.some.injEq] at ho
      obtain ⟨o2, ho2, rfl⟩ := ho
      rw [(hcreated o2 ho2).1] at hk
      cases hk
  · intro ht
    obtain ⟨h1, h2⟩ := hterm ht
    simp [h1, h2]

end StoreRollout
/-! ## The play-out on the store -/

/-- C23 (the code departs from the claim). `basic_rollout` puts `this` itself
into the vector of owning pointers. In `exDeadEnd`, called on the child at
address 1 of the root at address 0, whose state is not terminal and has no
legal action, it throws, and the vector is destroyed: the child is deleted
while the root still lists it. In `exGame`, called on the terminal child at
address 1, it returns the chain `[1]` with the store unchanged, and the end of
the lifetime of the returned vector deletes the child in the same way. -/
theorem basic_rollout_owns_this :
    Store.read (exPairStore 0 1) 1 = some (MCTSObject.child 0 1) ∧
      Store.basic_rollout exDeadEnd 1 exOnes (exPairStore 0 1) 1 =
        .threw [some { state := 0, children := [1], parent := none, expected := none,
                       tot := 0, count := 0 }, none] .no_actions_rollout ∧
      Store.basic_rollout exGame 3 exOnes (exPairStore 2 0) 1 =
        .done (exPairStore 2 0) ([1], exOnes) ∧
      Store.destroy (exPairStore 2 0) [1] =
        .done [some { state := 2, children := [1], parent := none, expected := none,
                      tot := 0, count := 0 }, none] () := by
  refine ⟨?_, ?_, ?_, ?_⟩
  · simp [Store.read, exPairStore, MCTSObject.child]
  · simp [Store.basic_rollout, Store.rollout_loop, Store.destroy, Store.delete, Store.read,
      exPairStore, exDeadEnd, select_randomly]
  · simp [Store.basic_rollout, Store.rollout_loop, Store.read, exPairStore, exGame]
  · simp [Store.destroy, Store.delete, Store.read, exPairStore]

/-! ## Claims on `search` -/

/-- C15 (the code departs from the claim). In `exGame`, from a freshly
constructed root of state 2 (at address 0), for every outcome `g` of the random
draws: the one iteration returns and leaves the root with `count = 1`, but one
of the children the root lists, the child the play-out started from, has been
deleted with the vector `rollout_nodes` at the end of the iteration, and the
choice of the best action then reads the deleted object, so `search` has no
defined result. With draws that make `expand` return the second child the store
after the iteration is: the root with `count = 1` and the children at addresses
1 and 2, the first unvisited, the second deleted. -/
theorem search_deletes_visited_child :
    (∀ g : Rng, ∃ st2 child root g2,
      Store.iterations exGame 3 (fun x : ℚ => x) (fun x : ℚ => x) (1 : ℚ) (fun _ => 0) 1
        (exRootStore 2) 0 g = .done st2 g2 ∧
      Store.read st2 0 = some root ∧ root.count = 1 ∧ child ∈ root.children ∧
      st2[child]? = some none ∧
      Store.search exGame 3 (fun x : ℚ => x) (fun x : ℚ => x) (1 : ℚ) (fun _ => 0) 1
        (exRootStore 2) 0 g = (.threw st2 .use_after_free : Exec (Store Nat) Nat)) ∧
    Store.iterations exGame 3 (fun x : ℚ => x) (fun x : ℚ => x) (1 : ℚ) (fun _ => 0) 1
        (exRootStore 2) 0 exOnes =
      .done [some { state := 2, children := [1, 2], parent := none, expected := some 1,
                    tot := 1, count := 1 },
             some { state := 1, children := [], parent := some 0, expected := none,
                    tot := 0, count := 0 },
             none] (Rng.next exOnes) := by
  constructor
  · intro g
    rcases Nat.mod_two_eq_zero_or_one (g 0) with h | h
    · refine ⟨[some { state := 2, children := [1, 2], parent := none, expected := some (-1),
                      tot := -1, count := 1 }, none,
               some { state := 0, children := [], parent := some 0, expected := none,
                      tot := 0, count := 0 }, none], 1, _, Rng.next (Rng.next g), ?_, rfl, rfl,
        by simp, rfl, ?_⟩
      · simp [Store.iterations, Store.iteration, Store.descend, Store.expansion,
          Store.expand, Store.basic_rollout, Store.rollout_loop, Store.backprop,
          Store.backprop_loop, Store.destroy, Store.delete, Store.read, MCTSObject.child,
          MCTSObject.annotate, exRootStore, exGame, select_randomly, Rng.draw, Rng.next,
          List.range', Nat.mod_one, h]
      · simp [Store.search, Store.iterations, Store.iteration, Store.descend, Store.expansion,
          Store.expand, Store.basic_rollout, Store.rollout_loop, Store.backprop,
          Store.backprop_loop, Store.destroy, Store.delete, Store.best_action,
          Store.action_values, Store.find_if_state, Store.read, MCTSObject.child,
          MCTSObject.annotate, exRootStore, exGame, select_randomly, Rng.draw, Rng.next,
          argmax, value_or_bot, List.range', Nat.mod_one, h]
    · refine ⟨[some { state := 2, children := [1, 2], parent := none, expected := some 1,
                      tot := 1, count := 1 },
               some { state := 1, children := [], parent := some 0, expected := none,
                      tot := 0, count := 0 }, none], 2, _, Rng.next g, ?_, rfl, rfl,
        by simp, rfl, ?_⟩
      · simp [Store.iterations, Store.iteration, Store.descend, Store.expansion,
          Store.expand, Store.basic_rollout, Store.rollout_loop, Store.backprop,
          Store.backprop_loop, Store.destroy, Store.delete, Store.read, MCTSObject.child,
          MCTSObject.annotate, exRootStore, exGame, select_randomly, Rng.draw, Rng.next,
          List.range', Nat.mod_one, h]
      · simp [Store.search, Store.iterations, Store.iteration, Store.descend, Store.expansion,
          Store.expand, Store.basic_rollout, Store.rollout_loop, Store.backprop,
          Store.backprop_loop, Store.destroy, Store.delete, Store.best_action,
          Store.action_values, Store.find_if_state, Store.read, MCTSObject.child,
          MCTSObject.annotate, exRootStore, exGame, select_randomly, Rng.draw, Rng.next,
          argmax, value_or_bot, List.range', Nat.mod_one, h]
  · simp [Store.iterations, Store.iteration, Store.descend, Store.expansion,
      Store.expand, Store.basic_rollout, Store.rollout_loop, Store.backprop, Store.backprop_loop,
      Store.destroy, Store.delete, Store.read, MCTSObject.child, MCTSObject.annotate,
      exRootStore, exGame, exOnes, select_randomly, Rng.draw, Rng.next, List.range']

section SearchDesync

variable {S A R : Type} [DecidableEq S] [LinearOrderedField R]
variable (mdp : MDP S A) (fuel : Nat) (sqrt log : R → R) (c : R) (eval : S → R)

/-- C17 (the code departs from the claim). When the starting state has no legal
action, `search` throws before any iteration and leaves the store unchanged;
with `iters = 0` on a node without children whose state has a legal action it
throws the no-child error. But after an iteration the no-child error is not
what happens in general: in `exGame`, on the root of state 2 with the one child
(state 0, terminal) that `play(root, [2])` makes, the legal action 1 has no
child; for every outcome of the draws the one iteration visits the child and
deletes it at its end, and the lookup for action 1 reads the deleted child
before it can throw. -/
theorem search_desync_reads_deleted_child :
    (∀ (iters : Nat) (st : Store S) (this : Nat) (o : MCTSObject S) (g : Rng),
      Store.read st this = some o → mdp.actions o.state = [] →
      Store.search mdp fuel sqrt log c eval iters st this g = .threw st .cannot_act) ∧
    (∀ (st : Store S) (this : Nat) (o : MCTSObject S) (g : Rng),
      Store.read st this = some o → mdp.actions o.state ≠ [] → o.children = [] →
      Store.search mdp fuel sqrt log c eval 0 st this g = .threw st .no_child) ∧
    play exGame (MCTSNode.fresh 2 [] none) [2] =
      some (MCTSNode.mk 2 [MCTSNode.mk 0 [] (some ()) none 0 0] none none 0 0, [0]) ∧
    (1 ∈ exGame.actions 2 ∧ exGame.tr 2 1 ≠ 0) ∧
    (∀ g : Rng,
      Store.search exGame 3 (fun x : ℚ => x) (fun x : ℚ => x) (1 : ℚ) (fun _ => 0) 1
          (exPairStore 2 0) 0 g =
        .threw [some { state := 2, children := [1], parent := none, expected := some 1,
                       tot := 1, count := 1 }, none] .use_after_free) := by
  refine ⟨?_, ?_, ?_, ?_, ?_⟩
  · intro iters st this o g hread hno
    simp [Store.search, hread, hno]
  · intro st this o g hread hne hleaf
    obtain ⟨a, rest, hact⟩ : ∃ a rest, mdp.actions o.state = a :: rest := by
      cases h : mdp.actions o.state with
      | nil => exact absurd h hne
      | cons a rest => exact ⟨a, rest, rfl⟩
    simp [Store.search, Store.iterations, Store.best_action, Store.action_values,
      Store.find_if_state, hread, hact, hleaf]
  · simp [play, play_walk, find_if, exGame, MCTSNode.fresh, MCTSNode.child]
  · simp [exGame]
  · intro g
    simp [Store.search, Store.iterations, Store.iteration, Store.descend, Store.expansion,
      Store.select, Store.read_all,
      Store.basic_rollout, Store.rollout_loop, Store.backprop, Store.backprop_loop,
      Store.destroy, Store.delete, Store.best_action, Store.action_values, Store.find_if_state,
      Store.read, MCTSObject.annotate, exPairStore, exGame,
      select_randomly, Rng.draw, Rng.next, Nat.mod_one]

end SearchDesync

/-- Witness of C17 in `exGame`: no iteration on a fresh root of state 2. -/
theorem search_desync_reads_deleted_child_witness :
    Store.read (exRootStore 2) 0 = some (MCTSObject.mk 2 [] none none 0 0) ∧
      exGame.actions (MCTSObject.mk 2 [] none none 0 0 : MCTSObject Nat).state ≠ [] ∧
      (MCTSObject.mk 2 [] none none 0 0 : MCTSObject Nat).children = [] ∧
      Store.search exGame 3 (fun x : ℚ => x) (fun x : ℚ => x) (1 : ℚ) (fun _ => 0) 0
        (exRootStore 2) 0 exOnes = .threw (exRootStore 2) .no_child :=
  have hread : Store.read (exRootStore 2) 0 = some (MCTSObject.mk 2 [] none none 0 0) := by
    simp [Store.read, exRootStore]
  have hact : exGame.actions (MCTSObject.mk 2 [] none none 0 0 : MCTSObject Nat).state ≠ [] := by
    simp [exGame]
  ⟨hread, hact, rfl,
    (search_desync_reads_deleted_child exGame 3 (fun x : ℚ => x) (fun x : ℚ => x) (1 : ℚ)
      (fun _ => 0)).2.1 (exRootStore 2) 0 _ exOnes hread hact rfl⟩

/-- C20 (the code departs from the claim). In `exTwinGame`, from a freshly
constructed root and with the same draws, `search` with one iteration returns
action 0, while `par_search` with one worker and one iteration has no defined
result: its worker does on its copy of the tree (address 1) what `search` does,
deleting the visited child of the copy (address 3), and
`*this = *new MCTSNode(*tree, tree->parent)` then copies the worker tree and
reads the deleted child. With no iteration on the same root `search` throws
the no-child error, and the same exception in the worker of `par_search` ends
the program. -/
theorem par_search_one_worker_reads_deleted_child :
    Store.search exTwinGame 2 (fun x : ℚ => x) (fun x : ℚ => x) (1 : ℚ) (fun _ => 0) 1
        (exRootStore 0) 0 exOnes =
      .done [some { state := 0, children := [1, 2], parent := none, expected := some 1,
                    tot := 1, count := 1 },
             some { state := 1, children := [], parent := some 0, expected := none,
                    tot := 0, count := 0 },
             none] 0 ∧
    Store.par_search exTwinGame 2 (fun x : ℚ => x) (fun x : ℚ => x) (1 : ℚ) (fun _ => 0) 1 1
        (exRootStore 0) 0 (fun _ => exOnes) =
      (.threw [some { state := 0, children := [], parent := none, expected := none,
                      tot := 0, count := 0 },
               some { state := 0, children := [2, 3], parent := none, expected := some 1,
                      tot := 1, count := 1 },
               some { state := 1, children := [], parent := some 1, expected := none,
                      tot := 0, count := 0 },
               none,
               some { state := 0, children := [], parent := none, expected := some 1,
                      tot := 1, count := 1 },
               some { state := 1, children := [], parent := some 4, expected := none,
                      tot := 0, count := 0 }] .use_after_free : Exec (Store Nat) Nat) ∧
    Store.search exTwinGame 2 (fun x : ℚ => x) (fun x : ℚ => x) (1 : ℚ) (fun _ => 0) 0
        (exRootStore 0) 0 exOnes = (.threw (exRootStore 0) .no_child : Exec (Store Nat) Nat) ∧
    Store.par_search exTwinGame 2 (fun x : ℚ => x) (fun x : ℚ => x) (1 : ℚ) (fun _ => 0) 1 0
        (exRootStore 0) 0 (fun _ => exOnes) =
      (.threw [some { state := 0, children := [], parent := none, expected := none,
                      tot := 0, count := 0 },
               some { state := 0, children := [], parent := none, expected := none,
                      tot := 0, count := 0 }] .terminate : Exec (Store Nat) Nat) := by
  refine ⟨?_, ?_, ?_, ?_⟩
  · simp [Store.search, Store.iterations, Store.iteration, Store.descend, Store.expansion,
      Store.expand, Store.basic_rollout, Store.rollout_loop, Store.backprop, Store.backprop_loop,
      Store.destroy, Store.delete, Store.best_action, Store.action_values, Store.find_if_state,
      Store.read, MCTSObject.child, MCTSObject.annotate, exRootStore, exTwinGame, exOnes,
      select_randomly, Rng.draw, Rng.next, argmax, max_element, max_element_loop, value_or_bot,
      List.range']
  · simp [Store.par_search, Store.worker_trees, Store.merge_all, Store.install, Store.copy,
      worker_shares, num_iters_last_thread, num_iters_per_thread, to_int,
      Store.search, Store.iterations, Store.iteration, Store.descend, Store.expansion,
      Store.expand, Store.basic_rollout, Store.rollout_loop, Store.backprop, Store.backprop_loop,
      Store.destroy, Store.delete, Store.best_action, Store.action_values, Store.find_if_state,
      Store.read, MCTSObject.child, MCTSObject.annotate, exRootStore, exTwinGame, exOnes,
      select_randomly, Rng.draw, Rng.next, argmax, max_element, max_element_loop, value_or_bot,
      List.range']
  · simp [Store.search, Store.iterations, Store.best_action, Store.action_values,
      Store.find_if_state, Store.read, exRootStore, exTwinGame]
  · simp [Store.par_search, Store.worker_trees, Store.copy,
      worker_shares, num_iters_last_thread, num_iters_per_thread, to_int,
      Store.search, Store.iterations, Store.best_action, Store.action_values,
      Store.find_if_state, Store.read, exRootStore, exTwinGame]

end MCTS
